import Mathlib

/-!
# ffmate job lifecycle engine: wildcard resolver, hook runner, worker pipeline, scheduler

A shallow embedding of

* `internal/utils/wildcards/wildcards.go` (`Replace`),
* `internal/ffmpeg/exec.go` (`Execute`),
* `internal/queue/process.go` (`Queue.Init`, `processTask`, `prePostProcessTask`,
  `cancelTask`, `failTask`, `updateTask`).

Go strings are modelled as lists of characters.  Everything the code reads from the
outside world (the clock, the file system, child processes, the JSON codec, the
`shellwords` and `gjson` libraries) is an explicit oracle argument, so every
definition below is a total, executable function of the task and of the oracle.

Conventions:

* `path/filepath` is the Unix implementation (separator `/`, no volume names);
* a worker is modelled sequentially: the effects of one run of `processTask` are a list
  of events, and a run-time panic ends the run with the events so far;
* the scheduler is modelled as steps taken under the mutex `taskMu`.
-/

namespace Ffmate

/-- Go `string`, as the list of its characters. -/
abbrev Str := List Char

/-! ## Go standard library: `strings` -/

/-- Left-to-right, non-overlapping rewriting.  `m s` says whether a match starts at the
head of `s`, and if so gives the replacement text and the (positive) length of the
match.  The counter is the number of characters of the current match that are still to
be skipped; replacement text is emitted and never scanned again. -/
def scan (m : Str → Option (Str × Nat)) : Nat → Str → Str
  | _, [] => []
  | k + 1, _ :: s => scan m k s
  | 0, c :: s =>
    match m (c :: s) with
    | some (r, n) => r ++ scan m (n - 1) s
    | none => c :: scan m 0 s

/-- The matcher of `strings.ReplaceAll(_, old, new)` for a non-empty `old`. -/
def literalMatcher (old new : Str) : Str → Option (Str × Nat) :=
  fun s => if old.isPrefixOf s then some (new, old.length) else none

/-- Go `strings.ReplaceAll(s, old, new)` for a non-empty `old` (every call in the
embedded code passes a non-empty literal). -/
def replaceAll (s old new : Str) : Str :=
  scan (literalMatcher old new) 0 s

/-- Go `strings.Contains(s, sub)`. -/
def containsStr (sub : Str) : Str → Bool
  | [] => sub.isPrefixOf []
  | c :: s => sub.isPrefixOf (c :: s) || containsStr sub s

/-- Go `strings.TrimSuffix(s, suffix)`. -/
def trimSuffix (s suffix : Str) : Str :=
  if suffix.isSuffixOf s then s.take (s.length - suffix.length) else s

/-- Go `strings.Split(s, sep)` for a non-empty `sep`: the pieces between the
non-overlapping occurrences of `sep`, found left to right.  `acc` is the current piece,
reversed; the counter is the number of separator characters still to be skipped. -/
def splitAux (sep : Str) : Nat → Str → Str → List Str
  | _, [], acc => [acc.reverse]
  | k + 1, _ :: s, acc => splitAux sep k s acc
  | 0, c :: s, acc =>
    if sep.isPrefixOf (c :: s) then acc.reverse :: splitAux sep (sep.length - 1) s []
    else splitAux sep 0 s (c :: acc)

/-- Go `strings.Split(s, sep)`. -/
def splitStr (s sep : Str) : List Str :=
  splitAux sep 0 s []

/-- Go `unicode.IsSpace`. -/
def isSpace (c : Char) : Bool :=
  let n := c.toNat
  (9 ≤ n && n ≤ 13) || n == 32 || n == 0x85 || n == 0xA0 || n == 0x1680 ||
    (0x2000 ≤ n && n ≤ 0x200A) || n == 0x2028 || n == 0x2029 || n == 0x202F ||
    n == 0x205F || n == 0x3000

/-- Go `strings.TrimSpace`. -/
def trimSpace (s : Str) : Str :=
  ((s.dropWhile isSpace).reverse.dropWhile isSpace).reverse

/-- The text `%d` prints for an integer. -/
def fmtInt (i : Int) : Str :=
  (toString i).toList

/-! ## Go standard library: `path/filepath` (Unix flavour, separator `/`) -/

/-- The characters after the last `/` of `p` (all of `p` when it has none). -/
def lastElem (p : Str) : Str :=
  (p.reverse.takeWhile (fun c => c != '/')).reverse

/-- The prefix of `p` up to and including its last `/` (empty when it has none). -/
def uptoLastSep (p : Str) : Str :=
  (p.reverse.dropWhile (fun c => c != '/')).reverse

/-- Go `filepath.Base`. -/
def Base (path : Str) : Str :=
  if path = [] then ['.']
  else
    let stripped := (path.reverse.dropWhile (fun c => c == '/')).reverse
    let e := lastElem stripped
    if e = [] then ['/'] else e

/-- Go `filepath.Ext`: the suffix of the last element starting at its last dot. -/
def Ext (path : Str) : Str :=
  let e := (lastElem path).reverse
  let t := e.takeWhile (fun c => c != '.')
  if t.length < e.length then '.' :: t.reverse else []

/-- The `..` case of `filepath.Clean` when it can backtrack: after `out.w--` the buffer
(kept reversed) is cut back while `out.w > dotdot` and the character just cut is not a
separator. -/
def backtrack (dotdot : Nat) (cut : Char) : Str → Str
  | [] => []
  | c :: o =>
    if dotdot < (c :: o).length && cut != '/' then backtrack dotdot c o else c :: o

/-- The main loop of `filepath.Clean`.  `rest` is `path[r:]`, `out` is the output buffer
reversed (so `out.length` is `out.w`); every iteration consumes at least one character
of `rest`, so `rest.length` iterations suffice. -/
def cleanLoop (rooted : Bool) : Nat → Str → Str → Nat → Str
  | 0, _, out, _ => out
  | fuel + 1, rest, out, dotdot =>
    match rest with
    | [] => out
    | c :: r1 =>
      if c = '/' then cleanLoop rooted fuel r1 out dotdot
      else if c = '.' ∧ (r1 = [] ∨ r1.head? = some '/') then
        cleanLoop rooted fuel r1 out dotdot
      else if c = '.' ∧ r1.head? = some '.' ∧ (r1.tail = [] ∨ r1.tail.head? = some '/') then
        match out with
        | last :: o =>
          if dotdot < out.length then
            cleanLoop rooted fuel r1.tail (backtrack dotdot last o) dotdot
          else if !rooted then
            cleanLoop rooted fuel r1.tail ('.' :: '.' :: '/' :: out) (out.length + 3)
          else cleanLoop rooted fuel r1.tail out dotdot
        | [] =>
          if !rooted then cleanLoop rooted fuel r1.tail ['.', '.'] 2
          else cleanLoop rooted fuel r1.tail out dotdot
      else
        let out1 :=
          if (rooted && out.length != 1) || (!rooted && out.length != 0) then '/' :: out
          else out
        let elem := rest.takeWhile (fun c => c != '/')
        cleanLoop rooted fuel (rest.dropWhile (fun c => c != '/')) (elem.reverse ++ out1) dotdot

/-- Go `filepath.Clean`. -/
def Clean (path : Str) : Str :=
  if path = [] then ['.']
  else
    let rooted := path.head? = some '/'
    let out :=
      if rooted then cleanLoop true path.length path.tail ['/'] 1
      else cleanLoop false path.length path [] 0
    if out = [] then ['.'] else out.reverse

/-- Go `filepath.Dir`. -/
def Dir (path : Str) : Str :=
  Clean (uptoLastSep path)

/-! ## `wildcards.Replace` -/

/-- What one call of `Replace` reads from its surroundings: the text each `time.Now()`
formatting yields, `runtime.GOOS`/`GOARCH`, the UUID generated by the call, the
configured encoder path, and the `gjson` library (`gjsonGet json path` is
`some (val.String())` when `gjson.Get(json, path).Exists()`, else `none`). -/
structure ReplaceEnv where
  dateYear : Str
  dateShortYear : Str
  dateMonth : Str
  dateDay : Str
  dateWeek : Str
  timeHour : Str
  timeMinute : Str
  timeSecond : Str
  timestampSeconds : Str
  timestampMilliseconds : Str
  timestampMicroseconds : Str
  timestampNanoseconds : Str
  osName : Str
  osArch : Str
  uuid : Str
  ffmpeg : Str
  gjsonGet : Str → Str → Option Str

/-- The metadata map `*dto.InterfaceMap`, seen through `json.Marshal`: the JSON text, or
`none` when marshalling fails. -/
structure Metadata where
  marshal : Option Str
  deriving DecidableEq, Repr

/-- The `strings.ReplaceAll` calls of `Replace`, in source order: literal and value. -/
def tokenTable (env : ReplaceEnv) (inputFile outputFile source : Str) : List (Str × Str) :=
  [ ("${INPUT_FILE}".toList, '"' :: inputFile ++ ['"']),
    ("${OUTPUT_FILE}".toList, '"' :: outputFile ++ ['"']),
    ("${INPUT_FILE_BASE}".toList, Base inputFile),
    ("${OUTPUT_FILE_BASE}".toList, Base inputFile),
    ("${INPUT_FILE_EXTENSION}".toList, Ext (Base inputFile)),
    -- the literal of line 26 has no closing brace: `${OUTPUT_FILE_EXTENSION`
    ("$\x7bOUTPUT_FILE_EXTENSION".toList, Ext (Base outputFile)),
    ("${INPUT_FILE_BASENAME}".toList, trimSuffix (Base inputFile) (Ext (Base inputFile))),
    ("${OUTPUT_FILE_BASENAME}".toList, trimSuffix (Base outputFile) (Ext (Base outputFile))),
    ("${INPUT_FILE_DIR}".toList, Dir inputFile),
    ("${OUTPUT_FILE_DIR}".toList, Dir inputFile),
    ("${DATE_YEAR}".toList, env.dateYear),
    ("${DATE_SHORTYEAR}".toList, env.dateShortYear),
    ("${DATE_MONTH}".toList, env.dateMonth),
    ("${DATE_DAY}".toList, env.dateDay),
    ("${DATE_WEEK}".toList, env.dateWeek),
    ("${TIME_HOUR}".toList, env.timeHour),
    ("${TIME_MINUTE}".toList, env.timeMinute),
    ("${TIME_SECOND}".toList, env.timeSecond),
    ("${TIMESTAMP_SECONDS}".toList, env.timestampSeconds),
    ("${TIMESTAMP_MILLISECONDS}".toList, env.timestampMilliseconds),
    ("${TIMESTAMP_MICROSECONDS}".toList, env.timestampMicroseconds),
    ("${TIMESTAMP_NANOSECONDS}".toList, env.timestampNanoseconds),
    ("${OS_NAME}".toList, env.osName),
    ("${OS_ARCH}".toList, env.osArch),
    ("${SOURCE}".toList, source),
    ("${UUID}".toList, env.uuid),
    ("${FFMPEG}".toList, env.ffmpeg) ]

/-- The matcher of the regular expression `\$\{METADATA_([^}]+)\}` with the callback of
`ReplaceAllStringFunc`: a match is `${METADATA_`, then the longest non-empty run of
characters other than `}`, then `}`; it is replaced by the value at that path, or by
the empty string when the path does not exist. -/
def metadataMatcher (get : Str → Option Str) : Str → Option (Str × Nat) :=
  fun s =>
    if "$\x7bMETADATA_".toList.isPrefixOf s then
      let body := s.drop 11
      let path := body.takeWhile (fun c => c != '}')
      if path ≠ [] ∧ (body.dropWhile (fun c => c != '}')).head? = some '}' then
        some ((get path).getD [], 11 + path.length + 1)
      else none
    else none

/-- Model of `wildcards.Replace`. -/
def Replace (env : ReplaceEnv) (input inputFile outputFile source : Str)
    (metadata : Option Metadata) : Str :=
  let input := (tokenTable env inputFile outputFile source).foldl
    (fun s p => replaceAll s p.1 p.2) input
  match metadata with
  | none => input
  | some md =>
    match md.marshal with
    | none => input
    | some jsonStr => scan (metadataMatcher (env.gjsonGet jsonStr)) 0 input

/-! ## Data model (`dto`, `model`) -/

/-- The task statuses of `dto.TaskStatus`. -/
inductive Status
  | QUEUED
  | PRE_PROCESSING
  | RUNNING
  | POST_PROCESSING
  | DONE_SUCCESSFUL
  | DONE_ERROR
  | DONE_CANCELED
  deriving DecidableEq, Repr

/-- A status is terminal when it is one of the three `DONE_*` values. -/
def Status.isTerminal : Status → Bool
  | .DONE_SUCCESSFUL => true
  | .DONE_ERROR => true
  | .DONE_CANCELED => true
  | _ => false

/-- A Go `float64`: a number, or one of the three special values.  The code only stores
these values and sets the constants `100` and `-1`. -/
inductive GoFloat
  | ofRat (q : Rat)
  | nan
  | posInf
  | negInf
  deriving DecidableEq, Repr

/-- The pair `dto.RawResolved`. -/
structure RawResolved where
  raw : Str
  resolved : Str
  deriving DecidableEq, Repr

/-- The hook record `dto.PrePostProcessing`; the two paths are nilable pointers. -/
structure Hook where
  scriptPath : Option RawResolved
  sidecarPath : Option RawResolved
  importSidecar : Bool
  startedAt : Int
  finishedAt : Int
  error : Str
  deriving DecidableEq, Repr

/-- The fields of `model.Task` that the worker reads or writes. -/
structure Task where
  uuid : Str
  status : Status
  source : Str
  inputFile : RawResolved
  outputFile : RawResolved
  command : RawResolved
  metadata : Option Metadata
  progress : GoFloat
  remaining : GoFloat
  startedAt : Int
  finishedAt : Int
  error : Str
  preProcessing : Option Hook
  postProcessing : Option Hook
  deriving DecidableEq, Repr

/-- The two phases of the hook runner (`processorType` is `"pre"` or `"post"`). -/
inductive Phase
  | pre
  | post
  deriving DecidableEq, Repr

/-- What the worker does to the outside world, in order. -/
inductive Event
  /-- The call `updateTask(task)`, with the task as it is at that moment. -/
  | update (snapshot : Task)
  /-- The call `prePostProcessTask(task, _, phase)`. -/
  | hookCall (phase : Phase)
  /-- The call `os.MkdirAll(path, 0755)`. -/
  | mkdirAll (path : Str)
  /-- The call `os.WriteFile(path, bytes, 0644)`. -/
  | writeFile (path : Str) (bytes : Str)
  /-- The call `os.ReadFile(path)`. -/
  | readFile (path : Str)
  /-- A hook script started with `exec.Command(args[0], args[1:]...)`. -/
  | runScript (phase : Phase) (args : List Str)
  /-- The call `ffmpeg.Execute` with this command. -/
  | execute (command : Str)
  /-- A child process of `Execute` that `cmd.Start()` did start. -/
  | spawn (program : Str) (args : List Str)
  deriving DecidableEq, Repr

/-- A scanner goroutine of `ffmpeg.Execute` (lines 61-85 of `exec.go`) that is still
running after `cmd.Wait()` has returned: nothing in `Execute` waits for it.  It holds the
value of its variable `duration` and the lines it has yet to handle, in the batches in
which it will handle them. -/
structure Scanner where
  duration : GoFloat
  pending : List (List Str)
  deriving DecidableEq, Repr

/-- The live task (the struct behind `*model.Task`), the effects so far, and the scanner
goroutines that `Execute` has started. -/
structure World where
  task : Task
  events : List Event
  scanners : List Scanner := []
  deriving DecidableEq, Repr

/-- The body of `updateTask`: hand the current task to the task service. -/
def World.updateTask (w : World) : World :=
  { w with events := w.events ++ [Event.update w.task] }

/-- Record an effect other than `updateTask`. -/
def World.emit (w : World) (e : Event) : World :=
  { w with events := w.events ++ [e] }

/-- The statuses of the snapshots handed to `updateTask`, in order. -/
def statusesOf : List Event → List Status
  | [] => []
  | Event.update t :: es => t.status :: statusesOf es
  | _ :: es => statusesOf es

/-- The snapshots handed to `updateTask`, in order. -/
def snapshotsOf : List Event → List Task
  | [] => []
  | Event.update t :: es => t :: snapshotsOf es
  | _ :: es => snapshotsOf es

/-! ## `Queue.cancelTask`, `Queue.failTask` -/

/-- Model of `Queue.cancelTask(task, err)`; `now` is `time.Now().UnixMilli()`. -/
def cancelTask (now : Int) (w : World) (err : Str) : World :=
  World.updateTask
    { w with task := { w.task with
        finishedAt := now, progress := GoFloat.ofRat 100,
        status := Status.DONE_CANCELED, error := err } }

/-- Model of `Queue.failTask(task, err)`; `now` is `time.Now().UnixMilli()`. -/
def failTask (now : Int) (w : World) (err : Str) : World :=
  World.updateTask
    { w with task := { w.task with
        finishedAt := now, progress := GoFloat.ofRat 100,
        status := Status.DONE_ERROR, error := err } }

/-! ## `Queue.prePostProcessTask` -/

/-- How the run of a hook script ends (lines 205-219 of `process.go`). -/
inductive ScriptOutcome
  /-- `cmd.Start()` returned an error: nothing was written to the stderr buffer and
  `cmd.ProcessState` is nil, whose `ExitCode()` is `-1`. -/
  | startFailed
  /-- `cmd.Wait()` returned an error; the captured stderr and the exit code. -/
  | waitFailed (stderr : Str) (exitCode : Int)
  /-- `cmd.Wait()` returned nil. -/
  | succeeded
  deriving DecidableEq, Repr

/-- What the outside world answers during one call of `prePostProcessTask`. -/
structure HookOracle where
  /-- `time.Now().UnixMilli()` at line 158. -/
  startedAt : Int
  /-- `json.Marshal(task.ToDto())`: the bytes, or `none` on error. -/
  marshal : Option Str
  /-- The surroundings of the `Replace` call that resolves the sidecar path. -/
  envSidecar : ReplaceEnv
  /-- The error of `os.MkdirAll` for the sidecar directory, if any. -/
  mkdirErr : Option Str
  /-- The error of `os.WriteFile` for the sidecar, if any. -/
  writeErr : Option Str
  /-- The surroundings of the `Replace` call that resolves the script path. -/
  envScript : ReplaceEnv
  /-- How the script run ends. -/
  script : ScriptOutcome
  /-- The error of `os.ReadFile` on the sidecar, if any. -/
  readErr : Option Str
  /-- The live task after `json.Unmarshal(b, task)`.  Its `preProcessing` field is
  `some h` when the pointer is still set, `h` being the record `processor` points to
  after decoding, and `none` when the JSON set the pointer to nil. -/
  imported : Task
  /-- The error of `json.Unmarshal`, if any. -/
  unmarshalErr : Option Str
  /-- `time.Now().UnixMilli()` at line 237. -/
  finishedAt : Int

/-- How a call of `prePostProcessTask` ends: it returns nil, returns an error, or
panics (the index expression `args[0]` on an empty argument list). -/
inductive HookResult
  | ok
  | error (msg : Str)
  | panic
  deriving DecidableEq, Repr

/-- The hook of a phase: `task.PreProcessing` or `task.PostProcessing`. -/
def Task.hook (t : Task) : Phase → Option Hook
  | Phase.pre => t.preProcessing
  | Phase.post => t.postProcessing

/-- Write through the pointer `processor`, which aliases the hook field of the task. -/
def Task.setHook (t : Task) (phase : Phase) (p : Hook) : Task :=
  match phase with
  | Phase.pre => { t with preProcessing := some p }
  | Phase.post => { t with postProcessing := some p }

/-- The status a phase sets at lines 159-163. -/
def phaseStatus : Phase → Status
  | Phase.pre => Status.PRE_PROCESSING
  | Phase.post => Status.POST_PROCESSING

/-- The file arguments of the `Replace` calls of a hook: the raw paths in the pre
phase, the resolved ones in the post phase. -/
def hookFiles (phase : Phase) (t : Task) : Str × Str :=
  match phase with
  | Phase.pre => (t.inputFile.raw, t.outputFile.raw)
  | Phase.post => (t.inputFile.resolved, t.outputFile.resolved)

/-- Lines 165-191: write the sidecar.  Returns the error to return from
`prePostProcessTask` (only `os.MkdirAll` can cause one), the hook record and the world. -/
def sidecarStep (o : HookOracle) (phase : Phase) (p : Hook) (w : World) :
    Option Str × Hook × World :=
  match p.sidecarPath with
  | none => (none, p, w)
  | some sp =>
    if sp.raw = [] then (none, p, w)
    else
      match o.marshal with
      | none => (none, p, w)
      | some b =>
        let resolved := Replace o.envSidecar sp.raw (hookFiles phase w.task).1
          (hookFiles phase w.task).2 w.task.source w.task.metadata
        let p1 := { p with sidecarPath := some { sp with resolved := resolved } }
        let w1 := World.updateTask { w with task := w.task.setHook phase p1 }
        let w2 := w1.emit (Event.mkdirAll (Dir resolved))
        match o.mkdirErr with
        | some e => (some e, p1, w2)
        | none =>
          let w3 := w2.emit (Event.writeFile resolved b)
          match o.writeErr with
          | some e =>
            let p2 := { p1 with error := "failed to write sidecar: ".toList ++ e }
            (none, p2, { w3 with task := w3.task.setHook phase p2 })
          | none => (none, p1, w3)

/-- The text `fmt.Sprintf("%s (exit code: %d)", stderr, code)`. -/
def scriptError (stderr : Str) (code : Int) : Str :=
  stderr ++ " (exit code: ".toList ++ fmtInt code ++ ")".toList

/-- Lines 193-221: run the script.  Returns whether the step panicked, the hook record
and the world. -/
def scriptStep (parse : Str → Except Str (List Str)) (o : HookOracle) (phase : Phase)
    (p : Hook) (w : World) : Bool × Hook × World :=
  match p.scriptPath with
  | none => (false, p, w)
  | some sc =>
    if p.error = [] ∧ sc.raw ≠ [] then
      let resolved := Replace o.envScript sc.raw (hookFiles phase w.task).1
        (hookFiles phase w.task).2 w.task.source w.task.metadata
      let p1 := { p with scriptPath := some { sc with resolved := resolved } }
      let w1 := World.updateTask { w with task := w.task.setHook phase p1 }
      match parse resolved with
      | Except.error e =>
        let p2 := { p1 with error := e }
        (false, p2, { w1 with task := w1.task.setHook phase p2 })
      | Except.ok [] => (true, p1, w1)
      | Except.ok (a :: as) =>
        let w2 := w1.emit (Event.runScript phase (a :: as))
        match o.script with
        | ScriptOutcome.startFailed =>
          let p2 := { p1 with error := scriptError [] (-1) }
          (false, p2, { w2 with task := w2.task.setHook phase p2 })
        | ScriptOutcome.waitFailed stderr code =>
          let p2 := { p1 with error := scriptError stderr code }
          (false, p2, { w2 with task := w2.task.setHook phase p2 })
        | ScriptOutcome.succeeded => (false, p1, w2)
    else (false, p, w)

/-- Lines 223-235: re-import the sidecar (pre phase only).  Returns the error to return,
the record `processor` points to, whether `processor` still aliases the hook field of
the task, and the world. -/
def importStep (o : HookOracle) (phase : Phase) (p : Hook) (w : World) :
    Option Str × Hook × Bool × World :=
  match p.sidecarPath with
  | none => (none, p, true, w)
  | some sp =>
    if phase = Phase.pre ∧ sp.raw ≠ [] ∧ p.importSidecar = true then
      let w1 := w.emit (Event.readFile sp.resolved)
      match o.readErr with
      | some e => (some e, p, true, w1)
      | none =>
        let w2 := { w1 with task := o.imported }
        let aliased := o.imported.preProcessing.isSome
        let p1 := o.imported.preProcessing.getD p
        (o.unmarshalErr, p1, aliased, w2)
    else (none, p, true, w)

/-- Model of `Queue.prePostProcessTask(task, processor, processorType)` where
`processor` is the hook field of the task for that phase. -/
def prePostProcessTask (parse : Str → Except Str (List Str)) (o : HookOracle)
    (phase : Phase) (w : World) : HookResult × World :=
  let w := w.emit (Event.hookCall phase)
  match w.task.hook phase with
  | none => (HookResult.ok, w)
  | some p =>
    if p.sidecarPath.isNone ∧ p.scriptPath.isNone then (HookResult.ok, w)
    else
      let p0 := { p with startedAt := o.startedAt }
      let w0 := World.updateTask
        { w with task := { w.task.setHook phase p0 with status := phaseStatus phase } }
      match sidecarStep o phase p0 w0 with
      | (some e, _, w1) => (HookResult.error e, w1)
      | (none, p1, w1) =>
        match scriptStep parse o phase p1 w1 with
        | (true, _, w2) => (HookResult.panic, w2)
        | (false, p2, w2) =>
          match importStep o phase p2 w2 with
          | (some e, _, _, w3) => (HookResult.error e, w3)
          | (none, p3, aliased, w3) =>
            let p4 := { p3 with finishedAt := o.finishedAt }
            let w4 := if aliased then { w3 with task := w3.task.setHook phase p4 } else w3
            if p4.error ≠ [] then (HookResult.error p4.error, w4)
            else (HookResult.ok, w4)

/-! ## `ffmpeg.Execute` -/

/-- The functions of package `ffmpeg` that `Execute` calls and that live in its other
files, together with the regular expression and the arithmetic of lines 59-78. -/
structure ExecLib where
  /-- The first submatch of `Duration: (\d+:\d+:\d+\.\d+)` in a line, if it matches. -/
  reDuration : Str → Option Str
  /-- The function `parseDuration`. -/
  parseDuration : Str → GoFloat
  /-- For a line and the current duration: `none` when `parseFFmpegOutput` returns nil,
  else the two arguments passed to `UpdateFunc` (percentage and remaining time). -/
  frame : Str → GoFloat → Option (GoFloat × GoFloat)

/-- What the operating system answers for one sub-command of `Execute`. -/
structure ChildOracle where
  /-- The error of `cmd.StderrPipe()`, if any. -/
  pipeErr : Option Str
  /-- The error of `cmd.Start()`, if any, for a non-empty program under a live context. -/
  startErr : Option Str
  /-- The lines of the child's stderr that the scanner goroutine has handled by the time
  `cmd.Wait()` returns and `stderrBuf.String()` is read. -/
  lines : List Str
  /-- Whether `cmd.Wait()` returns an error. -/
  waitErr : Bool
  /-- The lines the scanner goroutine handles after that, while the worker goes on: the
  first batch as soon as `Execute` has returned, the next one at the next point where the
  worker lets other goroutines run, and so on (see `afterExecute`). -/
  late : List (List Str) := []

/-- The error of `cmd.Start()`: `os/exec` refuses an empty program path, and refuses to
start anything once the context is done. -/
def startError (program : Str) (canceled : Bool) (o : ChildOracle) : Option Str :=
  if program = [] then some "exec: no command".toList
  else if canceled then some "context canceled".toList
  else o.startErr

/-- The body of the scanner loop of lines 63-81, run over some lines: every line
matching the duration expression sets `duration`, every progress frame calls
`UpdateFunc`, which stores the two numbers in the task and calls `updateTask`. -/
def scanLines (lib : ExecLib) : List Str → GoFloat → World → World
  | [], _, w => w
  | line :: ls, duration, w =>
    let duration :=
      match lib.reDuration line with
      | some d => lib.parseDuration d
      | none => duration
    let w :=
      match lib.frame line duration with
      | some (p, r) =>
        World.updateTask { w with task := { w.task with progress := p, remaining := r } }
      | none => w
    scanLines lib ls duration w

/-- The value of the scanner's variable `duration` once the loop body has run over the
lines. -/
def scanDuration (lib : ExecLib) : List Str → GoFloat → GoFloat
  | [], duration => duration
  | line :: ls, duration =>
    scanDuration lib ls
      (match lib.reDuration line with
        | some d => lib.parseDuration d
        | none => duration)

/-- The scanner goroutines that are still running get to run: each one that has lines
left handles its next batch, with the loop body of `scanLines`.  Returns the goroutines
as they are afterwards, and the world. -/
def runScanners (lib : ExecLib) : List Scanner → World → List Scanner × World
  | [], w => ([], w)
  | sc :: rest, w =>
    match sc.pending with
    | [] => (sc :: (runScanners lib rest w).1, (runScanners lib rest w).2)
    | batch :: more =>
      (({ duration := scanDuration lib batch sc.duration, pending := more } : Scanner)
          :: (runScanners lib rest (scanLines lib batch sc.duration w)).1,
        (runScanners lib rest (scanLines lib batch sc.duration w)).2)

/-- A point of the worker at which the scanner goroutines of the world may run. -/
def World.runScanners (lib : ExecLib) (w : World) : World :=
  { (Ffmate.runScanners lib w.scanners w).2 with
    scanners := (Ffmate.runScanners lib w.scanners w).1 }

/-- The contents of `stderrBuf`: every line followed by a newline. -/
def stderrOf : List Str → Str
  | [] => []
  | line :: ls => line ++ '\n' :: stderrOf ls

/-- Lines 55-87 for a child that `cmd.Start()` did start: the started process, the
`UpdateFunc` calls of the lines its scanner goroutine handles before `cmd.Wait()`
returns, and the goroutine, left running with the lines it has yet to handle. -/
def runChild (lib : ExecLib) (o : ChildOracle) (program : Str) (args : List Str)
    (w : World) : World :=
  let w1 := w.emit (Event.spawn program args)
  let w2 := scanLines lib o.lines (GoFloat.ofRat 0) w1
  { w2 with scanners := w2.scanners ++
      [{ duration := scanDuration lib o.lines (GoFloat.ofRat 0), pending := o.late }] }

/-- The loop of `Execute` from sub-command number `index` on.  `canceled` says whether
the context is already done when `Execute` is entered. -/
def executeFrom (lib : ExecLib) (parse : Str → Except Str (List Str)) (ffmpegPath : Str)
    (canceled : Bool) (child : Nat → ChildOracle) : Nat → List Str → World → Option Str × World
  | _, [], w => (none, w)
  | index, cmdStr :: rest, w =>
    match parse (trimSpace cmdStr) with
    | Except.error e => (some ("FFMPEG - failed to parse command: ".toList ++ e), w)
    | Except.ok args0 =>
      let args := args0 ++ ["-progress".toList, "pipe:2".toList]
      let program := if 0 < index then [] else ffmpegPath
      match (child index).pipeErr with
      | some e => (some ("FFMPEG - failed to get stderr pipe: ".toList ++ e), w)
      | none =>
        match startError program canceled (child index) with
        | some e => (some ("FFMPEG - failed to start ffmpeg: ".toList ++ e), w)
        | none =>
          let w1 := runChild lib (child index) program args w
          if (child index).waitErr then (some (stderrOf (child index).lines), w1)
          else executeFrom lib parse ffmpegPath canceled child (index + 1) rest w1

/-- Model of `ffmpeg.Execute`: the returned error message (if any) and the world.  The
scanner goroutine of a started sub-command runs beside the loop and nothing waits for
it: the lines it has handled when `cmd.Wait()` returns are `ChildOracle.lines`, in the
order of the source; with what is left (`ChildOracle.late`) it is handed on in
`World.scanners`, and its remaining `UpdateFunc` calls come after the return of
`Execute`. -/
def Execute (lib : ExecLib) (parse : Str → Except Str (List Str)) (ffmpegPath : Str)
    (canceled : Bool) (child : Nat → ChildOracle) (command : Str) (w : World) :
    Option Str × World :=
  executeFrom lib parse ffmpegPath canceled child 0 (splitStr command "&&".toList) w

/-! ## `Queue.processTask` -/

/-- When the cancel function of the task's context is called, relative to the worker. -/
inductive CancelPoint
  /-- Before `ffmpeg.Execute` is entered (for instance while the pre hook runs). -/
  | beforeExecute
  /-- While `ffmpeg.Execute` runs. -/
  | duringExecute
  /-- After `context.Cause(ctx)` was read at line 128 (or never read). -/
  | afterExecute
  deriving DecidableEq, Repr

/-- What the outside world answers during one run of `processTask`. -/
structure Oracle where
  /-- The `shellwords` parser. -/
  parse : Str → Except Str (List Str)
  /-- The rest of package `ffmpeg`. -/
  lib : ExecLib
  /-- `time.Now().UnixMilli()` at line 82. -/
  startedAt : Int
  /-- The pre-processing hook call. -/
  pre : HookOracle
  /-- The surroundings of the three `Replace` calls of lines 92-96. -/
  envInput : ReplaceEnv
  envOutput : ReplaceEnv
  envCommand : ReplaceEnv
  /-- The error of `os.MkdirAll` for the output directory, if any. -/
  mkdirErr : Option Str
  /-- `config.Config().FFMpeg` as `Execute` reads it. -/
  ffmpegPath : Str
  /-- The cancellation of the task's context, if any: when, and with which cause. -/
  cancel : Option (CancelPoint × Str)
  /-- The children of `Execute`, by sub-command number. -/
  child : Nat → ChildOracle
  /-- The post-processing hook call. -/
  post : HookOracle
  /-- `time.Now().UnixMilli()` where the task is finished. -/
  finishedAt : Int

/-- Whether the context is done when `Execute` is entered. -/
def canceledAtEntry : Option (CancelPoint × Str) → Bool
  | some (CancelPoint.beforeExecute, _) => true
  | _ => false

/-- The message of `context.Cause(ctx)` at line 128, `none` for a nil cause. -/
def causeAtCheck : Option (CancelPoint × Str) → Option Str
  | some (CancelPoint.beforeExecute, c) => some c
  | some (CancelPoint.duringExecute, c) => some c
  | _ => none

/-- The outcome of a worker: the final world, and whether the goroutine panicked. -/
structure Run where
  world : World
  panicked : Bool
  deriving DecidableEq, Repr

/-- Lines 92-98: resolve the wildcards, set the status `RUNNING`, persist. -/
def resolveAndRun (o : Oracle) (w : World) : World :=
  let t := w.task
  let inFile := Replace o.envInput t.inputFile.raw t.inputFile.raw t.outputFile.raw
    t.source t.metadata
  let outFile := Replace o.envOutput t.outputFile.raw t.inputFile.raw t.outputFile.raw
    t.source t.metadata
  let cmd := Replace o.envCommand t.command.raw inFile outFile t.source t.metadata
  World.updateTask
    { w with task := { t with
        inputFile := { t.inputFile with resolved := inFile },
        outputFile := { t.outputFile with resolved := outFile },
        command := { t.command with resolved := cmd },
        status := Status.RUNNING } }

/-- Line 82: the live task when the worker starts, and no effects yet. -/
def startWorld (o : Oracle) (task : Task) : World :=
  { task := { task with startedAt := o.startedAt }, events := [] }

/-- Lines 123-124: `task.Progress = 100` and `task.Remaining = -1`. -/
def markDone (w : World) : World :=
  { w with task := { w.task with
      progress := GoFloat.ofRat 100, remaining := GoFloat.ofRat (-1) } }

/-- Lines 122-148: what the worker does once `Execute` has returned `err`.  The scanner
goroutines `Execute` left behind run beside the worker; the model lets them run at these
points: when `Execute` has returned, after lines 123-124, after the post hook has
returned, and after the terminal update (a panic of the post hook ends the process).  A
frame handled while one of the worker's steps runs counts as handled right before or
right after that step. -/
def afterExecute (o : Oracle) (err : Option Str) (w : World) : Run :=
  let w1 := (markDone (w.runScanners o.lib)).runScanners o.lib
  match err with
  | some e =>
    match causeAtCheck o.cancel with
    | some c =>
      { world := (cancelTask o.finishedAt w1 c).runScanners o.lib, panicked := false }
    | none =>
      { world := (failTask o.finishedAt w1 e).runScanners o.lib, panicked := false }
  | none =>
    match prePostProcessTask o.parse o.post Phase.post w1 with
    | (HookResult.panic, w2) => { world := w2, panicked := true }
    | (HookResult.error e, w2) =>
      { world := (failTask o.finishedAt (w2.runScanners o.lib)
          ("PostProcessing failed: ".toList ++ e)).runScanners o.lib,
        panicked := false }
    | (HookResult.ok, w2) =>
      { world := (World.updateTask { w2.runScanners o.lib with task :=
          { (w2.runScanners o.lib).task with
            finishedAt := o.finishedAt, status := Status.DONE_SUCCESSFUL } }).runScanners o.lib,
        panicked := false }

/-- Lines 82-107 of `processTask`: the pre hook, the wildcard resolution and the output
directory.  Either the worker is already done (left), or `ffmpeg.Execute` is about to
be called in the returned world (right). -/
def beforeExecute (o : Oracle) (task : Task) : Run ⊕ World :=
  match prePostProcessTask o.parse o.pre Phase.pre (startWorld o task) with
  | (HookResult.panic, w1) => Sum.inl { world := w1, panicked := true }
  | (HookResult.error e, w1) =>
    Sum.inl { world := failTask o.finishedAt w1 ("PreProcessing failed: ".toList ++ e),
              panicked := false }
  | (HookResult.ok, w1) =>
    let w2 := resolveAndRun o w1
    let w3 := w2.emit (Event.mkdirAll (Dir w2.task.outputFile.resolved))
    match o.mkdirErr with
    | some e =>
      Sum.inl { world := failTask o.finishedAt w3
                  ("failed to create non-existing output directory: ".toList ++ e),
                panicked := false }
    | none => Sum.inr (w3.emit (Event.execute w3.task.command.resolved))

/-- The call of `ffmpeg.Execute` at lines 108-120, in the world `w`. -/
def callExecute (o : Oracle) (w : World) : Option Str × World :=
  Execute o.lib o.parse o.ffmpegPath (canceledAtEntry o.cancel) o.child
    w.task.command.resolved w

/-- Model of `Queue.processTask(task, ctx, doneFunc)`, up to the deferred `doneFunc`
(which belongs to the scheduler below). -/
def processTask (o : Oracle) (task : Task) : Run :=
  match beforeExecute o task with
  | Sum.inl run => run
  | Sum.inr w =>
    match callExecute o w with
    | (err, w1) => afterExecute o err w1

/-! ## `Queue.Init`: the dispatch loop and the cancel loop -/

/-- Go's conversion `int(x)` of a 64-bit `uint`: values from `2^63` on wrap to negative
numbers. -/
def intOfUint (x : Nat) : Int :=
  if x % 2 ^ 64 < 2 ^ 63 then Int.ofNat (x % 2 ^ 64) else Int.ofNat (x % 2 ^ 64) - 2 ^ 64

/-- The package state of `queue`: the map `taskCtx` from task id to cancel function (a
cancel function is named by the number of its context), the contexts cancelled so far
with their cause, and the number of contexts created. -/
structure SchedState where
  taskCtx : List (Str × Nat)
  canceled : List (Nat × Str)
  created : Nat
  deriving DecidableEq, Repr

/-- The state at start-up: `taskCtx` is the empty map. -/
def SchedState.init : SchedState :=
  { taskCtx := [], canceled := [], created := 0 }

/-- Go map assignment `m[k] = v`. -/
def mapSet (m : List (Str × Nat)) (k : Str) (v : Nat) : List (Str × Nat) :=
  (k, v) :: m.filter (fun e => e.1 != k)

/-- Go `delete(m, k)`. -/
def mapDelete (m : List (Str × Nat)) (k : Str) : List (Str × Nat) :=
  m.filter (fun e => e.1 != k)

/-- Go map lookup `v, ok := m[k]`. -/
def mapGet (m : List (Str × Nat)) (k : Str) : Option Nat :=
  (m.find? (fun e => e.1 == k)).map Prod.snd

/-- The steps that touch the package state, each taken while holding `taskMu`. -/
inductive SchedEvent
  /-- One iteration of the dispatch loop; the argument is what `NextQueued` returns
  (an error, no task, or a task) if it is called. -/
  | tick (next : Except Str (Option Task))
  /-- The `doneFunc` of a worker whose task has this `Uuid` when the worker returns. -/
  | workerExit (uuid : Str)
  /-- A task received from `GetTaskUpdates` by the cancel loop. -/
  | cancelSignal (uuid : Str)

/-- The cause the cancel loop passes to the cancel function. -/
def userCancelCause : Str :=
  "task canceled by user".toList

/-- One step of the scheduler for `MaxConcurrentTasks = max`. -/
def schedStep (max : Nat) (s : SchedState) : SchedEvent → SchedState
  | SchedEvent.tick next =>
    if (s.taskCtx.length : Int) < intOfUint max then
      match next with
      | Except.error _ => s
      | Except.ok none => s
      | Except.ok (some task) =>
        { s with taskCtx := mapSet s.taskCtx task.uuid s.created, created := s.created + 1 }
    else s
  | SchedEvent.workerExit uuid => { s with taskCtx := mapDelete s.taskCtx uuid }
  | SchedEvent.cancelSignal uuid =>
    match mapGet s.taskCtx uuid with
    | some ctx =>
      if s.canceled.any (fun e => e.1 == ctx) then s
      else { s with canceled := s.canceled ++ [(ctx, userCancelCause)] }
    | none => s

/-- The state after a sequence of steps from start-up. -/
def schedRun (max : Nat) (evs : List SchedEvent) : SchedState :=
  evs.foldl (schedStep max) SchedState.init

/-! ## Vocabulary of the properties -/

/-- The edges of the task state machine: `QUEUED → [PRE_PROCESSING] → RUNNING →
[POST_PROCESSING] → DONE_SUCCESSFUL`, the exits to `DONE_ERROR` from the three working
statuses, and the exits to `DONE_CANCELED` from every non-terminal status. -/
def dagEdge : Status → Status → Bool
  | Status.QUEUED, Status.PRE_PROCESSING => true
  | Status.QUEUED, Status.RUNNING => true
  | Status.PRE_PROCESSING, Status.RUNNING => true
  | Status.RUNNING, Status.POST_PROCESSING => true
  | Status.RUNNING, Status.DONE_SUCCESSFUL => true
  | Status.POST_PROCESSING, Status.DONE_SUCCESSFUL => true
  | Status.PRE_PROCESSING, Status.DONE_ERROR => true
  | Status.RUNNING, Status.DONE_ERROR => true
  | Status.POST_PROCESSING, Status.DONE_ERROR => true
  | Status.QUEUED, Status.DONE_CANCELED => true
  | Status.PRE_PROCESSING, Status.DONE_CANCELED => true
  | Status.RUNNING, Status.DONE_CANCELED => true
  | Status.POST_PROCESSING, Status.DONE_CANCELED => true
  | _, _ => false

/-- Whether a sequence of written statuses, read from the status `cur`, is a path of the
state machine once consecutive repeats are collapsed: every write repeats the current
status or follows an edge, nothing is written after a terminal status, and the
sequence ends in a terminal status. -/
def pathFrom (cur : Status) : List Status → Bool
  | [] => cur.isTerminal
  | s :: rest => !cur.isTerminal && (s == cur || dagEdge cur s) && pathFrom s rest

/-- An event a hook step may add while the task has status `s`: a snapshot with status
`s`, or a file-system or script effect. -/
def quietEvent (s : Status) : Event → Bool
  | Event.update t => t.status == s
  | Event.hookCall _ => false
  | Event.execute _ => false
  | Event.spawn _ _ => false
  | _ => true

/-- An event `Execute` may add while the task has status `s`: a snapshot with status
`s`, or a started child. -/
def execEvent (s : Status) : Event → Bool
  | Event.update t => t.status == s
  | Event.spawn _ _ => true
  | _ => false

/-- The events before `ffmpeg.Execute` is called, when the worker gets that far: the
pre hook call with its events, the `RUNNING` snapshot, the creation of the output
directory, and the call itself. -/
def preamble (dPre : List Event) (t : Task) (dir cmd : Str) : List Event :=
  Event.hookCall Phase.pre :: dPre ++ [Event.update t, Event.mkdirAll dir, Event.execute cmd]

/-- The possible shapes of the event sequence of a worker in whose run no `UpdateFunc`
call comes after the return of `Execute`, with whether it panicked.  `dPre`, `dExec` and
`dPost` stand for the events of the pre hook, of `Execute` and of the post hook. -/
inductive RunShape : List Event → Bool → Prop
  /-- The pre hook panicked. -/
  | prePanic (dPre : List Event) (t : Task) :
      (∀ e ∈ dPre, quietEvent Status.PRE_PROCESSING e = true) →
      t.status = Status.PRE_PROCESSING →
      RunShape (Event.hookCall Phase.pre :: Event.update t :: dPre) true
  /-- The pre hook returned an error. -/
  | preFailed (dPre : List Event) (t tf : Task) :
      (∀ e ∈ dPre, quietEvent Status.PRE_PROCESSING e = true) →
      t.status = Status.PRE_PROCESSING →
      tf.status = Status.DONE_ERROR → tf.progress = GoFloat.ofRat 100 →
      RunShape (Event.hookCall Phase.pre :: Event.update t :: dPre ++ [Event.update tf]) false
  /-- The output directory could not be created. -/
  | mkdirFailed (dPre : List Event) (t tf : Task) (dir : Str) :
      (∀ e ∈ dPre, quietEvent Status.PRE_PROCESSING e = true) →
      t.status = Status.RUNNING →
      tf.status = Status.DONE_ERROR → tf.progress = GoFloat.ofRat 100 →
      RunShape (Event.hookCall Phase.pre :: dPre ++
        [Event.update t, Event.mkdirAll dir, Event.update tf]) false
  /-- `Execute` returned an error and the context had a cause. -/
  | canceled (dPre dExec : List Event) (t tf : Task) (dir cmd : Str) :
      (∀ e ∈ dPre, quietEvent Status.PRE_PROCESSING e = true) →
      t.status = Status.RUNNING →
      (∀ e ∈ dExec, execEvent Status.RUNNING e = true) →
      tf.status = Status.DONE_CANCELED → tf.progress = GoFloat.ofRat 100 →
      RunShape (preamble dPre t dir cmd ++ dExec ++ [Event.update tf]) false
  /-- `Execute` returned an error and the context had no cause. -/
  | execFailed (dPre dExec : List Event) (t tf : Task) (dir cmd : Str) :
      (∀ e ∈ dPre, quietEvent Status.PRE_PROCESSING e = true) →
      t.status = Status.RUNNING →
      (∀ e ∈ dExec, execEvent Status.RUNNING e = true) →
      tf.status = Status.DONE_ERROR → tf.progress = GoFloat.ofRat 100 →
      RunShape (preamble dPre t dir cmd ++ dExec ++ [Event.update tf]) false
  /-- The post hook panicked. -/
  | postPanic (dPre dExec dPost : List Event) (t tp : Task) (dir cmd : Str) :
      (∀ e ∈ dPre, quietEvent Status.PRE_PROCESSING e = true) →
      t.status = Status.RUNNING →
      (∀ e ∈ dExec, execEvent Status.RUNNING e = true) →
      (∀ e ∈ dPost, quietEvent Status.POST_PROCESSING e = true) →
      tp.status = Status.POST_PROCESSING →
      RunShape (preamble dPre t dir cmd ++ dExec ++
        Event.hookCall Phase.post :: Event.update tp :: dPost) true
  /-- The post hook returned an error. -/
  | postFailed (dPre dExec dPost : List Event) (t tp tf : Task) (dir cmd : Str) :
      (∀ e ∈ dPre, quietEvent Status.PRE_PROCESSING e = true) →
      t.status = Status.RUNNING →
      (∀ e ∈ dExec, execEvent Status.RUNNING e = true) →
      (∀ e ∈ dPost, quietEvent Status.POST_PROCESSING e = true) →
      tp.status = Status.POST_PROCESSING →
      tf.status = Status.DONE_ERROR → tf.progress = GoFloat.ofRat 100 →
      RunShape (preamble dPre t dir cmd ++ dExec ++
        Event.hookCall Phase.post :: Event.update tp :: dPost ++ [Event.update tf]) false
  /-- The task succeeded. -/
  | succeeded (dPre dExec dPost : List Event) (t tf : Task) (dir cmd : Str) :
      (∀ e ∈ dPre, quietEvent Status.PRE_PROCESSING e = true) →
      t.status = Status.RUNNING →
      (∀ e ∈ dExec, execEvent Status.RUNNING e = true) →
      (∀ e ∈ dPost, quietEvent Status.POST_PROCESSING e = true) →
      tf.status = Status.DONE_SUCCESSFUL → tf.progress = GoFloat.ofRat 100 →
      RunShape (preamble dPre t dir cmd ++ dExec ++
        Event.hookCall Phase.post :: dPost ++ [Event.update tf]) false

/-- The task `a` is the task `b` up to the two fields `UpdateFunc` writes: progress and
remaining time. -/
def sameButProgress (a b : Task) : Prop :=
  a = { b with progress := a.progress, remaining := a.remaining }

/-- An event a scanner goroutine may add while the live task is `t0` up to progress and
remaining time: a snapshot that is `t0` up to these two fields. -/
def lateEvent (t0 : Task) (e : Event) : Prop :=
  ∃ t, e = Event.update t ∧ sameButProgress t t0

/-- No scanner goroutine of the world has lines left to handle. -/
def World.idle (w : World) : Prop :=
  ∀ sc ∈ w.scanners, sc.pending = []

/-- The last effect of the world is a snapshot of the live task as it is now. -/
def World.settled (w : World) : Prop :=
  w.events.getLast? = some (Event.update w.task)

/-- Every scanner goroutine has handled all lines of its child when `cmd.Wait()` returns:
no `UpdateFunc` call comes after the return of `Execute`. -/
def Oracle.scannersDone (o : Oracle) : Prop :=
  ∀ i, (o.child i).late = []

/-- The sidecar step of a hook is absent (no path, or an empty raw path) or succeeds
(the task is marshalled, the directory is created, the file is written). -/
def sidecarAbsentOrWritten (o : HookOracle) (p : Hook) : Bool :=
  match p.sidecarPath with
  | none => true
  | some sp => sp.raw == [] || (o.marshal.isSome && o.mkdirErr.isNone && o.writeErr.isNone)

/-- No sidecar re-import replaces the error `err` recorded in the hook: the phase is
`post`, or there is no sidecar, or `importSidecar` is off, or the file is read and
decoded without error and the decoded record, if the pointer survives, carries `err`. -/
def importKeepsError (o : HookOracle) (phase : Phase) (p : Hook) (err : Str) : Bool :=
  match p.sidecarPath with
  | none => true
  | some sp =>
    phase == Phase.post || sp.raw == [] || !p.importSidecar ||
      (o.readErr.isNone && o.unmarshalErr.isNone &&
        match o.imported.preProcessing with
        | none => true
        | some h => h.error == err)

/-- A matcher that only matches text starting with `${`.  All matchers of `Replace` are
of this kind. -/
def DollarMatcher (m : Str → Option (Str × Nat)) : Prop :=
  ∀ s r n, m s = some (r, n) → ∃ t, s = '$' :: '{' :: t

/-- The documented token names other than the `METADATA_` family, in the order of the
`strings.ReplaceAll` calls of `Replace`. -/
def documentedNames : List Str :=
  ["INPUT_FILE", "OUTPUT_FILE", "INPUT_FILE_BASE", "OUTPUT_FILE_BASE",
   "INPUT_FILE_EXTENSION", "OUTPUT_FILE_EXTENSION", "INPUT_FILE_BASENAME",
   "OUTPUT_FILE_BASENAME", "INPUT_FILE_DIR", "OUTPUT_FILE_DIR",
   "DATE_YEAR", "DATE_SHORTYEAR", "DATE_MONTH", "DATE_DAY", "DATE_WEEK",
   "TIME_HOUR", "TIME_MINUTE", "TIME_SECOND",
   "TIMESTAMP_SECONDS", "TIMESTAMP_MILLISECONDS", "TIMESTAMP_MICROSECONDS",
   "TIMESTAMP_NANOSECONDS", "OS_NAME", "OS_ARCH", "SOURCE", "UUID", "FFMPEG"].map
    String.toList

/-- The literal the code searches for a documented name: `${NAME}`, except for
`OUTPUT_FILE_EXTENSION`, whose literal has no closing brace. -/
def patternOf (name : Str) : Str :=
  if name = "OUTPUT_FILE_EXTENSION".toList then '$' :: '{' :: name
  else '$' :: '{' :: name ++ ['}']

/-! ## Concrete inputs -/

/-- A sample surrounding for `Replace`: a fixed clock, a Linux host, and a `gjson` that
finds no path. -/
def sampleEnv : ReplaceEnv :=
  { dateYear := "2026".toList, dateShortYear := "26".toList, dateMonth := "11".toList,
    dateDay := "04".toList, dateWeek := "45".toList, timeHour := "10".toList,
    timeMinute := "11".toList, timeSecond := "12".toList,
    timestampSeconds := "1793787072".toList,
    timestampMilliseconds := "1793787072000".toList,
    timestampMicroseconds := "1793787072000000".toList,
    timestampNanoseconds := "1793787072000000000".toList,
    osName := "linux".toList, osArch := "amd64".toList,
    uuid := "123e4567-e89b-12d3-a456-426614174000".toList,
    ffmpeg := "/usr/bin/ffmpeg".toList,
    gjsonGet := fun _ _ => none }

/-- What `shellwords` returns for text without quotes, escapes or tabs: the words
between the blanks (none for blank text). -/
def sampleParse (s : Str) : Except Str (List Str) :=
  Except.ok ((splitStr s " ".toList).filter (fun w => w != []))

/-- A sample of the rest of package `ffmpeg`: a line `Duration: …` sets a duration of
60 seconds, and a line `out_time=half` is a progress frame at 50 percent. -/
def sampleLib : ExecLib :=
  { reDuration := fun line =>
      if "Duration: ".toList.isPrefixOf line then some (line.drop 10) else none,
    parseDuration := fun _ => GoFloat.ofRat 60,
    frame := fun line _ =>
      if line = "out_time=half".toList then some (GoFloat.ofRat 50, GoFloat.ofRat 30)
      else none }

/-- A child that starts, prints a duration and one progress frame, and exits with
status 0. -/
def sampleChild : ChildOracle :=
  { pipeErr := none, startErr := none,
    lines := ["Duration: 00:01:00.00".toList, "out_time=half".toList],
    waitErr := false }

/-- A child that starts, prints one line, and exits with a nonzero status. -/
def failingChild : ChildOracle :=
  { pipeErr := none, startErr := none, lines := ["No such file".toList], waitErr := true }

/-- A sample task: queued, no hooks, no metadata. -/
def sampleTask : Task :=
  { uuid := "t1".toList, status := Status.QUEUED, source := "api".toList,
    inputFile := { raw := "/in/a.mp4".toList, resolved := [] },
    outputFile := { raw := "/out/a.mkv".toList, resolved := [] },
    command := { raw := "-i ${INPUT_FILE} -c:v copy ${OUTPUT_FILE}".toList, resolved := [] },
    metadata := none, progress := GoFloat.ofRat 0, remaining := GoFloat.ofRat 0,
    startedAt := 0, finishedAt := 0, error := [],
    preProcessing := none, postProcessing := none }

/-- A hook world in which everything works and the script exits with status 0. -/
def sampleHookOracle : HookOracle :=
  { startedAt := 1000, marshal := some "{}".toList, envSidecar := sampleEnv,
    mkdirErr := none, writeErr := none, envScript := sampleEnv,
    script := ScriptOutcome.succeeded, readErr := none, imported := sampleTask,
    unmarshalErr := none, finishedAt := 2000 }

/-- A world in which everything works. -/
def sampleOracle : Oracle :=
  { parse := sampleParse, lib := sampleLib, startedAt := 1000, pre := sampleHookOracle,
    envInput := sampleEnv, envOutput := sampleEnv, envCommand := sampleEnv,
    mkdirErr := none, ffmpegPath := "/usr/bin/ffmpeg".toList, cancel := none,
    child := fun _ => sampleChild, post := sampleHookOracle, finishedAt := 9000 }

/-- A hook that only runs a script. -/
def scriptHook (path : Str) : Hook :=
  { scriptPath := some { raw := path, resolved := [] }, sidecarPath := none,
    importSidecar := false, startedAt := 0, finishedAt := 0, error := [] }

/-- A task whose pre hook has a script path made of one blank. -/
def blankScriptTask : Task :=
  { sampleTask with preProcessing := some (scriptHook " ".toList) }

/-- A world in which the encoder exits with a nonzero status, and nobody cancels. -/
def failingOracle : Oracle :=
  { sampleOracle with child := fun _ => failingChild }

/-- A world in which the user cancels while the encoder runs, and the encoder exits with
a nonzero status. -/
def cancelDuringOracle : Oracle :=
  { sampleOracle with
    child := fun _ => failingChild,
    cancel := some (CancelPoint.duringExecute, userCancelCause) }

/-- A world in which the user cancels before `Execute` is entered. -/
def cancelEarlyOracle : Oracle :=
  { sampleOracle with cancel := some (CancelPoint.beforeExecute, userCancelCause) }

/-- A pre hook that writes a sidecar, runs a script and re-imports the sidecar. -/
def importHook : Hook :=
  { scriptPath := some { raw := "/bin/fail.sh".toList, resolved := [] },
    sidecarPath := some { raw := "/tmp/side.json".toList, resolved := [] },
    importSidecar := true, startedAt := 0, finishedAt := 0, error := [] }

/-- A task with the hook `importHook` before the encoder runs. -/
def importTask : Task :=
  { sampleTask with preProcessing := some importHook }

/-- A world in which the pre script prints `boom` and exits with status 3, and the
sidecar read back describes the task as it was when the sidecar was written, with an
empty `error` in its hook record. -/
def clobberOracle : Oracle :=
  { sampleOracle with
    pre := { sampleHookOracle with
      script := ScriptOutcome.waitFailed "boom".toList 3,
      imported := { sampleTask with
        status := Status.PRE_PROCESSING, startedAt := 1000,
        preProcessing := some { importHook with
          startedAt := 1000,
          sidecarPath := some { raw := "/tmp/side.json".toList,
                                resolved := "/tmp/side.json".toList } } } } }

/-- A world like `clobberOracle`, except that the sidecar read back carries the error
text `edited` in its hook record (the script rewrote the file). -/
def editedOracle : Oracle :=
  { sampleOracle with
    pre := { sampleHookOracle with
      script := ScriptOutcome.waitFailed "boom".toList 3,
      imported := { sampleTask with
        status := Status.PRE_PROCESSING, startedAt := 1000,
        preProcessing := some { importHook with
          startedAt := 1000, error := "edited".toList,
          sidecarPath := some { raw := "/tmp/side.json".toList,
                                resolved := "/tmp/side.json".toList } } } } }

/-- A world in which the pre script prints `boom` and exits with status 3. -/
def failingScriptOracle : Oracle :=
  { sampleOracle with
    pre := { sampleHookOracle with script := ScriptOutcome.waitFailed "boom".toList 3 } }

/-- A task whose pre hook only runs the script `/bin/fail.sh`. -/
def scriptTask : Task :=
  { sampleTask with preProcessing := some (scriptHook "/bin/fail.sh".toList) }

/-- A child that prints a duration and one progress frame and exits with status 0; its
scanner goroutine has handled the duration when `cmd.Wait()` returns, and handles the
frame after the worker has run lines 123-124. -/
def lateChild : ChildOracle :=
  { pipeErr := none, startErr := none, lines := ["Duration: 00:01:00.00".toList],
    waitErr := false, late := [[], ["out_time=half".toList]] }

/-- A world in which everything works and the progress frame of the encoder is handled
late. -/
def lateOracle : Oracle :=
  { sampleOracle with child := fun _ => lateChild }

/-- A child that prints a duration and one progress frame and exits with a nonzero
status; its scanner goroutine handles the frame after the worker has called
`failTask`. -/
def lateFailingChild : ChildOracle :=
  { pipeErr := none, startErr := none, lines := ["Duration: 00:01:00.00".toList],
    waitErr := true, late := [[], [], ["out_time=half".toList]] }

/-- A world in which the encoder fails and its progress frame is handled late. -/
def lateFailingOracle : Oracle :=
  { sampleOracle with child := fun _ => lateFailingChild }

/-- A parsed JSON value as `gjson` reports it: the text of a leaf, and for an array or an
object its raw JSON text together with its parts. -/
inductive Json
  | null
  | bool (b : Bool)
  | num (raw : Str)
  | str (s : Str)
  | arr (raw : Str) (items : List Json)
  | obj (raw : Str) (fields : List (Str × Json))

/-- What `gjson.Result.String()` gives for a value that exists. -/
def Json.text : Json → Str
  | Json.null => []
  | Json.bool b => if b then "true".toList else "false".toList
  | Json.num raw => raw
  | Json.str s => s
  | Json.arr raw _ => raw
  | Json.obj raw _ => raw

/-- A decimal array index. -/
def parseIndex (s : Str) : Option Nat :=
  if s ≠ [] ∧ s.all Char.isDigit then
    some (s.foldl (fun n c => 10 * n + (c.toNat - '0'.toNat)) 0)
  else none

/-- One step of a dotted path: a member of an object by name, an element of an array by
index. -/
def Json.child (j : Json) (name : Str) : Option Json :=
  match j with
  | Json.obj _ fields => (fields.find? (fun f => f.1 == name)).map Prod.snd
  | Json.arr _ items => (parseIndex name).bind (fun i => items.get? i)
  | _ => none

/-- The value at a path of names and indices. -/
def Json.getPath (j : Json) : List Str → Option Json
  | [] => some j
  | name :: rest => (j.child name).bind (fun c => Json.getPath c rest)

/-- The metadata of the package's own test, as JSON text. -/
def sampleMetadataText : Str :=
  "\x7b\"color\":\"red\",\"tracks\":[\"track1\",\"track2\"],\"user\":\x7b\"age\":30,\"name\":\"Alice\"\x7d\x7d".toList

/-- The same metadata, parsed. -/
def sampleMetadataDoc : Json :=
  Json.obj sampleMetadataText
    [ ("color".toList, Json.str "red".toList),
      ("tracks".toList,
        Json.arr "[\"track1\",\"track2\"]".toList
          [Json.str "track1".toList, Json.str "track2".toList]),
      ("user".toList,
        Json.obj "\x7b\"age\":30,\"name\":\"Alice\"\x7d".toList
          [("age".toList, Json.num "30".toList), ("name".toList, Json.str "Alice".toList)]) ]

/-- The test metadata: a map that marshals to `sampleMetadataText`. -/
def sampleMetadata : Metadata :=
  { marshal := some sampleMetadataText }

/-- The sample surrounding with a `gjson` that answers dotted paths of names and indices
into the test metadata. -/
def metadataEnv : ReplaceEnv :=
  { sampleEnv with
    gjsonGet := fun json path =>
      if json = sampleMetadataText then
        (sampleMetadataDoc.getPath (splitStr path ".".toList)).map Json.text
      else none }

/-- A metadata with one key that contains token text, as JSON text. -/
def tokenKeyMetadataText : Str :=
  "\x7b\"x$\x7bSOURCE\":\"v\"\x7d".toList

/-- The same metadata, parsed. -/
def tokenKeyMetadataDoc : Json :=
  Json.obj tokenKeyMetadataText [("x$\x7bSOURCE".toList, Json.str "v".toList)]

/-- A metadata map that marshals to `tokenKeyMetadataText`. -/
def tokenKeyMetadata : Metadata :=
  { marshal := some tokenKeyMetadataText }

/-- The sample surrounding with a `gjson` that answers paths into `tokenKeyMetadataDoc`. -/
def tokenKeyEnv : ReplaceEnv :=
  { sampleEnv with
    gjsonGet := fun json path =>
      if json = tokenKeyMetadataText then
        (tokenKeyMetadataDoc.getPath (splitStr path ".".toList)).map Json.text
      else none }

/-- Whether a match of `m` starts somewhere in the text. -/
def hasMatch (m : Str → Option (Str × Nat)) : Str → Bool
  | [] => false
  | c :: s => (m (c :: s)).isSome || hasMatch m s

/-- Whether the text contains something `Replace` rewrites: one of the literals of its
table, or a match of the METADATA expression. -/
def hasToken (s : Str) : Bool :=
  (documentedNames.map patternOf).any (fun pat => containsStr pat s)
    || hasMatch (metadataMatcher (fun _ => none)) s

/-! ## `cmd/server.go`: the callback of the log broadcaster -/

/-- A character of the class `[0-9;]`. -/
def isSgrChar (c : Char) : Bool :=
  c.isDigit || c == ';'

/-- The matcher of the regular expression `\x1b\[[0-9;]*m` with the empty replacement of
`ReplaceAllString(_, "")`: a match is ESC, `[`, the longest run of digits and semicolons,
and `m`. -/
def ansiMatcher : Str → Option (Str × Nat) :=
  fun s =>
    match s with
    | c :: d :: rest =>
      if c = '\x1b' ∧ d = '[' then
        if (rest.dropWhile isSgrChar).head? = some 'm' then
          some ([], 2 + (rest.takeWhile isSgrChar).length + 1)
        else none
      else none
    | _ => none

/-- The text `re.ReplaceAllString(string(p), "")` of the callback. -/
def stripAnsi (p : Str) : Str :=
  scan ansiMatcher 0 p

/-- The callback of the log broadcaster (lines 119-132): with a websocket service it
broadcasts the stripped payload as `log:created`, without one it does nothing. -/
def logCallback (hasService : Bool) (p : Str) : Option (Str × Str) :=
  if hasService then some ("log:created".toList, stripAnsi p) else none

/-- Whether the text contains an ANSI color escape. -/
def hasAnsi (s : Str) : Bool :=
  hasMatch ansiMatcher s

/-- Whether every ESC character of the text begins an ANSI color escape. -/
def everyEscStartsEscape : Str → Bool
  | [] => true
  | c :: s => (c != '\x1b' || (ansiMatcher (c :: s)).isSome) && everyEscStartsEscape s

/-- An event that is not a snapshot, or is a snapshot with the progress `q`. -/
def progressEvent (q : GoFloat) : Event → Bool
  | Event.update t => t.progress == q
  | _ => true

/-- Every snapshot of the events with status `POST_PROCESSING` has progress 100. -/
def PostDone (evs : List Event) : Prop :=
  ∀ t ∈ snapshotsOf evs, t.status = Status.POST_PROCESSING → t.progress = GoFloat.ofRat 100

/-- A task whose post hook only runs the script `/bin/notify.sh`. -/
def postScriptTask : Task :=
  { sampleTask with postProcessing := some (scriptHook "/bin/notify.sh".toList) }

/-- The `doneFunc` the dispatch loop hands to the worker of `task` (lines 53-57), as a
step of the scheduler: the closure holds the task pointer, so the key it deletes is the
`Uuid` the live task has when the worker returns (also when it panics: the call is
deferred). -/
def doneFunc (o : Oracle) (task : Task) : SchedEvent :=
  SchedEvent.workerExit (processTask o task).world.task.uuid

/-- A world in which the sidecar read back by the pre hook carries the id `t2`. -/
def renamingOracle : Oracle :=
  { sampleOracle with
    pre := { sampleHookOracle with
      imported := { sampleTask with
        uuid := "t2".toList, status := Status.PRE_PROCESSING, startedAt := 1000,
        preProcessing := some { importHook with
          startedAt := 1000,
          sidecarPath := some { raw := "/tmp/side.json".toList,
                                resolved := "/tmp/side.json".toList } } } } }

/-- Another queued task. -/
def otherTask : Task :=
  { sampleTask with uuid := "t3".toList }

/-- The duration parsed from the last line of `lines` that matches the duration
expression, and `init` when no line matches. -/
def lastDuration (lib : ExecLib) (lines : List Str) (init : GoFloat) : GoFloat :=
  ((lines.reverse.findSome? lib.reDuration).map lib.parseDuration).getD init

/-- What the scanner loop does with one line once `duration` is settled: the
`UpdateFunc` call of a progress frame. -/
def frameStep (lib : ExecLib) (line : Str) (duration : GoFloat) (w : World) : World :=
  match lib.frame line duration with
  | some (p, r) =>
    World.updateTask { w with task := { w.task with progress := p, remaining := r } }
  | none => w

/-- A sample of the rest of package `ffmpeg` that tells durations apart: one and two
minutes are parsed as 60 and 120 seconds, and the frame `out_time=00:00:30.00` is 50
percent of the one and 25 percent of the other. -/
def durationLib : ExecLib :=
  { reDuration := fun line =>
      if "Duration: ".toList.isPrefixOf line then some (line.drop 10) else none,
    parseDuration := fun d =>
      if d = "00:01:00.00".toList then GoFloat.ofRat 60
      else if d = "00:02:00.00".toList then GoFloat.ofRat 120
      else GoFloat.ofRat 0,
    frame := fun line duration =>
      if line = "out_time=00:00:30.00".toList then
        if duration = GoFloat.ofRat 60 then some (GoFloat.ofRat 50, GoFloat.ofRat 30)
        else if duration = GoFloat.ofRat 120 then some (GoFloat.ofRat 25, GoFloat.ofRat 90)
        else some (GoFloat.ofRat 100, GoFloat.ofRat (-1))
      else none }

/-- A child with two inputs: it prints two durations, then one progress frame, and exits
with status 0. -/
def twoDurationsChild : ChildOracle :=
  { pipeErr := none, startErr := none,
    lines := ["Duration: 00:01:00.00".toList, "Duration: 00:02:00.00".toList,
              "out_time=00:00:30.00".toList],
    waitErr := false }

/-! # Theorems -/

/-! ## The scheduler keeps the live set within the cap -/

theorem intOfUint_le (x : Nat) : intOfUint x ≤ (x : Int) := by
  unfold intOfUint
  have h : x % 2 ^ 64 ≤ x := Nat.mod_le _ _
  split
  · exact Int.ofNat_le.mpr h
  · have : (Int.ofNat (x % 2 ^ 64) : Int) ≤ (x : Int) := Int.ofNat_le.mpr h
    omega

theorem mapDelete_length_le (m : List (Str × Nat)) (k : Str) :
    (mapDelete m k).length ≤ m.length :=
  List.length_filter_le _ _

theorem mapSet_length_le (m : List (Str × Nat)) (k : Str) (v : Nat) :
    (mapSet m k v).length ≤ m.length + 1 := by
  unfold mapSet
  simp only [List.length_cons]
  exact Nat.succ_le_succ (List.length_filter_le _ _)

theorem schedStep_cap (max : Nat) (s : SchedState) (e : SchedEvent)
    (h : s.taskCtx.length ≤ max) : (schedStep max s e).taskCtx.length ≤ max := by
  cases e with
  | tick next =>
    simp only [schedStep]
    by_cases hlt : (s.taskCtx.length : Int) < intOfUint max
    · have hmax := intOfUint_le max
      have hlt2 : s.taskCtx.length < max := by omega
      rw [if_pos hlt]
      rcases next with _ | _ | task
      · exact h
      · exact h
      · exact Nat.le_trans (mapSet_length_le _ _ _) hlt2
    · rw [if_neg hlt]
      exact h
  | workerExit uuid =>
    simp only [schedStep]
    exact Nat.le_trans (mapDelete_length_le _ _) h
  | cancelSignal uuid =>
    simp only [schedStep]
    split
    · split <;> exact h
    · exact h

theorem foldl_schedStep_cap (max : Nat) (evs : List SchedEvent) (s : SchedState)
    (h : s.taskCtx.length ≤ max) : (evs.foldl (schedStep max) s).taskCtx.length ≤ max := by
  induction evs generalizing s with
  | nil => exact h
  | cons e es ih => exact ih _ (schedStep_cap max s e h)

/-- C1: from the empty live set, after any sequence of dispatch ticks (whatever
`NextQueued` returns), worker exits and cancel signals, the map `taskCtx` holds at most
`MaxConcurrentTasks` entries, for every value of `MaxConcurrentTasks`. -/
theorem live_set_never_exceeds_cap (max : Nat) (evs : List SchedEvent) :
    (schedRun max evs).taskCtx.length ≤ max :=
  foldl_schedStep_cap max evs SchedState.init (Nat.zero_le _)

theorem schedStep_huge_cap (max : Nat) (s : SchedState) (e : SchedEvent)
    (h : 2 ^ 63 ≤ max % 2 ^ 64) (hs : s.taskCtx = []) : (schedStep max s e).taskCtx = [] := by
  cases e with
  | tick next =>
    have hneg : ¬ ((s.taskCtx.length : Int) < intOfUint max) := by
      unfold intOfUint
      rw [if_neg (by omega)]
      have : max % 2 ^ 64 < 2 ^ 64 := Nat.mod_lt _ (by decide)
      rw [hs]
      simp only [List.length_nil, Int.ofNat_eq_coe]
      omega
    simp only [schedStep]
    rw [if_neg hneg]
    exact hs
  | workerExit uuid =>
    simp only [schedStep, mapDelete, hs, List.filter_nil]
  | cancelSignal uuid =>
    simp only [schedStep]
    split
    · split <;> exact hs
    · exact hs

/-- X7: when `MaxConcurrentTasks` is `2^63` or more, `int(q.MaxConcurrentTasks)` is
negative, the guard of the dispatch loop never holds, and no task is ever dispatched:
the map `taskCtx` stays empty whatever `NextQueued` returns. -/
theorem huge_cap_dispatches_nothing (max : Nat) (evs : List SchedEvent)
    (h : 2 ^ 63 ≤ max % 2 ^ 64) : (schedRun max evs).taskCtx = [] := by
  have key : ∀ (evs : List SchedEvent) (s : SchedState), s.taskCtx = [] →
      (evs.foldl (schedStep max) s).taskCtx = [] := by
    intro evs
    induction evs with
    | nil => intro s hs; exact hs
    | cons e es ih => intro s hs; exact ih _ (schedStep_huge_cap max s e h hs)
  exact key evs SchedState.init rfl

theorem huge_cap_dispatches_nothing_witness :
    (schedRun (2 ^ 63) [SchedEvent.tick (Except.ok (some sampleTask)),
      SchedEvent.tick (Except.ok (some sampleTask))]).taskCtx = [] :=
  huge_cap_dispatches_nothing (2 ^ 63) _ (by decide)

/-! ## Events of the worker, step by step -/

theorem statusesOf_append (a b : List Event) :
    statusesOf (a ++ b) = statusesOf a ++ statusesOf b := by
  induction a with
  | nil => rfl
  | cons e es ih => cases e <;> simp [statusesOf, ih]

theorem snapshotsOf_append (a b : List Event) :
    snapshotsOf (a ++ b) = snapshotsOf a ++ snapshotsOf b := by
  induction a with
  | nil => rfl
  | cons e es ih => cases e <;> simp [snapshotsOf, ih]

theorem sidecarStep_spec (o : HookOracle) (phase : Phase) (p : Hook) (w : World) :
    (sidecarStep o phase p w).2.2.task.status = w.task.status ∧
    ∃ d, (sidecarStep o phase p w).2.2.events = w.events ++ d ∧
      ∀ e ∈ d, quietEvent w.task.status e = true := by
  unfold sidecarStep
  cases phase <;> (repeat' split) <;>
    simp [World.updateTask, World.emit, Task.setHook, quietEvent]

theorem scriptStep_spec (parse : Str → Except Str (List Str)) (o : HookOracle)
    (phase : Phase) (p : Hook) (w : World) :
    (scriptStep parse o phase p w).2.2.task.status = w.task.status ∧
    ∃ d, (scriptStep parse o phase p w).2.2.events = w.events ++ d ∧
      ∀ e ∈ d, quietEvent w.task.status e = true := by
  unfold scriptStep
  cases p.scriptPath with
  | none => simp
  | some sc =>
    simp only
    split
    · generalize Replace o.envScript sc.raw (hookFiles phase w.task).1
        (hookFiles phase w.task).2 w.task.source w.task.metadata = resolved
      rcases parse resolved with e | _ | ⟨a, as⟩
      · cases phase <;> simp [World.updateTask, Task.setHook, quietEvent]
      · cases phase <;> simp [World.updateTask, Task.setHook, quietEvent]
      · cases o.script <;> cases phase <;>
          simp [World.updateTask, World.emit, Task.setHook, quietEvent]
    · simp

theorem importStep_spec (o : HookOracle) (phase : Phase) (p : Hook) (w : World) (s : Status) :
    ∃ d, (importStep o phase p w).2.2.2.events = w.events ++ d ∧
      ∀ e ∈ d, quietEvent s e = true := by
  unfold importStep
  (repeat' split) <;> simp [World.emit, quietEvent]

/-- The events a hook call adds: the call itself, then snapshots that all carry the
status of the phase, and file-system and script effects. -/
theorem prePostProcessTask_events (parse : Str → Except Str (List Str)) (o : HookOracle)
    (phase : Phase) (w : World) :
    ∃ d, (prePostProcessTask parse o phase w).2.events = w.events ++ Event.hookCall phase :: d ∧
      (∀ e ∈ d, quietEvent (phaseStatus phase) e = true) ∧
      ((prePostProcessTask parse o phase w).1 ≠ HookResult.ok → ∃ t d1, d = Event.update t :: d1) := by
  unfold prePostProcessTask
  simp only [World.emit]
  split
  · exact ⟨[], by simp, by simp, by simp⟩
  · rename_i p hp
    split
    · exact ⟨[], by simp, by simp, by simp⟩
    · generalize hw0 : World.updateTask
        { task := { (Task.setHook w.task phase { p with startedAt := o.startedAt }) with
            status := phaseStatus phase },
          events := w.events ++ [Event.hookCall phase],
          scanners := w.scanners } = w0
      have hs0 : w0.task.status = phaseStatus phase := by
        subst hw0; cases phase <;> rfl
      have he0 : w0.events = w.events ++ Event.hookCall phase :: [Event.update w0.task] := by
        subst hw0; simp [World.updateTask]
      generalize hp0 : ({ p with startedAt := o.startedAt } : Hook) = p0
      obtain ⟨hs1, d1, he1, hq1⟩ := sidecarStep_spec o phase p0 w0
      rcases h1 : sidecarStep o phase p0 w0 with ⟨e1, p1, w1⟩
      rw [h1] at hs1 he1
      simp only at hs1 he1
      have hq0 : quietEvent (phaseStatus phase) (Event.update w0.task) = true := by
        simp [quietEvent, hs0]
      rw [hs0] at hq1
      cases e1 with
      | some e =>
        refine ⟨Event.update w0.task :: d1, ?_, ?_, fun _ => ⟨_, _, rfl⟩⟩
        · simp [he1, he0]
        · intro e he
          rcases List.mem_cons.mp he with rfl | he
          · exact hq0
          · exact hq1 e he
      | none =>
        simp only
        obtain ⟨hs2, d2, he2, hq2⟩ := scriptStep_spec parse o phase p1 w1
        rcases h2 : scriptStep parse o phase p1 w1 with ⟨b2, p2, w2⟩
        rw [h2] at hs2 he2
        simp only at hs2 he2
        rw [hs1, hs0] at hq2
        have hall2 : ∀ e ∈ Event.update w0.task :: (d1 ++ d2),
            quietEvent (phaseStatus phase) e = true := by
          intro e he
          rcases List.mem_cons.mp he with rfl | he
          · exact hq0
          · rcases List.mem_append.mp he with he | he
            · exact hq1 e he
            · exact hq2 e he
        cases b2 with
        | true =>
          exact ⟨Event.update w0.task :: (d1 ++ d2), by simp [he2, he1, he0], hall2,
            fun _ => ⟨_, _, rfl⟩⟩
        | false =>
          simp only
          obtain ⟨d3, he3, hq3⟩ := importStep_spec o phase p2 w2 (phaseStatus phase)
          rcases h3 : importStep o phase p2 w2 with ⟨e3, p3, a3, w3⟩
          rw [h3] at he3
          simp only at he3
          have hall3 : ∀ e ∈ Event.update w0.task :: (d1 ++ d2 ++ d3),
              quietEvent (phaseStatus phase) e = true := by
            intro e he
            rcases List.mem_cons.mp he with rfl | he
            · exact hq0
            · rcases List.mem_append.mp he with he | he
              · exact hall2 e (List.mem_cons_of_mem _ he)
              · exact hq3 e he
          refine ⟨Event.update w0.task :: (d1 ++ d2 ++ d3), ?_, hall3, fun _ => ⟨_, _, rfl⟩⟩
          cases e3 with
          | some e => simp [he3, he2, he1, he0]
          | none =>
            simp only
            cases a3 <;> (repeat' split) <;> simp [he3, he2, he1, he0]

/-! ## Events of `Execute` -/

theorem scanLines_spec (lib : ExecLib) (ls : List Str) (dur : GoFloat) (w : World) :
    (scanLines lib ls dur w).task.status = w.task.status ∧
    ∃ d, (scanLines lib ls dur w).events = w.events ++ d ∧
      ∀ e ∈ d, execEvent w.task.status e = true := by
  induction ls generalizing dur w with
  | nil => exact ⟨rfl, [], by simp [scanLines], by simp⟩
  | cons line ls ih =>
    simp only [scanLines]
    cases hf : lib.frame line
        (match lib.reDuration line with
          | some d => lib.parseDuration d
          | none => dur) with
    | none =>
      exact ih _ w
    | some pr =>
      obtain ⟨p, r⟩ := pr
      simp only
      obtain ⟨hs, d, he, hq⟩ := ih
        (match lib.reDuration line with
          | some d => lib.parseDuration d
          | none => dur)
        (World.updateTask { w with task := { w.task with progress := p, remaining := r } })
      refine ⟨by rw [hs]; rfl, Event.update { w.task with progress := p, remaining := r } :: d,
        by rw [he]; simp [World.updateTask], ?_⟩
      intro e he'
      rcases List.mem_cons.mp he' with rfl | he'
      · simp [execEvent]
      · exact hq e he'

theorem runChild_spec (lib : ExecLib) (o : ChildOracle) (program : Str) (args : List Str)
    (w : World) :
    (runChild lib o program args w).task.status = w.task.status ∧
    ∃ d, (runChild lib o program args w).events = w.events ++ Event.spawn program args :: d ∧
      ∀ e ∈ d, execEvent w.task.status e = true := by
  obtain ⟨hs1, d1, he1, hq1⟩ := scanLines_spec lib o.lines (GoFloat.ofRat 0)
    (w.emit (Event.spawn program args))
  refine ⟨hs1, d1, ?_, hq1⟩
  show (scanLines lib o.lines (GoFloat.ofRat 0) (w.emit (Event.spawn program args))).events = _
  rw [he1]
  simp [World.emit]

theorem executeFrom_spec (lib : ExecLib) (parse : Str → Except Str (List Str))
    (ffmpegPath : Str) (canceled : Bool) (child : Nat → ChildOracle)
    (cmds : List Str) (index : Nat) (w : World) :
    (executeFrom lib parse ffmpegPath canceled child index cmds w).2.task.status
      = w.task.status ∧
    ∃ d, (executeFrom lib parse ffmpegPath canceled child index cmds w).2.events
        = w.events ++ d ∧
      ∀ e ∈ d, execEvent w.task.status e = true := by
  induction cmds generalizing index w with
  | nil => exact ⟨rfl, [], by simp [executeFrom], by simp⟩
  | cons c cs ih =>
    simp only [executeFrom]
    rcases parse (trimSpace c) with e | args0
    · exact ⟨rfl, [], by simp, by simp⟩
    · simp only
      cases (child index).pipeErr with
      | some e => exact ⟨rfl, [], by simp, by simp⟩
      | none =>
        simp only
        cases startError (if 0 < index then [] else ffmpegPath) canceled (child index) with
        | some e => exact ⟨rfl, [], by simp, by simp⟩
        | none =>
          simp only
          generalize hargs : args0 ++ ["-progress".toList, "pipe:2".toList] = args
          generalize hprog : (if 0 < index then [] else ffmpegPath) = program
          obtain ⟨hs1, d1, he1, hq1⟩ := runChild_spec lib (child index) program args w
          have hall : ∀ e ∈ Event.spawn program args :: d1,
              execEvent w.task.status e = true := by
            intro e he
            rcases List.mem_cons.mp he with rfl | he
            · rfl
            · exact hq1 e he
          split
          · exact ⟨hs1, _, he1, hall⟩
          · obtain ⟨hs2, d2, he2, hq2⟩ := ih (index + 1)
              (runChild lib (child index) program args w)
            refine ⟨by rw [hs2, hs1], Event.spawn program args :: d1 ++ d2,
              by rw [he2, he1]; simp, ?_⟩
            intro e he
            rcases List.mem_append.mp he with he | he
            · exact hall e he
            · rw [hs1] at hq2
              exact hq2 e he

theorem callExecute_spec (o : Oracle) (w : World) :
    (callExecute o w).2.task.status = w.task.status ∧
    ∃ d, (callExecute o w).2.events = w.events ++ d ∧
      ∀ e ∈ d, execEvent w.task.status e = true :=
  executeFrom_spec _ _ _ _ _ _ _ _

/-! ## Scanner goroutines left running -/

theorem sameButProgress_refl (t : Task) : sameButProgress t t := by
  cases t
  rfl

theorem sameButProgress_trans {a b c : Task} (h1 : sameButProgress a b)
    (h2 : sameButProgress b c) : sameButProgress a c := by
  unfold sameButProgress at *
  rw [h2] at h1
  exact h1

theorem sameButProgress_frame (t : Task) (p r : GoFloat) :
    sameButProgress { t with progress := p, remaining := r } t :=
  rfl

theorem sameButProgress_status {a b : Task} (h : sameButProgress a b) : a.status = b.status := by
  rw [h]

theorem sameButProgress_error {a b : Task} (h : sameButProgress a b) : a.error = b.error := by
  rw [h]

theorem sameButProgress_uuid {a b : Task} (h : sameButProgress a b) : a.uuid = b.uuid := by
  rw [h]

theorem lateEvent_of_same {a b : Task} (h : sameButProgress a b) {e : Event}
    (he : lateEvent a e) : lateEvent b e := by
  obtain ⟨t, rfl, ht⟩ := he
  exact ⟨t, rfl, sameButProgress_trans ht h⟩

/-- What the loop body of the scanner does to a world: it leaves the task as it is up to
progress and remaining time, adds only snapshots of such tasks, the last of which is the
live task, and does not touch the goroutines. -/
theorem scanLines_late (lib : ExecLib) (ls : List Str) (dur : GoFloat) (w : World) :
    sameButProgress (scanLines lib ls dur w).task w.task ∧
    (scanLines lib ls dur w).scanners = w.scanners ∧
    (∃ d, (scanLines lib ls dur w).events = w.events ++ d ∧ ∀ e ∈ d, lateEvent w.task e) ∧
    (w.settled → (scanLines lib ls dur w).settled) := by
  induction ls generalizing dur w with
  | nil => exact ⟨sameButProgress_refl _, rfl, ⟨[], by simp [scanLines], by simp⟩, id⟩
  | cons line ls ih =>
    simp only [scanLines]
    cases hf : lib.frame line
        (match lib.reDuration line with
          | some d => lib.parseDuration d
          | none => dur) with
    | none => exact ih _ w
    | some pr =>
      obtain ⟨p, r⟩ := pr
      simp only
      generalize hw1 : World.updateTask
        { w with task := { w.task with progress := p, remaining := r } } = w1
      have ht1 : sameButProgress w1.task w.task := by
        subst hw1; exact sameButProgress_frame _ _ _
      have he1 : w1.events = w.events ++ [Event.update w1.task] := by
        subst hw1; rfl
      have hs1 : w1.scanners = w.scanners := by subst hw1; rfl
      have hset1 : w1.settled := by
        unfold World.settled
        rw [he1]
        simp
      obtain ⟨ht, hsc, ⟨d, he, hq⟩, hset⟩ := ih
        (match lib.reDuration line with
          | some d => lib.parseDuration d
          | none => dur) w1
      refine ⟨sameButProgress_trans ht ht1, hsc.trans hs1,
        ⟨Event.update w1.task :: d, by rw [he, he1]; simp, ?_⟩, fun _ => hset hset1⟩
      intro e he'
      rcases List.mem_cons.mp he' with rfl | he'
      · exact ⟨_, rfl, ht1⟩
      · exact lateEvent_of_same ht1 (hq e he')

theorem runScanners_late (lib : ExecLib) (scs : List Scanner) (w : World) :
    sameButProgress (runScanners lib scs w).2.task w.task ∧
    (runScanners lib scs w).2.scanners = w.scanners ∧
    (∃ d, (runScanners lib scs w).2.events = w.events ++ d ∧ ∀ e ∈ d, lateEvent w.task e) ∧
    (w.settled → (runScanners lib scs w).2.settled) := by
  induction scs generalizing w with
  | nil => exact ⟨sameButProgress_refl _, rfl, ⟨[], by simp [runScanners], by simp⟩, id⟩
  | cons sc rest ih =>
    simp only [runScanners]
    cases sc.pending with
    | nil => exact ih w
    | cons batch more =>
      simp only
      obtain ⟨ht1, hs1, ⟨d1, he1, hq1⟩, hset1⟩ := scanLines_late lib batch sc.duration w
      obtain ⟨ht2, hs2, ⟨d2, he2, hq2⟩, hset2⟩ := ih (scanLines lib batch sc.duration w)
      refine ⟨sameButProgress_trans ht2 ht1, hs2.trans hs1,
        ⟨d1 ++ d2, by rw [he2, he1, List.append_assoc], ?_⟩, fun h => hset2 (hset1 h)⟩
      intro e he
      rcases List.mem_append.mp he with he | he
      · exact hq1 e he
      · exact lateEvent_of_same ht1 (hq2 e he)

/-- What a run of the scanner goroutines does to a world. -/
theorem worldRunScanners_late (lib : ExecLib) (w : World) :
    sameButProgress (w.runScanners lib).task w.task ∧
    (∃ d, (w.runScanners lib).events = w.events ++ d ∧ ∀ e ∈ d, lateEvent w.task e) ∧
    (w.settled → (w.runScanners lib).settled) := by
  obtain ⟨ht, _, hd, hset⟩ := Ffmate.runScanners_late lib w.scanners w
  exact ⟨ht, hd, hset⟩

theorem runScanners_idle (lib : ExecLib) (scs : List Scanner) (w : World)
    (h : ∀ sc ∈ scs, sc.pending = []) : runScanners lib scs w = (scs, w) := by
  induction scs with
  | nil => rfl
  | cons sc rest ih =>
    have h1 := h sc (List.mem_cons_self _ _)
    have h2 := ih (fun s hs => h s (List.mem_cons_of_mem _ hs))
    simp only [runScanners, h1, h2]

/-- A run of the scanner goroutines adds nothing but snapshots. -/
theorem worldRunScanners_not_mem (lib : ExecLib) (w : World) (e : Event)
    (he : ∀ t, e ≠ Event.update t) (h : e ∉ w.events) : e ∉ (w.runScanners lib).events := by
  obtain ⟨_, ⟨d, hd, hq⟩, _⟩ := worldRunScanners_late lib w
  rw [hd]
  intro hm
  rcases List.mem_append.mp hm with hm | hm
  · exact h hm
  · obtain ⟨t, ht, _⟩ := hq e hm
    exact he t ht

/-- With nothing left to handle, a run of the scanner goroutines changes nothing. -/
theorem worldRunScanners_idle (lib : ExecLib) (w : World) (h : w.idle) :
    w.runScanners lib = w := by
  unfold World.runScanners
  rw [Ffmate.runScanners_idle lib w.scanners w h]

theorem sidecarStep_scanners (o : HookOracle) (phase : Phase) (p : Hook) (w : World) :
    (sidecarStep o phase p w).2.2.scanners = w.scanners := by
  unfold sidecarStep
  cases phase <;> (repeat' split) <;>
    simp [World.updateTask, World.emit, Task.setHook]

theorem scriptStep_scanners (parse : Str → Except Str (List Str)) (o : HookOracle)
    (phase : Phase) (p : Hook) (w : World) :
    (scriptStep parse o phase p w).2.2.scanners = w.scanners := by
  unfold scriptStep
  cases p.scriptPath with
  | none => simp
  | some sc =>
    simp only
    split
    · generalize Replace o.envScript sc.raw (hookFiles phase w.task).1
        (hookFiles phase w.task).2 w.task.source w.task.metadata = resolved
      rcases parse resolved with e | _ | ⟨a, as⟩
      · cases phase <;> simp [World.updateTask, Task.setHook]
      · cases phase <;> simp [World.updateTask, Task.setHook]
      · cases o.script <;> cases phase <;>
          simp [World.updateTask, World.emit, Task.setHook]
    · simp

theorem importStep_scanners (o : HookOracle) (phase : Phase) (p : Hook) (w : World) :
    (importStep o phase p w).2.2.2.scanners = w.scanners := by
  unfold importStep
  (repeat' split) <;> simp [World.emit]

/-- A hook call does not touch the scanner goroutines. -/
theorem prePostProcessTask_scanners (parse : Str → Except Str (List Str)) (o : HookOracle)
    (phase : Phase) (w : World) :
    (prePostProcessTask parse o phase w).2.scanners = w.scanners := by
  unfold prePostProcessTask
  simp only [World.emit]
  split
  · rfl
  · rename_i p hp
    split
    · rfl
    · generalize hw0 : World.updateTask
        { task := { (Task.setHook w.task phase { p with startedAt := o.startedAt }) with
            status := phaseStatus phase },
          events := w.events ++ [Event.hookCall phase],
          scanners := w.scanners } = w0
      have hu0 : w0.scanners = w.scanners := by subst hw0; rfl
      generalize ({ p with startedAt := o.startedAt } : Hook) = p0
      have h1 := sidecarStep_scanners o phase p0 w0
      rcases hs1 : sidecarStep o phase p0 w0 with ⟨e1, p1, w1⟩
      rw [hs1] at h1
      simp only at h1
      cases e1 with
      | some e => exact h1.trans hu0
      | none =>
        simp only
        have h2 := scriptStep_scanners parse o phase p1 w1
        rcases hs2 : scriptStep parse o phase p1 w1 with ⟨b2, p2, w2⟩
        rw [hs2] at h2
        simp only at h2
        have hu2 : w2.scanners = w.scanners := h2.trans (h1.trans hu0)
        cases b2 with
        | true => exact hu2
        | false =>
          simp only
          have h3 := importStep_scanners o phase p2 w2
          rcases hs3 : importStep o phase p2 w2 with ⟨e3, p3, a3, w3⟩
          rw [hs3] at h3
          simp only at h3
          rw [hu2] at h3
          cases e3 with
          | some e => exact h3
          | none =>
            simp only
            have hfin : ∀ p4 : Hook,
                (if a3 = true then { w3 with task := w3.task.setHook phase p4 }
                  else w3).scanners = w3.scanners := by
              intro p4
              split <;> rfl
            split <;> simp only [hfin] <;> exact h3

/-- No scanner goroutine exists before `Execute` is called. -/
theorem beforeExecute_scanners (o : Oracle) (task : Task) (w : World)
    (h : beforeExecute o task = Sum.inr w) : w.scanners = [] := by
  have h1 := prePostProcessTask_scanners o.parse o.pre Phase.pre (startWorld o task)
  unfold beforeExecute at h
  rcases hr : prePostProcessTask o.parse o.pre Phase.pre (startWorld o task) with ⟨res, w1⟩
  rw [hr] at h h1
  simp only at h1
  cases res with
  | panic => cases h
  | error e => cases h
  | ok =>
    simp only at h
    cases hm : o.mkdirErr with
    | some e => rw [hm] at h; cases h
    | none =>
      rw [hm] at h
      simp only [Sum.inr.injEq] at h
      subst h
      exact h1

theorem idle_of_nil {w : World} (h : w.scanners = []) : w.idle := by
  intro sc hsc
  rw [h] at hsc
  cases hsc

theorem runChild_idle (lib : ExecLib) (o : ChildOracle) (program : Str) (args : List Str)
    (w : World) (ho : o.late = []) (h : w.idle) : (runChild lib o program args w).idle := by
  obtain ⟨_, hs, _, _⟩ := scanLines_late lib o.lines (GoFloat.ofRat 0)
    (w.emit (Event.spawn program args))
  intro sc hsc
  have hsc' : sc ∈ (scanLines lib o.lines (GoFloat.ofRat 0)
      (w.emit (Event.spawn program args))).scanners ++
      [{ duration := scanDuration lib o.lines (GoFloat.ofRat 0), pending := o.late }] := hsc
  rw [hs] at hsc'
  rcases List.mem_append.mp hsc' with h1 | h1
  · exact h sc h1
  · rw [List.mem_singleton] at h1
    rw [h1]
    exact ho

theorem executeFrom_idle (lib : ExecLib) (parse : Str → Except Str (List Str))
    (ffmpegPath : Str) (canceled : Bool) (child : Nat → ChildOracle)
    (hc : ∀ i, (child i).late = []) (cmds : List Str) (index : Nat) (w : World)
    (h : w.idle) :
    (executeFrom lib parse ffmpegPath canceled child index cmds w).2.idle := by
  induction cmds generalizing index w with
  | nil => exact h
  | cons c cs ih =>
    simp only [executeFrom]
    rcases parse (trimSpace c) with e | args0
    · exact h
    · simp only
      cases (child index).pipeErr with
      | some e => exact h
      | none =>
        simp only
        cases startError (if 0 < index then [] else ffmpegPath) canceled (child index) with
        | some e => exact h
        | none =>
          simp only
          have := runChild_idle lib (child index) (if 0 < index then [] else ffmpegPath)
            (args0 ++ ["-progress".toList, "pipe:2".toList]) w (hc index) h
          split
          · exact this
          · exact ih _ _ this

/-- When no scanner goroutine has lines left, the worker goes on after `Execute` without
interference: lines 123-124, then the outcome of the error, or the post hook and the
outcome of that. -/
theorem afterExecute_idle (o : Oracle) (err : Option Str) (w : World) (h : w.idle) :
    afterExecute o err w =
      match err with
      | some e =>
        match causeAtCheck o.cancel with
        | some c => { world := cancelTask o.finishedAt (markDone w) c, panicked := false }
        | none => { world := failTask o.finishedAt (markDone w) e, panicked := false }
      | none =>
        match prePostProcessTask o.parse o.post Phase.post (markDone w) with
        | (HookResult.panic, w2) => { world := w2, panicked := true }
        | (HookResult.error e, w2) =>
          { world := failTask o.finishedAt w2 ("PostProcessing failed: ".toList ++ e),
            panicked := false }
        | (HookResult.ok, w2) =>
          { world := World.updateTask { w2 with task := { w2.task with
              finishedAt := o.finishedAt, status := Status.DONE_SUCCESSFUL } },
            panicked := false } := by
  have idle_run : ∀ v : World, v.idle → v.runScanners o.lib = v :=
    fun v hv => worldRunScanners_idle o.lib v hv
  unfold afterExecute
  have hm : (markDone w).idle := h
  simp only [idle_run w h, idle_run _ hm]
  cases err with
  | some e =>
    simp only
    cases causeAtCheck o.cancel with
    | some c =>
      simp only
      rw [idle_run _ (show (cancelTask o.finishedAt (markDone w) c).idle from h)]
    | none =>
      simp only
      rw [idle_run _ (show (failTask o.finishedAt (markDone w) e).idle from h)]
  | none =>
    simp only
    have hs := prePostProcessTask_scanners o.parse o.post Phase.post (markDone w)
    rcases hr : prePostProcessTask o.parse o.post Phase.post (markDone w) with ⟨res, w2⟩
    rw [hr] at hs
    simp only at hs
    have h2 : w2.idle := by
      intro sc hsc
      rw [hs] at hsc
      exact h sc hsc
    cases res with
    | panic => rfl
    | error e =>
      simp only [idle_run w2 h2]
      rw [idle_run _ (show (failTask o.finishedAt w2 _).idle from h2)]
    | ok =>
      simp only [idle_run w2 h2]
      rw [idle_run _ (show (World.updateTask { w2 with task := { w2.task with
          finishedAt := o.finishedAt, status := Status.DONE_SUCCESSFUL } }).idle from h2)]

/-! ## The shape of a worker run -/

theorem failTask_events (now : Int) (w : World) (err : Str) :
    ∃ tf, (failTask now w err).events = w.events ++ [Event.update tf] ∧
      tf.status = Status.DONE_ERROR ∧ tf.progress = GoFloat.ofRat 100 ∧
      (failTask now w err).task = tf :=
  ⟨_, rfl, rfl, rfl, rfl⟩

theorem cancelTask_events (now : Int) (w : World) (err : Str) :
    ∃ tf, (cancelTask now w err).events = w.events ++ [Event.update tf] ∧
      tf.status = Status.DONE_CANCELED ∧ tf.progress = GoFloat.ofRat 100 ∧
      (cancelTask now w err).task = tf :=
  ⟨_, rfl, rfl, rfl, rfl⟩

theorem resolveAndRun_events (o : Oracle) (w : World) :
    (resolveAndRun o w).events = w.events ++ [Event.update (resolveAndRun o w).task] ∧
    (resolveAndRun o w).task.status = Status.RUNNING :=
  ⟨rfl, rfl⟩

theorem quiet_head {s : Status} {t : Task} {d : List Event}
    (h : ∀ e ∈ Event.update t :: d, quietEvent s e = true) :
    t.status = s ∧ ∀ e ∈ d, quietEvent s e = true := by
  constructor
  · have := h _ (List.mem_cons_self _ _)
    simpa [quietEvent] using this
  · intro e he
    exact h e (List.mem_cons_of_mem _ he)

theorem sidecarStep_progress (o : HookOracle) (phase : Phase) (p : Hook) (w : World) :
    (sidecarStep o phase p w).2.2.task.progress = w.task.progress := by
  unfold sidecarStep
  cases phase <;> (repeat' split) <;>
    simp [World.updateTask, World.emit, Task.setHook]

theorem scriptStep_progress (parse : Str → Except Str (List Str)) (o : HookOracle)
    (phase : Phase) (p : Hook) (w : World) :
    (scriptStep parse o phase p w).2.2.task.progress = w.task.progress := by
  unfold scriptStep
  cases p.scriptPath with
  | none => simp
  | some sc =>
    simp only
    split
    · generalize Replace o.envScript sc.raw (hookFiles phase w.task).1
        (hookFiles phase w.task).2 w.task.source w.task.metadata = resolved
      rcases parse resolved with e | _ | ⟨a, as⟩
      · cases phase <;> simp [World.updateTask, Task.setHook]
      · cases phase <;> simp [World.updateTask, Task.setHook]
      · cases o.script <;> cases phase <;>
          simp [World.updateTask, World.emit, Task.setHook]
    · simp

theorem importStep_post (o : HookOracle) (p : Hook) (w : World) :
    importStep o Phase.post p w = (none, p, true, w) := by
  unfold importStep
  cases p.sidecarPath <;> simp

/-- The post hook leaves the progress of the task as it is. -/
theorem postHook_progress (parse : Str → Except Str (List Str)) (o : HookOracle) (w : World) :
    (prePostProcessTask parse o Phase.post w).2.task.progress = w.task.progress := by
  unfold prePostProcessTask
  simp only [World.emit]
  split
  · rfl
  · rename_i p hp
    split
    · rfl
    · generalize hw0 : World.updateTask
        { task := { (Task.setHook w.task Phase.post { p with startedAt := o.startedAt }) with
            status := phaseStatus Phase.post },
          events := w.events ++ [Event.hookCall Phase.post],
          scanners := w.scanners } = w0
      have hp0 : w0.task.progress = w.task.progress := by subst hw0; rfl
      generalize ({ p with startedAt := o.startedAt } : Hook) = p0
      have h1 := sidecarStep_progress o Phase.post p0 w0
      rcases hs1 : sidecarStep o Phase.post p0 w0 with ⟨e1, p1, w1⟩
      rw [hs1] at h1
      simp only at h1
      cases e1 with
      | some e => simp only; rw [h1, hp0]
      | none =>
        simp only
        have h2 := scriptStep_progress parse o Phase.post p1 w1
        rcases hs2 : scriptStep parse o Phase.post p1 w1 with ⟨b2, p2, w2⟩
        rw [hs2] at h2
        simp only at h2
        cases b2 with
        | true => simp only; rw [h2, h1, hp0]
        | false =>
          simp only [importStep_post]
          split <;> simp [Task.setHook, h2, h1, hp0]

/-- What `beforeExecute` yields: a finished run of one of the first three shapes, or a
world whose events are a preamble and whose task is `RUNNING`. -/
theorem beforeExecute_shape (o : Oracle) (task : Task) :
    (∀ run, beforeExecute o task = Sum.inl run → RunShape run.world.events run.panicked) ∧
    (∀ w, beforeExecute o task = Sum.inr w →
      w.task.status = Status.RUNNING ∧
      ∃ dPre t dir, (∀ e ∈ dPre, quietEvent Status.PRE_PROCESSING e = true) ∧
        t.status = Status.RUNNING ∧
        w.events = preamble dPre t dir w.task.command.resolved) := by
  unfold beforeExecute
  simp only
  generalize hw : startWorld o task = w0
  obtain ⟨d, hev, hq, hne⟩ := prePostProcessTask_events o.parse o.pre Phase.pre w0
  have hw0 : w0.events = [] := by subst hw; rfl
  rw [hw0] at hev
  simp only [List.nil_append] at hev
  rcases hr : prePostProcessTask o.parse o.pre Phase.pre w0 with ⟨res, w1⟩
  rw [hr] at hev hne
  simp only at hev hne
  simp only [phaseStatus] at hq
  cases res with
  | panic =>
    obtain ⟨t, d1, rfl⟩ := hne (by simp)
    obtain ⟨hts, hq1⟩ := quiet_head hq
    refine ⟨?_, by simp⟩
    intro run hrun
    simp only [Sum.inl.injEq] at hrun
    subst hrun
    show RunShape w1.events true
    rw [hev]
    exact RunShape.prePanic d1 t hq1 hts
  | error e =>
    obtain ⟨t, d1, rfl⟩ := hne (by simp)
    obtain ⟨hts, hq1⟩ := quiet_head hq
    refine ⟨?_, by simp⟩
    intro run hrun
    simp only [Sum.inl.injEq] at hrun
    subst hrun
    obtain ⟨tf, hfe, hfs, hfp, _⟩ := failTask_events o.finishedAt w1
      ("PreProcessing failed: ".toList ++ e)
    show RunShape (failTask _ _ _).events false
    rw [hfe, hev]
    exact RunShape.preFailed d1 t tf hq1 hts hfs hfp
  | ok =>
    simp only
    obtain ⟨hre, hrs⟩ := resolveAndRun_events o w1
    cases hm : o.mkdirErr with
    | some e =>
      refine ⟨?_, by simp⟩
      intro run hrun
      simp only [Sum.inl.injEq] at hrun
      subst hrun
      obtain ⟨tf, hfe, hfs, hfp, _⟩ := failTask_events o.finishedAt
        ((resolveAndRun o w1).emit (Event.mkdirAll (Dir (resolveAndRun o w1).task.outputFile.resolved)))
        ("failed to create non-existing output directory: ".toList ++ e)
      show RunShape (failTask _ _ _).events false
      have hE : (failTask o.finishedAt
          ((resolveAndRun o w1).emit
            (Event.mkdirAll (Dir (resolveAndRun o w1).task.outputFile.resolved)))
          ("failed to create non-existing output directory: ".toList ++ e)).events
          = Event.hookCall Phase.pre :: d ++ [Event.update (resolveAndRun o w1).task,
              Event.mkdirAll (Dir (resolveAndRun o w1).task.outputFile.resolved),
              Event.update tf] := by
        rw [hfe]; simp [World.emit, hre, hev]
      rw [hE]
      exact RunShape.mkdirFailed d (resolveAndRun o w1).task tf
        (Dir (resolveAndRun o w1).task.outputFile.resolved) hq hrs hfs hfp
    | none =>
      refine ⟨by simp, ?_⟩
      intro w hw4
      simp only [Sum.inr.injEq] at hw4
      subst hw4
      refine ⟨hrs, d, (resolveAndRun o w1).task,
        Dir (resolveAndRun o w1).task.outputFile.resolved, hq, hrs, ?_⟩
      simp [World.emit, hre, hev, preamble]

/-- The world `Execute` returns has no scanner goroutine with lines left, when every
scanner has handled all lines of its child by the time `cmd.Wait()` returns. -/
theorem callExecute_idle (o : Oracle) (task : Task) (w : World) (hdone : o.scannersDone)
    (hb : beforeExecute o task = Sum.inr w) : (callExecute o w).2.idle :=
  executeFrom_idle _ _ _ _ _ hdone _ _ _ (idle_of_nil (beforeExecute_scanners o task w hb))

/-- Every run of `processTask` in which no `UpdateFunc` call comes after the return of
`Execute` has one of the eight shapes of `RunShape`. -/
theorem processTask_shape (o : Oracle) (task : Task) (hdone : o.scannersDone) :
    RunShape (processTask o task).world.events (processTask o task).panicked := by
  obtain ⟨hl, hr⟩ := beforeExecute_shape o task
  unfold processTask
  cases hb : beforeExecute o task with
  | inl run => exact hl run hb
  | inr w =>
    simp only
    obtain ⟨hws, dPre, t, dir, hq, hts, hwe⟩ := hr w hb
    obtain ⟨hxs, dExec, hxe, hxq⟩ := callExecute_spec o w
    have hidle := callExecute_idle o task w hdone hb
    rw [hws] at hxs hxq
    rcases hc : callExecute o w with ⟨err, w1⟩
    rw [hc] at hxs hxe hidle
    simp only at hxs hxe hidle
    rw [hwe] at hxe
    rw [afterExecute_idle o err w1 hidle]
    cases err with
    | some e =>
      simp only
      cases causeAtCheck o.cancel with
      | some c =>
        obtain ⟨tf, hfe, hfs, hfp, _⟩ := cancelTask_events o.finishedAt (markDone w1) c
        show RunShape (cancelTask _ _ _).events false
        rw [hfe]
        show RunShape (w1.events ++ _) false
        rw [hxe]
        exact RunShape.canceled dPre dExec t tf dir _ hq hts hxq hfs hfp
      | none =>
        obtain ⟨tf, hfe, hfs, hfp, _⟩ := failTask_events o.finishedAt (markDone w1) e
        show RunShape (failTask _ _ _).events false
        rw [hfe]
        show RunShape (w1.events ++ _) false
        rw [hxe]
        exact RunShape.execFailed dPre dExec t tf dir _ hq hts hxq hfs hfp
    | none =>
      simp only
      generalize hwd : markDone w1 = wd
      have hwde : wd.events = preamble dPre t dir w.task.command.resolved ++ dExec := by
        subst hwd; exact hxe
      have hwdp : wd.task.progress = GoFloat.ofRat 100 := by subst hwd; rfl
      obtain ⟨d, hev, hq2, hne⟩ := prePostProcessTask_events o.parse o.post Phase.post wd
      rcases hp : prePostProcessTask o.parse o.post Phase.post wd with ⟨res, w2⟩
      rw [hp] at hev hne
      simp only at hev hne
      simp only [phaseStatus] at hq2
      rw [hwde] at hev
      cases res with
      | panic =>
        obtain ⟨tp, d1, rfl⟩ := hne (by simp)
        obtain ⟨htp, hq3⟩ := quiet_head hq2
        show RunShape w2.events true
        rw [hev]
        exact RunShape.postPanic dPre dExec d1 t tp dir _ hq hts hxq hq3 htp
      | error e =>
        obtain ⟨tp, d1, rfl⟩ := hne (by simp)
        obtain ⟨htp, hq3⟩ := quiet_head hq2
        obtain ⟨tf, hfe, hfs, hfp, _⟩ := failTask_events o.finishedAt w2
          ("PostProcessing failed: ".toList ++ e)
        show RunShape (failTask _ _ _).events false
        rw [hfe, hev]
        have := RunShape.postFailed dPre dExec d1 t tp tf dir w.task.command.resolved
          hq hts hxq hq3 htp hfs hfp
        simpa only [List.append_assoc, List.cons_append] using this
      | ok =>
        show RunShape (w2.events ++ [Event.update _]) false
        rw [hev]
        have := RunShape.succeeded dPre dExec d t
          { w2.task with finishedAt := o.finishedAt, status := Status.DONE_SUCCESSFUL }
          dir w.task.command.resolved hq hts hxq hq2 rfl ?_
        · simpa only [List.append_assoc, List.cons_append] using this
        · show w2.task.progress = GoFloat.ofRat 100
          have := postHook_progress o.parse o.post wd
          rw [hp] at this
          rw [this, hwdp]

/-! ## Consequences of the shape -/

theorem statusesOf_update (t : Task) (es : List Event) :
    statusesOf (Event.update t :: es) = t.status :: statusesOf es := rfl

theorem statusesOf_hookCall (ph : Phase) (es : List Event) :
    statusesOf (Event.hookCall ph :: es) = statusesOf es := rfl

theorem statusesOf_quiet {s : Status} {d : List Event}
    (h : ∀ e ∈ d, quietEvent s e = true) : ∀ x ∈ statusesOf d, x = s := by
  induction d with
  | nil => intro x hx; simp [statusesOf] at hx
  | cons e es ih =>
    have hes : ∀ e ∈ es, quietEvent s e = true := fun e he => h e (List.mem_cons_of_mem _ he)
    have he := h e (List.mem_cons_self _ _)
    cases e <;> simp only [statusesOf] <;> try exact ih hes
    · intro x hx
      rcases List.mem_cons.mp hx with rfl | hx
      · simpa [quietEvent] using he
      · exact ih hes x hx

theorem statusesOf_exec {s : Status} {d : List Event}
    (h : ∀ e ∈ d, execEvent s e = true) : ∀ x ∈ statusesOf d, x = s := by
  induction d with
  | nil => intro x hx; simp [statusesOf] at hx
  | cons e es ih =>
    have hes : ∀ e ∈ es, execEvent s e = true := fun e he => h e (List.mem_cons_of_mem _ he)
    have he := h e (List.mem_cons_self _ _)
    cases e <;> simp only [statusesOf] <;> try exact ih hes
    · intro x hx
      rcases List.mem_cons.mp hx with rfl | hx
      · simpa [execEvent] using he
      · exact ih hes x hx

theorem pathFrom_repeat (s : Status) (hs : s.isTerminal = false) {xs : List Status}
    (h : ∀ x ∈ xs, x = s) (rest : List Status) :
    pathFrom s (xs ++ rest) = pathFrom s rest := by
  induction xs with
  | nil => rfl
  | cons x xs ih =>
    have hx : x = s := h x (List.mem_cons_self _ _)
    subst hx
    have := ih (fun y hy => h y (List.mem_cons_of_mem _ hy))
    simp [pathFrom, hs, this]

/-- Entering a non-terminal status `s` along an edge, possibly not at all when no
status `s` is written and the next status can be reached directly. -/
theorem pathFrom_enter (cur s : Status) (hc : cur.isTerminal = false)
    (hs : s.isTerminal = false) (hedge : dagEdge cur s = true)
    {xs : List Status} (h : ∀ x ∈ xs, x = s) (rest : List Status)
    (hdirect : xs = [] → pathFrom cur rest = true)
    (hrest : pathFrom s rest = true) :
    pathFrom cur (xs ++ rest) = true := by
  cases xs with
  | nil => exact hdirect rfl
  | cons x xs =>
    have hx : x = s := h x (List.mem_cons_self _ _)
    subst hx
    have := pathFrom_repeat x hs (fun y hy => h y (List.mem_cons_of_mem _ hy)) rest
    simp [pathFrom, hc, hedge, this, hrest]

theorem statusesOf_preamble (dPre : List Event) (t : Task) (dir cmd : Str) :
    statusesOf (preamble dPre t dir cmd) = statusesOf dPre ++ [t.status] := by
  simp [preamble, statusesOf_hookCall, statusesOf_update, statusesOf_append, statusesOf]

/-- From the preamble on: the pre statuses, `RUNNING`, and then a tail that is a path
from `RUNNING`. -/
theorem pathFrom_preamble {xs : List Status} (h : ∀ x ∈ xs, x = Status.PRE_PROCESSING)
    (rest : List Status) (hrest : pathFrom Status.RUNNING rest = true) :
    pathFrom Status.QUEUED (xs ++ Status.RUNNING :: rest) = true := by
  apply pathFrom_enter Status.QUEUED Status.PRE_PROCESSING rfl rfl rfl h
  · intro _
    simp [pathFrom, Status.isTerminal, dagEdge, hrest]
  · simp [pathFrom, Status.isTerminal, dagEdge, hrest]

theorem statusesOf_nil : statusesOf [] = [] := rfl

/-- The statuses written by a run that does not panic form a path of the state machine
from `QUEUED` to a terminal status. -/
theorem shape_path {evs : List Event} {b : Bool} (h : RunShape evs b) (hb : b = false) :
    pathFrom Status.QUEUED (statusesOf evs) = true := by
  cases h with
  | prePanic => cases hb
  | postPanic => cases hb
  | preFailed dPre t tf hq ht hf _ =>
    have h1 := statusesOf_quiet hq
    simp only [statusesOf_append, statusesOf_hookCall, statusesOf_update, statusesOf_nil,
      ht, hf, List.cons_append]
    have := pathFrom_repeat Status.PRE_PROCESSING rfl h1 [Status.DONE_ERROR]
    simp only [pathFrom, Status.isTerminal, dagEdge, this]
    rfl
  | mkdirFailed dPre t tf dir hq ht hf _ =>
    have h1 := statusesOf_quiet hq
    simp only [statusesOf_append, statusesOf_hookCall, statusesOf_update, statusesOf_nil,
      ht, hf, List.cons_append]
    exact pathFrom_preamble h1 _ (by simp [statusesOf, pathFrom, Status.isTerminal, dagEdge, hf])
  | canceled dPre dExec t tf dir cmd hq ht hx hf _ =>
    have h1 := statusesOf_quiet hq
    have h2 := statusesOf_exec hx
    simp only [statusesOf_append, statusesOf_preamble, statusesOf_update, statusesOf_nil,
      ht, hf, List.append_assoc, List.singleton_append]
    apply pathFrom_preamble h1
    try simp only [List.nil_append]
    rw [pathFrom_repeat Status.RUNNING rfl h2]
    rfl
  | execFailed dPre dExec t tf dir cmd hq ht hx hf _ =>
    have h1 := statusesOf_quiet hq
    have h2 := statusesOf_exec hx
    simp only [statusesOf_append, statusesOf_preamble, statusesOf_update, statusesOf_nil,
      ht, hf, List.append_assoc, List.singleton_append]
    apply pathFrom_preamble h1
    try simp only [List.nil_append]
    rw [pathFrom_repeat Status.RUNNING rfl h2]
    rfl
  | postFailed dPre dExec dPost t tp tf dir cmd hq ht hx hp htp hf _ =>
    have h1 := statusesOf_quiet hq
    have h2 := statusesOf_exec hx
    have h3 := statusesOf_quiet hp
    simp only [statusesOf_append, statusesOf_preamble, statusesOf_update, statusesOf_nil,
      statusesOf_hookCall, ht, hf, htp, List.append_assoc, List.singleton_append,
      List.cons_append]
    apply pathFrom_preamble h1
    try simp only [List.nil_append]
    rw [pathFrom_repeat Status.RUNNING rfl h2]
    have := pathFrom_repeat Status.POST_PROCESSING rfl h3 [Status.DONE_ERROR]
    simp only [pathFrom, Status.isTerminal, dagEdge, this]
    rfl
  | succeeded dPre dExec dPost t tf dir cmd hq ht hx hp hf _ =>
    have h1 := statusesOf_quiet hq
    have h2 := statusesOf_exec hx
    have h3 := statusesOf_quiet hp
    simp only [statusesOf_append, statusesOf_preamble, statusesOf_update, statusesOf_nil,
      statusesOf_hookCall, ht, hf, List.append_assoc, List.singleton_append,
      List.cons_append]
    apply pathFrom_preamble h1
    try simp only [List.nil_append]
    rw [pathFrom_repeat Status.RUNNING rfl h2]
    apply pathFrom_enter Status.RUNNING Status.POST_PROCESSING rfl rfl rfl h3
    · intro _; rfl
    · rfl

/-! ## The status sequence of a worker (C2) -/

/-- A path from a non-terminal status ends in a terminal status, and no status before
the last one is terminal. -/
theorem pathFrom_ends (cur : Status) (ss : List Status) (hc : cur.isTerminal = false)
    (h : pathFrom cur ss = true) :
    ∃ init t, ss = init ++ [t] ∧ t.isTerminal = true ∧ ∀ s ∈ init, s.isTerminal = false := by
  induction ss generalizing cur with
  | nil =>
    simp only [pathFrom] at h
    rw [hc] at h
    cases h
  | cons s rest ih =>
    simp only [pathFrom, Bool.and_eq_true] at h
    cases hs : s.isTerminal with
    | true =>
      cases rest with
      | nil => exact ⟨[], s, rfl, hs, by simp⟩
      | cons r rest =>
        have := h.2
        simp [pathFrom, hs] at this
    | false =>
      obtain ⟨init, t, hrest, ht, hinit⟩ := ih s hs h.2
      refine ⟨s :: init, t, by rw [hrest]; rfl, ht, ?_⟩
      intro x hx
      rcases List.mem_cons.mp hx with rfl | hx
      · exact hs
      · exact hinit x hx

/-- X1: for every run of `processTask` that returns (does not panic) and in which no
`UpdateFunc` call comes after the return of `Execute`, whatever the hooks, the file
system, the encoder and the cancellation do, the statuses written through `updateTask`,
read from `QUEUED` with consecutive repeats collapsed, are a path of the state machine:
every write repeats the current status or follows an edge, exactly one terminal status
is written, and it is the last write. -/
theorem processTask_status_path (o : Oracle) (task : Task) (hdone : o.scannersDone)
    (h : (processTask o task).panicked = false) :
    pathFrom Status.QUEUED (statusesOf (processTask o task).world.events) = true ∧
    ∃ init t, statusesOf (processTask o task).world.events = init ++ [t] ∧
      t.isTerminal = true ∧ ∀ s ∈ init, s.isTerminal = false :=
  ⟨shape_path (processTask_shape o task hdone) h,
   pathFrom_ends Status.QUEUED _ rfl (shape_path (processTask_shape o task hdone) h)⟩

theorem processTask_status_path_witness :
    (processTask sampleOracle sampleTask).panicked = false ∧
    pathFrom Status.QUEUED (statusesOf (processTask sampleOracle sampleTask).world.events)
      = true ∧
    statusesOf (processTask sampleOracle sampleTask).world.events
      = [Status.RUNNING, Status.RUNNING, Status.DONE_SUCCESSFUL] :=
  ⟨by decide,
   (processTask_status_path sampleOracle sampleTask (fun _ => rfl) (by decide)).1, by decide⟩

/-- C2, at the failing input: a queued task whose pre hook has the script path `" "`.
`shellwords` returns no words for it, `args[0]` panics, and the worker ends after two
`PRE_PROCESSING` snapshots without ever writing a terminal status. -/
theorem blank_script_path_panics :
    sampleParse " ".toList = Except.ok [] ∧
    (processTask sampleOracle blankScriptTask).panicked = true ∧
    statusesOf (processTask sampleOracle blankScriptTask).world.events
      = [Status.PRE_PROCESSING, Status.PRE_PROCESSING] ∧
    pathFrom Status.QUEUED (statusesOf (processTask sampleOracle blankScriptTask).world.events)
      = false :=
  ⟨rfl, by decide, by decide, by decide⟩

/-! ## The outcome of a supervisor error (C3) -/

theorem not_mem_of_quiet {s : Status} {d : List Event} {ph : Phase}
    (h : ∀ e ∈ d, quietEvent s e = true) : Event.hookCall ph ∉ d := by
  intro hm
  have := h _ hm
  simp [quietEvent] at this

theorem not_mem_of_exec {s : Status} {d : List Event} {ph : Phase}
    (h : ∀ e ∈ d, execEvent s e = true) : Event.hookCall ph ∉ d := by
  intro hm
  have := h _ hm
  simp [execEvent] at this

/-- C3: when `ffmpeg.Execute` returns an error `e` inside `processTask`, the worker
returns; if the context has a cause `c` the task ends `DONE_CANCELED` with error `c`,
otherwise it ends `DONE_ERROR` with error `e`; that final task is the last snapshot
persisted, and the post-processing hook is never called.  The cancel loop passes the
cause `"task canceled by user"` to the cancel function of a live task. -/
theorem supervisor_error_outcome (o : Oracle) (task : Task) (w w1 : World) (e : Str)
    (hb : beforeExecute o task = Sum.inr w)
    (hx : callExecute o w = (some e, w1)) :
    (processTask o task).panicked = false ∧
    (∀ c, causeAtCheck o.cancel = some c →
      (processTask o task).world.task.status = Status.DONE_CANCELED ∧
      (processTask o task).world.task.error = c) ∧
    (causeAtCheck o.cancel = none →
      (processTask o task).world.task.status = Status.DONE_ERROR ∧
      (processTask o task).world.task.error = e) ∧
    (processTask o task).world.events.getLast?
      = some (Event.update (processTask o task).world.task) ∧
    Event.hookCall Phase.post ∉ (processTask o task).world.events ∧
    (∀ (max : Nat) (s : SchedState) (uuid : Str) (ctx : Nat),
      mapGet s.taskCtx uuid = some ctx →
      s.canceled.any (fun p => p.1 == ctx) = false →
      (schedStep max s (SchedEvent.cancelSignal uuid)).canceled
        = s.canceled ++ [(ctx, "task canceled by user".toList)]) := by
  obtain ⟨_, hr⟩ := beforeExecute_shape o task
  obtain ⟨hws, dPre, t, dir, hq, hts, hwe⟩ := hr w hb
  obtain ⟨_, dExec, hxe, hxq⟩ := callExecute_spec o w
  rw [hx] at hxe
  simp only at hxe
  rw [hws] at hxq
  have hnot : Event.hookCall Phase.post ∉ w1.events := by
    rw [hxe, hwe]
    simp only [preamble, List.mem_append, List.mem_cons, List.mem_singleton, not_or]
    refine ⟨⟨⟨by simp, not_mem_of_quiet hq⟩, by simp⟩, not_mem_of_exec hxq⟩
  have hrun : processTask o task = afterExecute o (some e) w1 := by
    unfold processTask
    rw [hb]
    simp only
    rw [hx]
  rw [hrun]
  unfold afterExecute
  simp only
  generalize hv : (markDone (w1.runScanners o.lib)).runScanners o.lib = v
  have hvnot : Event.hookCall Phase.post ∉ v.events := by
    subst hv
    apply worldRunScanners_not_mem _ _ _ (by simp)
    show Event.hookCall Phase.post ∉ (w1.runScanners o.lib).events
    exact worldRunScanners_not_mem _ _ _ (by simp) hnot
  refine ⟨?_, ?_, ?_, ?_, ?_, ?_⟩
  · cases causeAtCheck o.cancel <;> rfl
  · intro c hc
    rw [hc]
    simp only
    obtain ⟨ht, _, _⟩ := worldRunScanners_late o.lib (cancelTask o.finishedAt v c)
    exact ⟨sameButProgress_status ht, sameButProgress_error ht⟩
  · intro hc
    rw [hc]
    simp only
    obtain ⟨ht, _, _⟩ := worldRunScanners_late o.lib (failTask o.finishedAt v e)
    exact ⟨sameButProgress_status ht, sameButProgress_error ht⟩
  · cases causeAtCheck o.cancel with
    | some c =>
      exact (worldRunScanners_late o.lib (cancelTask o.finishedAt v c)).2.2
        (by simp [World.settled, cancelTask, World.updateTask])
    | none =>
      exact (worldRunScanners_late o.lib (failTask o.finishedAt v e)).2.2
        (by simp [World.settled, failTask, World.updateTask])
  · cases causeAtCheck o.cancel with
    | some c =>
      apply worldRunScanners_not_mem _ _ _ (by simp)
      simp [cancelTask, World.updateTask, hvnot]
    | none =>
      apply worldRunScanners_not_mem _ _ _ (by simp)
      simp [failTask, World.updateTask, hvnot]
  · intro max s uuid ctx hget hany
    simp [schedStep, hget, hany, userCancelCause]

theorem supervisor_error_outcome_witness :
    (processTask cancelDuringOracle sampleTask).panicked = false ∧
    (processTask cancelDuringOracle sampleTask).world.task.status = Status.DONE_CANCELED ∧
    (processTask cancelDuringOracle sampleTask).world.task.error
      = "task canceled by user".toList ∧
    Event.hookCall Phase.post ∉ (processTask cancelDuringOracle sampleTask).world.events :=
  have h := supervisor_error_outcome cancelDuringOracle sampleTask _ _
    "No such file\n".toList rfl rfl
  ⟨h.1, (h.2.1 _ rfl).1, (h.2.1 _ rfl).2, h.2.2.2.2.1⟩

/-! ## Progress of terminal snapshots (C4) -/

theorem snapshotsOf_quiet {s : Status} {d : List Event}
    (h : ∀ e ∈ d, quietEvent s e = true) : ∀ t ∈ snapshotsOf d, t.status = s := by
  induction d with
  | nil => intro x hx; simp [snapshotsOf] at hx
  | cons e es ih =>
    have hes : ∀ e ∈ es, quietEvent s e = true := fun e he => h e (List.mem_cons_of_mem _ he)
    have he := h e (List.mem_cons_self _ _)
    cases e <;> simp only [snapshotsOf] <;> try exact ih hes
    · intro x hx
      rcases List.mem_cons.mp hx with rfl | hx
      · simpa [quietEvent] using he
      · exact ih hes x hx

theorem snapshotsOf_exec {s : Status} {d : List Event}
    (h : ∀ e ∈ d, execEvent s e = true) : ∀ t ∈ snapshotsOf d, t.status = s := by
  induction d with
  | nil => intro x hx; simp [snapshotsOf] at hx
  | cons e es ih =>
    have hes : ∀ e ∈ es, execEvent s e = true := fun e he => h e (List.mem_cons_of_mem _ he)
    have he := h e (List.mem_cons_self _ _)
    cases e <;> simp only [snapshotsOf] <;> try exact ih hes
    · intro x hx
      rcases List.mem_cons.mp hx with rfl | hx
      · simpa [execEvent] using he
      · exact ih hes x hx

theorem snapshotsOf_update (t : Task) (es : List Event) :
    snapshotsOf (Event.update t :: es) = t :: snapshotsOf es := rfl

theorem snapshotsOf_hookCall (ph : Phase) (es : List Event) :
    snapshotsOf (Event.hookCall ph :: es) = snapshotsOf es := rfl

theorem snapshotsOf_nil : snapshotsOf [] = [] := rfl

theorem snapshotsOf_mkdirAll (dir : Str) (es : List Event) :
    snapshotsOf (Event.mkdirAll dir :: es) = snapshotsOf es := rfl

theorem snapshotsOf_preamble (dPre : List Event) (t : Task) (dir cmd : Str) :
    snapshotsOf (preamble dPre t dir cmd) = snapshotsOf dPre ++ [t] := by
  simp [preamble, snapshotsOf_hookCall, snapshotsOf_update, snapshotsOf_append, snapshotsOf]

/-- In every shape, a snapshot with a terminal status has progress 100. -/
theorem shape_terminal_progress {evs : List Event} {b : Bool} (h : RunShape evs b)
    (t : Task) (ht : t ∈ snapshotsOf evs) (hterm : t.status.isTerminal = true) :
    t.progress = GoFloat.ofRat 100 := by
  have quiet : ∀ {s : Status} {d : List Event}, (∀ e ∈ d, quietEvent s e = true) →
      s.isTerminal = false → t ∈ snapshotsOf d → False := by
    intro s d hq hs hm
    rw [snapshotsOf_quiet hq t hm, hs] at hterm
    cases hterm
  have exec : ∀ {d : List Event},
      (∀ e ∈ d, execEvent Status.RUNNING e = true) → t ∈ snapshotsOf d → False := by
    intro d hq hm
    rw [snapshotsOf_exec hq t hm] at hterm
    cases hterm
  have one : ∀ {u : Task} {s : Status}, u.status = s → s.isTerminal = false → t = u → False := by
    intro u s hu hs htu
    rw [htu, hu, hs] at hterm
    cases hterm
  cases h with
  | prePanic dPre t0 hq ht0 =>
    simp only [snapshotsOf_hookCall, snapshotsOf_update, List.mem_cons] at ht
    rcases ht with h | h
    · exact (one ht0 rfl h).elim
    · exact (quiet hq rfl h).elim
  | preFailed dPre t0 tf hq ht0 hf hp =>
    simp only [snapshotsOf_append, snapshotsOf_hookCall, snapshotsOf_update, snapshotsOf_nil,
      List.mem_cons, List.mem_append, List.not_mem_nil, or_false] at ht
    rcases ht with (h | h) | h
    · exact (one ht0 rfl h).elim
    · exact (quiet hq rfl h).elim
    · rw [h]; exact hp
  | mkdirFailed dPre t0 tf dir hq ht0 hf hp =>
    simp only [snapshotsOf_append, snapshotsOf_hookCall, snapshotsOf_update, snapshotsOf_nil,
      snapshotsOf_mkdirAll, List.mem_cons, List.mem_append, List.not_mem_nil, or_false] at ht
    rcases ht with h | h | h
    · exact (quiet hq rfl h).elim
    · exact (one ht0 rfl h).elim
    · rw [h]; exact hp
  | canceled dPre dExec t0 tf dir cmd hq ht0 hx hf hp =>
    simp only [snapshotsOf_append, snapshotsOf_preamble, snapshotsOf_update, snapshotsOf_nil,
      List.mem_cons, List.mem_append, List.not_mem_nil, or_false] at ht
    rcases ht with ((h | h) | h) | h
    · exact (quiet hq rfl h).elim
    · exact (one ht0 rfl h).elim
    · exact (exec hx h).elim
    · rw [h]; exact hp
  | execFailed dPre dExec t0 tf dir cmd hq ht0 hx hf hp =>
    simp only [snapshotsOf_append, snapshotsOf_preamble, snapshotsOf_update, snapshotsOf_nil,
      List.mem_cons, List.mem_append, List.not_mem_nil, or_false] at ht
    rcases ht with ((h | h) | h) | h
    · exact (quiet hq rfl h).elim
    · exact (one ht0 rfl h).elim
    · exact (exec hx h).elim
    · rw [h]; exact hp
  | postPanic dPre dExec dPost t0 tp dir cmd hq ht0 hx hpq htp =>
    simp only [snapshotsOf_append, snapshotsOf_preamble, snapshotsOf_update, snapshotsOf_nil,
      snapshotsOf_hookCall, List.mem_cons, List.mem_append, List.not_mem_nil, or_false] at ht
    rcases ht with ((h | h) | h) | h | h
    · exact (quiet hq rfl h).elim
    · exact (one ht0 rfl h).elim
    · exact (exec hx h).elim
    · exact (one htp rfl h).elim
    · exact (quiet hpq rfl h).elim
  | postFailed dPre dExec dPost t0 tp tf dir cmd hq ht0 hx hpq htp hf hp =>
    simp only [snapshotsOf_append, snapshotsOf_preamble, snapshotsOf_update, snapshotsOf_nil,
      snapshotsOf_hookCall, List.mem_cons, List.mem_append, List.not_mem_nil, or_false] at ht
    rcases ht with (((h | h) | h) | h | h) | h
    · exact (quiet hq rfl h).elim
    · exact (one ht0 rfl h).elim
    · exact (exec hx h).elim
    · exact (one htp rfl h).elim
    · exact (quiet hpq rfl h).elim
    · rw [h]; exact hp
  | succeeded dPre dExec dPost t0 tf dir cmd hq ht0 hx hpq hf hp =>
    simp only [snapshotsOf_append, snapshotsOf_preamble, snapshotsOf_update, snapshotsOf_nil,
      snapshotsOf_hookCall, List.mem_cons, List.mem_append, List.not_mem_nil, or_false] at ht
    rcases ht with (((h | h) | h) | h) | h
    · exact (quiet hq rfl h).elim
    · exact (one ht0 rfl h).elim
    · exact (exec hx h).elim
    · exact (quiet hpq rfl h).elim
    · rw [h]; exact hp

/-- X6: on every path through `processTask` on which no `UpdateFunc` call comes after the
return of `Execute`, every snapshot handed to `updateTask` with a terminal status
(`DONE_SUCCESSFUL`, `DONE_ERROR` or `DONE_CANCELED`) has progress 100. -/
theorem terminal_snapshot_progress (o : Oracle) (task : Task) (t : Task)
    (hdone : o.scannersDone)
    (ht : t ∈ snapshotsOf (processTask o task).world.events)
    (hterm : t.status.isTerminal = true) :
    t.progress = GoFloat.ofRat 100 :=
  shape_terminal_progress (processTask_shape o task hdone) t ht hterm

theorem terminal_snapshot_progress_witness :
    (processTask sampleOracle sampleTask).world.task
        ∈ snapshotsOf (processTask sampleOracle sampleTask).world.events ∧
    (processTask sampleOracle sampleTask).world.task.status = Status.DONE_SUCCESSFUL ∧
    (processTask sampleOracle sampleTask).world.task.progress = GoFloat.ofRat 100 :=
  ⟨by decide, by decide,
   terminal_snapshot_progress sampleOracle sampleTask _ (fun _ => rfl) (by decide) (by decide)⟩

/-- C4, at the failing input: the encoder prints a duration and one progress frame and
exits with status 0; the scanner goroutine, which nothing waits for, handles the frame
after `cmd.Wait()` has returned and lines 123-124 have set the progress to 100.  Its
`UpdateFunc` call stores 50 again, and the terminal snapshot is persisted with status
`DONE_SUCCESSFUL` and progress 50.  In the second run the encoder fails and the frame is
handled after `failTask`: a `DONE_ERROR` snapshot with progress 50 follows the one with
progress 100. -/
theorem late_frame_after_done :
    (snapshotsOf (processTask lateOracle sampleTask).world.events).map
        (fun t => (t.status, t.progress))
      = [(Status.RUNNING, GoFloat.ofRat 0), (Status.RUNNING, GoFloat.ofRat 50),
         (Status.DONE_SUCCESSFUL, GoFloat.ofRat 50)] ∧
    (snapshotsOf (processTask lateFailingOracle sampleTask).world.events).map
        (fun t => (t.status, t.progress))
      = [(Status.RUNNING, GoFloat.ofRat 0), (Status.DONE_ERROR, GoFloat.ofRat 100),
         (Status.DONE_ERROR, GoFloat.ofRat 50)] := by
  decide

/-! ## Hook errors (C5) -/

/-- The script step when the script runs and `cmd.Wait()` fails: the hook error becomes
the captured stderr followed by the exit code. -/
theorem scriptStep_waitFailed (parse : Str → Except Str (List Str)) (o : HookOracle)
    (phase : Phase) (p : Hook) (w : World) (sc : RawResolved) (stderr : Str) (code : Int)
    (a : Str) (as : List Str)
    (herr : p.error = []) (hsc : p.scriptPath = some sc) (hraw : sc.raw ≠ [])
    (hparse : parse (Replace o.envScript sc.raw (hookFiles phase w.task).1
      (hookFiles phase w.task).2 w.task.source w.task.metadata) = Except.ok (a :: as))
    (hs : o.script = ScriptOutcome.waitFailed stderr code) :
    (scriptStep parse o phase p w).1 = false ∧
    (scriptStep parse o phase p w).2.1.error = scriptError stderr code ∧
    (scriptStep parse o phase p w).2.1.sidecarPath = p.sidecarPath ∧
    (scriptStep parse o phase p w).2.1.importSidecar = p.importSidecar := by
  unfold scriptStep
  simp [hsc, herr, hraw, hparse, hs]

/-- The sidecar step when it is absent or succeeds: no error, and the hook keeps its
script path, its import flag and its (empty) error. -/
theorem sidecarStep_fine (o : HookOracle) (phase : Phase) (p : Hook) (w : World)
    (hside : sidecarAbsentOrWritten o p = true) :
    (sidecarStep o phase p w).1 = none ∧
    (sidecarStep o phase p w).2.1.error = p.error ∧
    (sidecarStep o phase p w).2.1.scriptPath = p.scriptPath ∧
    (sidecarStep o phase p w).2.1.importSidecar = p.importSidecar ∧
    (∀ sp, p.sidecarPath = some sp →
      ∃ sp1, (sidecarStep o phase p w).2.1.sidecarPath = some sp1 ∧ sp1.raw = sp.raw) ∧
    (p.sidecarPath = none → (sidecarStep o phase p w).2.1.sidecarPath = none) ∧
    hookFiles phase (sidecarStep o phase p w).2.2.task = hookFiles phase w.task ∧
    (sidecarStep o phase p w).2.2.task.source = w.task.source ∧
    (sidecarStep o phase p w).2.2.task.metadata = w.task.metadata := by
  unfold sidecarStep
  unfold sidecarAbsentOrWritten at hside
  cases hp : p.sidecarPath with
  | none => simp [hp]
  | some sp =>
    rw [hp] at hside
    simp only at hside
    by_cases hraw : sp.raw = []
    · simp [hraw, hp]
    · simp only [hraw, if_false]
      have hraw' : (sp.raw == []) = false := by simpa using hraw
      rw [hraw'] at hside
      simp only [Bool.false_or, Bool.and_eq_true, Option.isSome_iff_exists,
        Option.isNone_iff_eq_none] at hside
      obtain ⟨⟨⟨b, hb⟩, hm⟩, hwr⟩ := hside
      simp only [hb, hm, hwr]
      cases phase <;> simp [World.updateTask, World.emit, Task.setHook, hookFiles, hp]

theorem scriptError_ne_nil (stderr : Str) (code : Int) : scriptError stderr code ≠ [] := by
  unfold scriptError
  intro h
  have := congrArg List.length h
  simp at this

/-- A hook whose script runs and exits with an error returns the captured stderr
followed by the exit code, provided the sidecar step is absent or succeeds and no
re-import replaces the recorded error. -/
theorem hook_script_error (parse : Str → Except Str (List Str)) (o : HookOracle)
    (phase : Phase) (w : World) (p : Hook) (sc : RawResolved) (stderr : Str) (code : Int)
    (a : Str) (as : List Str)
    (hhook : w.task.hook phase = some p) (herr : p.error = [])
    (hsc : p.scriptPath = some sc) (hraw : sc.raw ≠ [])
    (hside : sidecarAbsentOrWritten o p = true)
    (hparse : parse (Replace o.envScript sc.raw (hookFiles phase w.task).1
      (hookFiles phase w.task).2 w.task.source w.task.metadata) = Except.ok (a :: as))
    (hs : o.script = ScriptOutcome.waitFailed stderr code)
    (himp : importKeepsError o phase p (scriptError stderr code) = true) :
    (prePostProcessTask parse o phase w).1 = HookResult.error (scriptError stderr code) := by
  unfold prePostProcessTask
  simp only [World.emit, hhook]
  have hguard : ¬ (p.sidecarPath.isNone = true ∧ p.scriptPath.isNone = true) := by
    simp [hsc]
  rw [if_neg hguard]
  generalize hp0 : ({ p with startedAt := o.startedAt } : Hook) = p0
  generalize hw0 : World.updateTask
    { task := { (Task.setHook w.task phase p0) with status := phaseStatus phase },
      events := w.events ++ [Event.hookCall phase],
          scanners := w.scanners } = w0
  have hf0 : hookFiles phase w0.task = hookFiles phase w.task ∧
      w0.task.source = w.task.source ∧ w0.task.metadata = w.task.metadata := by
    subst hw0; cases phase <;> simp [World.updateTask, Task.setHook, hookFiles]
  have hp0s : p0.sidecarPath = p.sidecarPath ∧ p0.scriptPath = p.scriptPath ∧
      p0.error = p.error ∧ p0.importSidecar = p.importSidecar := by
    subst hp0; exact ⟨rfl, rfl, rfl, rfl⟩
  have hside0 : sidecarAbsentOrWritten o p0 = true := by
    unfold sidecarAbsentOrWritten at hside ⊢
    rw [hp0s.1]; exact hside
  obtain ⟨h1e, h1err, h1sc, h1imp, h1some, h1none, h1f, h1s, h1m⟩ :=
    sidecarStep_fine o phase p0 w0 hside0
  rcases hs1 : sidecarStep o phase p0 w0 with ⟨e1, p1, w1⟩
  rw [hs1] at h1e h1err h1sc h1imp h1some h1none h1f h1s h1m
  simp only at h1e h1err h1sc h1imp h1some h1none h1f h1s h1m
  subst h1e
  simp only
  have hparse1 : parse (Replace o.envScript sc.raw (hookFiles phase w1.task).1
      (hookFiles phase w1.task).2 w1.task.source w1.task.metadata) = Except.ok (a :: as) := by
    rw [h1f, h1s, h1m, hf0.1, hf0.2.1, hf0.2.2]; exact hparse
  obtain ⟨h2b, h2err, h2side, h2imp⟩ := scriptStep_waitFailed parse o phase p1 w1 sc stderr
    code a as (by rw [h1err, hp0s.2.2.1, herr]) (by rw [h1sc, hp0s.2.1, hsc]) hraw hparse1 hs
  rcases hs2 : scriptStep parse o phase p1 w1 with ⟨b2, p2, w2⟩
  rw [hs2] at h2b h2err h2side h2imp
  simp only at h2b h2err h2side h2imp
  subst h2b
  simp only
  have hne := scriptError_ne_nil stderr code
  unfold importStep
  unfold importKeepsError at himp
  cases hps : p.sidecarPath with
  | none =>
    have : p2.sidecarPath = none := by rw [h2side]; exact h1none (by rw [hp0s.1, hps])
    simp [this, h2err, hne]
  | some sp =>
    rw [hps] at himp
    simp only at himp
    obtain ⟨sp1, hsp1, hsp1raw⟩ := h1some sp (by rw [hp0s.1, hps])
    have hp2 : p2.sidecarPath = some sp1 := by rw [h2side]; exact hsp1
    simp only [hp2]
    by_cases hcond : phase = Phase.pre ∧ sp1.raw ≠ [] ∧ p2.importSidecar = true
    · rw [if_pos hcond]
      obtain ⟨hph, hr, hi⟩ := hcond
      have hi' : p.importSidecar = true := by rw [← hp0s.2.2.2, ← h1imp, ← h2imp]; exact hi
      have hr' : (sp.raw == []) = false := by rw [← hsp1raw]; simpa using hr
      subst hph
      cases hre : o.readErr with
      | some e => simp [hr', hi', hre] at himp
      | none =>
        cases hue : o.unmarshalErr with
        | some e => simp [hr', hi', hre, hue] at himp
        | none =>
          cases hip : o.imported.preProcessing with
          | none => simp [h2err, hne]
          | some h =>
            have hk : h.error = scriptError stderr code := by
              simpa [hr', hi', hre, hue, hip] using himp
            simp [hk, hne]
    · rw [if_neg hcond]
      simp [h2err, hne]

theorem not_execute_of_quiet {s : Status} {d : List Event} {cmd : Str}
    (h : ∀ e ∈ d, quietEvent s e = true) : Event.execute cmd ∉ d := by
  intro hm
  have := h _ hm
  simp [quietEvent] at this

/-- C5, as stated, fails: the pre script prints `boom` and exits with status 3, the
sidecar is written and re-imported without error.  When the record read back carries an
empty `error`, the hook returns nil and the task ends `DONE_SUCCESSFUL` with an empty
error; when it carries the text `edited`, the task ends `DONE_ERROR` with the error
`PreProcessing failed: edited`, in which neither `boom` nor the exit code appears. -/
theorem script_error_lost_by_import :
    clobberOracle.pre.script = ScriptOutcome.waitFailed "boom".toList 3 ∧
    Event.runScript Phase.pre ["/bin/fail.sh".toList]
      ∈ (processTask clobberOracle importTask).world.events ∧
    sidecarAbsentOrWritten clobberOracle.pre importHook = true ∧
    clobberOracle.pre.readErr = none ∧ clobberOracle.pre.unmarshalErr = none ∧
    (processTask clobberOracle importTask).world.task.status = Status.DONE_SUCCESSFUL ∧
    (processTask clobberOracle importTask).world.task.error = [] ∧
    editedOracle.pre.script = ScriptOutcome.waitFailed "boom".toList 3 ∧
    Event.runScript Phase.pre ["/bin/fail.sh".toList]
      ∈ (processTask editedOracle importTask).world.events ∧
    editedOracle.pre.readErr = none ∧ editedOracle.pre.unmarshalErr = none ∧
    (processTask editedOracle importTask).world.task.status = Status.DONE_ERROR ∧
    (processTask editedOracle importTask).world.task.error
      = "PreProcessing failed: edited".toList ∧
    containsStr "boom (exit code: 3)".toList
      (processTask editedOracle importTask).world.task.error = false :=
  ⟨rfl, by decide, by decide, rfl, rfl, by decide, by decide,
   rfl, by decide, rfl, rfl, by decide, by decide, by decide⟩

/-- C5 (amended): whenever the pre or the post hook returns an error `e`, the worker
stops and the task ends `DONE_ERROR` with error `"PreProcessing failed: " ++ e`,
respectively `"PostProcessing failed: " ++ e`.  After a pre hook error the `DONE_ERROR`
snapshot is the next and last effect and `Execute` is never called; after a post hook
error nothing but snapshots follows, the last of them the final task, and the
`DONE_ERROR` snapshot is the only one when no `UpdateFunc` call comes after the return
of `Execute`.  A hook whose script runs and exits with code `N` and stderr `s` returns
the error `s ++ " (exit code: N)"`, provided the sidecar step is absent or succeeds and
no sidecar re-import replaces the error recorded in the hook. -/
theorem hook_error_fails_task (o : Oracle) (task : Task) :
    (∀ e w1, prePostProcessTask o.parse o.pre Phase.pre (startWorld o task)
        = (HookResult.error e, w1) →
      (processTask o task).panicked = false ∧
      (processTask o task).world.task.status = Status.DONE_ERROR ∧
      (processTask o task).world.task.error = "PreProcessing failed: ".toList ++ e ∧
      (processTask o task).world.events
        = w1.events ++ [Event.update (processTask o task).world.task] ∧
      (∀ cmd, Event.execute cmd ∉ (processTask o task).world.events)) ∧
    (∀ w w1 e w2, beforeExecute o task = Sum.inr w → callExecute o w = (none, w1) →
      prePostProcessTask o.parse o.post Phase.post
          ((markDone (w1.runScanners o.lib)).runScanners o.lib)
        = (HookResult.error e, w2) →
      (processTask o task).panicked = false ∧
      (processTask o task).world.task.status = Status.DONE_ERROR ∧
      (processTask o task).world.task.error = "PostProcessing failed: ".toList ++ e ∧
      (processTask o task).world.events.getLast?
        = some (Event.update (processTask o task).world.task) ∧
      (∃ d, (processTask o task).world.events = w2.events ++ d ∧
        ∀ x ∈ d, ∃ t, x = Event.update t) ∧
      (o.scannersDone → (processTask o task).world.events
        = w2.events ++ [Event.update (processTask o task).world.task])) ∧
    (∀ (ho : HookOracle) (phase : Phase) (w : World) (p : Hook) (sc : RawResolved)
        (stderr : Str) (code : Int) (a : Str) (as : List Str),
      w.task.hook phase = some p → p.error = [] →
      p.scriptPath = some sc → sc.raw ≠ [] →
      sidecarAbsentOrWritten ho p = true →
      o.parse (Replace ho.envScript sc.raw (hookFiles phase w.task).1
        (hookFiles phase w.task).2 w.task.source w.task.metadata) = Except.ok (a :: as) →
      ho.script = ScriptOutcome.waitFailed stderr code →
      importKeepsError ho phase p (scriptError stderr code) = true →
      (prePostProcessTask o.parse ho phase w).1
        = HookResult.error (stderr ++ " (exit code: ".toList ++ fmtInt code ++ ")".toList)) := by
  refine ⟨?_, ?_, ?_⟩
  · intro e w1 hpre
    obtain ⟨d, hev, hq, _⟩ := prePostProcessTask_events o.parse o.pre Phase.pre (startWorld o task)
    rw [hpre] at hev
    simp only [startWorld, List.nil_append] at hev
    have hrun : processTask o task
        = { world := failTask o.finishedAt w1 ("PreProcessing failed: ".toList ++ e),
            panicked := false } := by
      unfold processTask beforeExecute
      rw [hpre]
    rw [hrun]
    refine ⟨rfl, rfl, rfl, rfl, ?_⟩
    intro cmd
    simp only [failTask, World.updateTask, hev, List.mem_append, List.mem_cons,
      List.mem_singleton, not_or]
    exact ⟨⟨by simp, not_execute_of_quiet hq⟩, by simp⟩
  · intro w w1 e w2 hb hx hpost
    have hrun : processTask o task
        = { world := (failTask o.finishedAt (w2.runScanners o.lib)
              ("PostProcessing failed: ".toList ++ e)).runScanners o.lib,
            panicked := false } := by
      unfold processTask
      rw [hb]
      simp only
      rw [hx]
      unfold afterExecute
      simp only
      rw [hpost]
    rw [hrun]
    obtain ⟨_, ⟨d1, hd1, hq1⟩, _⟩ := worldRunScanners_late o.lib w2
    obtain ⟨ht2, ⟨d2, hd2, hq2⟩, hset2⟩ := worldRunScanners_late o.lib
      (failTask o.finishedAt (w2.runScanners o.lib) ("PostProcessing failed: ".toList ++ e))
    refine ⟨rfl, sameButProgress_status ht2, sameButProgress_error ht2,
      hset2 (by simp [World.settled, failTask, World.updateTask]), ?_, ?_⟩
    · refine ⟨d1 ++ Event.update (failTask o.finishedAt (w2.runScanners o.lib)
        ("PostProcessing failed: ".toList ++ e)).task :: d2, ?_, ?_⟩
      · show (World.runScanners o.lib (failTask o.finishedAt (w2.runScanners o.lib)
          ("PostProcessing failed: ".toList ++ e))).events = _
        rw [hd2]
        show ((w2.runScanners o.lib).events ++ [Event.update _]) ++ d2 = _
        rw [hd1]
        simp only [List.append_assoc, List.singleton_append]
        rfl
      · intro x hx'
        rcases List.mem_append.mp hx' with hx' | hx'
        · obtain ⟨t, ht, _⟩ := hq1 x hx'
          exact ⟨t, ht⟩
        · rcases List.mem_cons.mp hx' with rfl | hx'
          · exact ⟨_, rfl⟩
          · obtain ⟨t, ht, _⟩ := hq2 x hx'
            exact ⟨t, ht⟩
    · intro hdone
      have hi1 : w1.idle := by
        have := callExecute_idle o task w hdone hb
        rw [hx] at this
        exact this
      have hpost' := hpost
      rw [worldRunScanners_idle o.lib w1 hi1,
        worldRunScanners_idle o.lib (markDone w1) hi1] at hpost'
      have hs := prePostProcessTask_scanners o.parse o.post Phase.post (markDone w1)
      rw [hpost'] at hs
      have hi2 : w2.idle := by
        intro sc hsc
        rw [show w2.scanners = (markDone w1).scanners from hs] at hsc
        exact hi1 sc hsc
      show (World.runScanners o.lib (failTask o.finishedAt (w2.runScanners o.lib)
          ("PostProcessing failed: ".toList ++ e))).events = _
      rw [worldRunScanners_idle o.lib w2 hi2,
        worldRunScanners_idle o.lib (failTask o.finishedAt w2 _) hi2]
      rfl
  · intro ho phase w p sc stderr code a as hhook herr hsc hraw hside hparse hs himp
    exact hook_script_error o.parse ho phase w p sc stderr code a as hhook herr hsc hraw
      hside hparse hs himp

theorem hook_error_fails_task_witness :
    (processTask failingScriptOracle scriptTask).world.task.status = Status.DONE_ERROR ∧
    (processTask failingScriptOracle scriptTask).world.task.error
      = "PreProcessing failed: boom (exit code: 3)".toList ∧
    (prePostProcessTask failingScriptOracle.parse failingScriptOracle.pre Phase.pre
        (startWorld failingScriptOracle scriptTask)).1
      = HookResult.error "boom (exit code: 3)".toList :=
  have h := hook_error_fails_task failingScriptOracle scriptTask
  have h1 := h.1 "boom (exit code: 3)".toList _ rfl
  ⟨h1.2.1, h1.2.2.1,
   h.2.2 failingScriptOracle.pre Phase.pre (startWorld failingScriptOracle scriptTask)
     (scriptHook "/bin/fail.sh".toList) { raw := "/bin/fail.sh".toList, resolved := [] }
     "boom".toList 3 "/bin/fail.sh".toList [] rfl rfl rfl (by decide) rfl rfl rfl rfl⟩

/-! ## Cancellation before the encoder is started (C6) -/

theorem splitAux_ne_nil (sep : Str) (k : Nat) (s acc : Str) : splitAux sep k s acc ≠ [] := by
  induction s generalizing k acc with
  | nil => cases k <;> simp [splitAux]
  | cons c s ih =>
    cases k with
    | zero =>
      simp only [splitAux]
      split
      · simp
      · exact ih _ _
    | succ k =>
      simp only [splitAux]
      exact ih _ _

/-- Under a context that is already done, `Execute` returns an error and leaves the
world as it is: no child is started and nothing is persisted. -/
theorem callExecute_canceled (o : Oracle) (w : World) (c : Str)
    (hc : o.cancel = some (CancelPoint.beforeExecute, c)) :
    ∃ e, callExecute o w = (some e, w) := by
  unfold callExecute Execute splitStr
  rw [hc]
  simp only [canceledAtEntry]
  rcases hs : splitAux "&&".toList 0 w.task.command.resolved [] with _ | ⟨cmd, rest⟩
  · exact absurd hs (splitAux_ne_nil _ _ _ _)
  · simp only [executeFrom]
    rcases o.parse (trimSpace cmd) with e | args
    · exact ⟨_, rfl⟩
    · simp only
      cases (o.child 0).pipeErr with
      | some e => exact ⟨_, rfl⟩
      | none =>
        have hstart : ∃ e, startError (if 0 < 0 then [] else o.ffmpegPath) true (o.child 0)
            = some e := by
          unfold startError
          by_cases hp : (if 0 < 0 then [] else o.ffmpegPath) = []
          · rw [if_pos hp]; exact ⟨_, rfl⟩
          · rw [if_neg hp]; exact ⟨_, rfl⟩
        obtain ⟨e, he⟩ := hstart
        simp only [he]
        exact ⟨_, rfl⟩

theorem not_spawn_of_quiet {s : Status} {d : List Event} {prog : Str} {args : List Str}
    (h : ∀ e ∈ d, quietEvent s e = true) : Event.spawn prog args ∉ d := by
  intro hm
  have := h _ hm
  simp [quietEvent] at this

/-- Before `Execute` is called no child process is started. -/
theorem beforeExecute_no_spawn (o : Oracle) (task : Task) (prog : Str) (args : List Str) :
    (∀ run, beforeExecute o task = Sum.inl run → Event.spawn prog args ∉ run.world.events) ∧
    (∀ w, beforeExecute o task = Sum.inr w → Event.spawn prog args ∉ w.events) := by
  obtain ⟨d, hev, hq, _⟩ := prePostProcessTask_events o.parse o.pre Phase.pre (startWorld o task)
  have hnot : Event.spawn prog args ∉ d := not_spawn_of_quiet hq
  unfold beforeExecute
  rcases hr : prePostProcessTask o.parse o.pre Phase.pre (startWorld o task) with ⟨res, w1⟩
  rw [hr] at hev
  simp only [startWorld, List.nil_append] at hev
  cases res with
  | panic =>
    refine ⟨?_, by simp⟩
    intro run hrun
    simp only [Sum.inl.injEq] at hrun
    subst hrun
    simp [hev, hnot]
  | error e =>
    refine ⟨?_, by simp⟩
    intro run hrun
    simp only [Sum.inl.injEq] at hrun
    subst hrun
    simp [failTask, World.updateTask, hev, hnot]
  | ok =>
    simp only
    cases o.mkdirErr with
    | some e =>
      refine ⟨?_, by simp⟩
      intro run hrun
      simp only [Sum.inl.injEq] at hrun
      subst hrun
      simp [failTask, World.updateTask, World.emit, resolveAndRun, hev, hnot]
    | none =>
      refine ⟨by simp, ?_⟩
      intro w hw
      simp only [Sum.inr.injEq] at hw
      subst hw
      simp [World.updateTask, World.emit, resolveAndRun, hev, hnot]

/-- C6, as stated, fails: the context is cancelled before `Execute` is entered, and
`processTask` still calls `ffmpeg.Execute`. -/
theorem cancel_before_execute_calls_supervisor :
    cancelEarlyOracle.cancel = some (CancelPoint.beforeExecute, userCancelCause) ∧
    Event.execute "-i \"/in/a.mp4\" -c:v copy \"/out/a.mkv\"".toList
      ∈ (processTask cancelEarlyOracle sampleTask).world.events :=
  ⟨rfl, by decide⟩

/-- C6 (amended): if the task's context is cancelled before `Execute` is entered (for
instance while the pre hook runs), the worker never starts an encoder process.  If the
pre hook returns an error or the output directory cannot be created, the task ends
`DONE_ERROR`; otherwise `processTask` does call `ffmpeg.Execute`, which returns an
error, and the task ends `DONE_CANCELED` with the cancellation cause as error. -/
theorem cancel_before_execute (o : Oracle) (task : Task) (c : Str)
    (hc : o.cancel = some (CancelPoint.beforeExecute, c)) :
    (∀ prog args, Event.spawn prog args ∉ (processTask o task).world.events) ∧
    (∀ run, beforeExecute o task = Sum.inl run →
      processTask o task = run ∧
      (run.panicked = false → run.world.task.status = Status.DONE_ERROR)) ∧
    (∀ w, beforeExecute o task = Sum.inr w →
      Event.execute w.task.command.resolved ∈ (processTask o task).world.events ∧
      (processTask o task).panicked = false ∧
      (processTask o task).world.task.status = Status.DONE_CANCELED ∧
      (processTask o task).world.task.error = c) := by
  have hright : ∀ w, beforeExecute o task = Sum.inr w →
      processTask o task
        = { world := cancelTask o.finishedAt (markDone w) c, panicked := false } := by
    intro w hb
    obtain ⟨e, hx⟩ := callExecute_canceled o w c hc
    unfold processTask
    rw [hb]
    simp only
    rw [hx, afterExecute_idle o (some e) w (idle_of_nil (beforeExecute_scanners o task w hb))]
    simp only [hc, causeAtCheck]
  refine ⟨?_, ?_, ?_⟩
  · intro prog args
    obtain ⟨hl, hr⟩ := beforeExecute_no_spawn o task prog args
    cases hb : beforeExecute o task with
    | inl run =>
      have : processTask o task = run := by unfold processTask; rw [hb]
      rw [this]
      exact hl run hb
    | inr w =>
      rw [hright w hb]
      have := hr w hb
      simp [cancelTask, World.updateTask, markDone, this]
  · intro run hb
    refine ⟨by unfold processTask; rw [hb], ?_⟩
    intro hp
    unfold beforeExecute at hb
    rcases hr : prePostProcessTask o.parse o.pre Phase.pre (startWorld o task) with ⟨res, w1⟩
    rw [hr] at hb
    cases res with
    | panic =>
      simp only [Sum.inl.injEq] at hb
      subst hb
      cases hp
    | error e =>
      simp only [Sum.inl.injEq] at hb
      subst hb
      rfl
    | ok =>
      simp only at hb
      cases hm : o.mkdirErr with
      | some e =>
        rw [hm] at hb
        simp only [Sum.inl.injEq] at hb
        subst hb
        rfl
      | none =>
        rw [hm] at hb
        cases hb
  · intro w hb
    rw [hright w hb]
    refine ⟨?_, rfl, rfl, rfl⟩
    obtain ⟨_, hr⟩ := beforeExecute_shape o task
    obtain ⟨_, dPre, t, dir, _, _, hwe⟩ := hr w hb
    simp [cancelTask, World.updateTask, markDone, hwe, preamble]

theorem cancel_before_execute_witness :
    Event.execute "-i \"/in/a.mp4\" -c:v copy \"/out/a.mkv\"".toList
      ∈ (processTask cancelEarlyOracle sampleTask).world.events ∧
    Event.spawn "/usr/bin/ffmpeg".toList
        ["-i".toList, "\"/in/a.mp4\"".toList, "-c:v".toList, "copy".toList,
         "\"/out/a.mkv\"".toList, "-progress".toList, "pipe:2".toList]
      ∉ (processTask cancelEarlyOracle sampleTask).world.events ∧
    (processTask cancelEarlyOracle sampleTask).world.task.status = Status.DONE_CANCELED ∧
    (processTask cancelEarlyOracle sampleTask).world.task.error
      = "task canceled by user".toList :=
  have h := cancel_before_execute cancelEarlyOracle sampleTask userCancelCause rfl
  have h3 := h.2.2 _ rfl
  ⟨h3.1, h.1 _ _, h3.2.2.1, h3.2.2.2⟩

/-! ## Text without `${` is left alone by `Replace` -/

theorem containsDB_cons (c : Char) (s : Str) :
    containsStr "$\x7b".toList (c :: s)
      = ((c == '$' && s.head? == some '{') || containsStr "$\x7b".toList s) := by
  show containsStr ['$', '{'] (c :: s) = _
  cases s with
  | nil =>
    simp [containsStr, List.isPrefixOf]
  | cons d s =>
    simp only [containsStr, List.isPrefixOf, List.head?, Bool.and_true]
    have h1 : ('$' == c) = (c == '$') := by
      by_cases h : c = '$' <;> simp [h, eq_comm]
    have h2 : ('{' == d) = (some d == some '{') := by
      by_cases h : d = '{' <;> simp [h, eq_comm]
    rw [h1, h2]
    rfl

theorem noDB_tail {c : Char} {s : Str} (h : containsStr "$\x7b".toList (c :: s) = false) :
    containsStr "$\x7b".toList s = false := by
  rw [containsDB_cons] at h
  simp only [Bool.or_eq_false_iff] at h
  exact h.2

theorem noDB_cons {c : Char} {s : Str} (hc : c ≠ '$')
    (h : containsStr "$\x7b".toList s = false) : containsStr "$\x7b".toList (c :: s) = false := by
  rw [containsDB_cons, h]
  simp [hc]

theorem noDB_append {a b : Str} (ha : containsStr "$\x7b".toList a = false)
    (hb : containsStr "$\x7b".toList b = false) (hj : b.head? ≠ some '{') :
    containsStr "$\x7b".toList (a ++ b) = false := by
  induction a with
  | nil => exact hb
  | cons c a ih =>
    have hta := noDB_tail ha
    rw [containsDB_cons] at ha
    simp only [Bool.or_eq_false_iff] at ha
    rw [List.cons_append, containsDB_cons, ih hta]
    simp only [Bool.or_false]
    cases a with
    | nil =>
      simp only [List.nil_append]
      cases hb' : b.head? with
      | none => simp
      | some d =>
        have : d ≠ '{' := by
          intro hd; apply hj; rw [hb', hd]
        simp [this]
    | cons d a => exact ha.1

theorem scan_noDB_append {m : Str → Option (Str × Nat)} (hm : DollarMatcher m) {a : Str}
    (ha : containsStr "$\x7b".toList a = false) (b : Str) (hj : b.head? ≠ some '{') :
    scan m 0 (a ++ b) = a ++ scan m 0 b := by
  induction a with
  | nil => rfl
  | cons c a ih =>
    have hnone : m (c :: (a ++ b)) = none := by
      cases hmc : m (c :: (a ++ b)) with
      | none => rfl
      | some rn =>
        obtain ⟨r, n⟩ := rn
        obtain ⟨t, ht⟩ := hm _ r n hmc
        exfalso
        rw [containsDB_cons] at ha
        simp only [Bool.or_eq_false_iff] at ha
        have hc : c = '$' := by injection ht
        have htl : a ++ b = '{' :: t := by injection ht
        cases a with
        | nil =>
          simp only [List.nil_append] at htl
          apply hj; rw [htl]; rfl
        | cons d a =>
          have hd : d = '{' := by injection htl
          have := ha.1
          simp [hc, hd] at this
    rw [List.cons_append]
    simp only [scan, hnone]
    rw [ih (noDB_tail ha)]
    rfl

theorem scan_noDB {m : Str → Option (Str × Nat)} (hm : DollarMatcher m) {a : Str}
    (ha : containsStr "$\x7b".toList a = false) : scan m 0 a = a := by
  have := scan_noDB_append hm ha [] (by simp)
  simpa [scan] using this

theorem literalMatcher_dollar (old new : Str) (h : "$\x7b".toList.isPrefixOf old = true) :
    DollarMatcher (literalMatcher old new) := by
  intro s r n hs
  unfold literalMatcher at hs
  split at hs
  · rename_i hp
    have h1 : "$\x7b".toList <+: old := List.isPrefixOf_iff_prefix.mp h
    have h2 : old <+: s := List.isPrefixOf_iff_prefix.mp hp
    obtain ⟨t, ht⟩ := h1.trans h2
    exact ⟨t, ht.symm⟩
  · cases hs

theorem metadataMatcher_dollar (get : Str → Option Str) :
    DollarMatcher (metadataMatcher get) := by
  intro s r n hs
  unfold metadataMatcher at hs
  split at hs
  · rename_i hp
    have h1 : "$\x7b".toList <+: "$\x7bMETADATA_".toList := ⟨"METADATA_".toList, rfl⟩
    have h2 : "$\x7bMETADATA_".toList <+: s := List.isPrefixOf_iff_prefix.mp hp
    obtain ⟨t, ht⟩ := h1.trans h2
    exact ⟨t, ht.symm⟩
  · cases hs

theorem replaceAll_noDB (s old new : Str) (h : "$\x7b".toList.isPrefixOf old = true)
    (hs : containsStr "$\x7b".toList s = false) : replaceAll s old new = s :=
  scan_noDB (literalMatcher_dollar old new h) hs

theorem foldl_replaceAll_noDB (tbl : List (Str × Str))
    (h : (tbl.map Prod.fst).all (fun p => "$\x7b".toList.isPrefixOf p) = true) (s : Str)
    (hs : containsStr "$\x7b".toList s = false) :
    tbl.foldl (fun s p => replaceAll s p.1 p.2) s = s := by
  induction tbl with
  | nil => rfl
  | cons p tbl ih =>
    simp only [List.map_cons, List.all_cons, Bool.and_eq_true] at h
    rw [List.foldl_cons, replaceAll_noDB s p.1 p.2 h.1 hs]
    exact ih h.2

/-- The metadata step of `Replace` leaves text without `${` as it is. -/
theorem metadataStep_noDB (env : ReplaceEnv) (metadata : Option Metadata) (s : Str)
    (hs : containsStr "$\x7b".toList s = false) :
    (match metadata with
      | none => s
      | some md =>
        match md.marshal with
        | none => s
        | some jsonStr => scan (metadataMatcher (env.gjsonGet jsonStr)) 0 s) = s := by
  cases metadata with
  | none => rfl
  | some md =>
    simp only
    cases md.marshal with
    | none => rfl
    | some j => exact scan_noDB (metadataMatcher_dollar _) hs

/-! ## `${INPUT_FILE}` and `${OUTPUT_FILE}` (C8) -/

theorem noDB_append_left {a b : Str} (ha : containsStr "$\x7b".toList a = false)
    (hb : containsStr "$\x7b".toList b = false) (hj : a.getLast? ≠ some '$') :
    containsStr "$\x7b".toList (a ++ b) = false := by
  induction a with
  | nil => exact hb
  | cons c a ih =>
    have hta := noDB_tail ha
    rw [containsDB_cons] at ha
    simp only [Bool.or_eq_false_iff] at ha
    cases a with
    | nil =>
      have hc : c ≠ '$' := by
        intro h; apply hj; rw [h]; rfl
      exact noDB_cons hc hb
    | cons d a =>
      have hj' : (d :: a).getLast? ≠ some '$' := by
        intro h; apply hj
        rw [List.getLast?_cons_cons]; exact h
      rw [List.cons_append, containsDB_cons, ih hta hj']
      simp only [Bool.or_false]
      exact ha.1

/-- The table of `Replace` after its first two entries. -/
theorem tokenTable_eq (env : ReplaceEnv) (inputFile outputFile source : Str) :
    ∃ rest, tokenTable env inputFile outputFile source
        = ("${INPUT_FILE}".toList, '"' :: inputFile ++ ['"'])
          :: ("${OUTPUT_FILE}".toList, '"' :: outputFile ++ ['"']) :: rest ∧
      (rest.map Prod.fst).all (fun p => "$\x7b".toList.isPrefixOf p) = true :=
  ⟨_, rfl, rfl⟩

/-- C8: for every input and output path without `${`, the template
`${INPUT_FILE} to ${OUTPUT_FILE}` resolves to the input path in double quotes, ` to `,
and the output path in double quotes. -/
theorem replace_quotes_input_and_output (env : ReplaceEnv)
    (inputFile outputFile source : Str) (metadata : Option Metadata)
    (hi : containsStr "$\x7b".toList inputFile = false)
    (ho : containsStr "$\x7b".toList outputFile = false) :
    Replace env "${INPUT_FILE} to ${OUTPUT_FILE}".toList inputFile outputFile source metadata
      = '"' :: inputFile ++ "\" to \"".toList ++ outputFile ++ ['"'] := by
  obtain ⟨rest, htbl, hrest⟩ := tokenTable_eq env inputFile outputFile source
  have h1 : replaceAll "${INPUT_FILE} to ${OUTPUT_FILE}".toList "${INPUT_FILE}".toList
      ('"' :: inputFile ++ ['"'])
      = ('"' :: inputFile) ++ ('"' :: " to ${OUTPUT_FILE}".toList) := by
    have : replaceAll "${INPUT_FILE} to ${OUTPUT_FILE}".toList "${INPUT_FILE}".toList
      ('"' :: inputFile ++ ['"'])
      = ('"' :: inputFile ++ ['"']) ++ " to ${OUTPUT_FILE}".toList := rfl
    rw [this]; simp
  have hq : containsStr "$\x7b".toList ('"' :: inputFile) = false := noDB_cons (by decide) hi
  have h2 : replaceAll (('"' :: inputFile) ++ ('"' :: " to ${OUTPUT_FILE}".toList))
      "${OUTPUT_FILE}".toList ('"' :: outputFile ++ ['"'])
      = '"' :: inputFile ++ "\" to \"".toList ++ outputFile ++ ['"'] := by
    unfold replaceAll
    rw [scan_noDB_append (literalMatcher_dollar "${OUTPUT_FILE}".toList _ rfl) hq _ (by simp)]
    have : scan (literalMatcher "${OUTPUT_FILE}".toList ('"' :: outputFile ++ ['"'])) 0
        ('"' :: " to ${OUTPUT_FILE}".toList)
        = "\" to ".toList ++ (('"' :: outputFile ++ ['"']) ++ []) := rfl
    rw [this]; simp
  have hfinal : containsStr "$\x7b".toList
      ('"' :: inputFile ++ "\" to \"".toList ++ outputFile ++ ['"']) = false := by
    have e : '"' :: inputFile ++ "\" to \"".toList ++ outputFile ++ ['"']
        = ('"' :: inputFile) ++ ("\" to \"".toList ++ (outputFile ++ ['"'])) := by simp
    rw [e]
    exact noDB_append hq
      (noDB_append_left (by decide) (noDB_append ho (by decide) (by simp)) (by decide))
      (by simp)
  unfold Replace
  simp only [htbl, List.foldl_cons, h1, h2]
  rw [foldl_replaceAll_noDB rest hrest _ hfinal]
  exact metadataStep_noDB env metadata _ hfinal

theorem replace_quotes_input_and_output_witness :
    containsStr "$\x7b".toList "/path/to/input file.mp4".toList = false ∧
    containsStr "$\x7b".toList "/path/to/output file.mp4".toList = false ∧
    Replace sampleEnv "${INPUT_FILE} to ${OUTPUT_FILE}".toList
        "/path/to/input file.mp4".toList "/path/to/output file.mp4".toList "test".toList none
      = "\"/path/to/input file.mp4\" to \"/path/to/output file.mp4\"".toList :=
  ⟨by decide, by decide,
   replace_quotes_input_and_output sampleEnv "/path/to/input file.mp4".toList
     "/path/to/output file.mp4".toList "test".toList none (by decide) (by decide)⟩

/-! ## Paths derived from a path without `${` -/

theorem containsStr_iff_occurs (sub s : Str) : containsStr sub s = true ↔ sub <:+: s := by
  induction s with
  | nil =>
    simp only [containsStr, List.isPrefixOf_iff_prefix, List.prefix_nil, List.infix_nil]
  | cons c s ih =>
    simp only [containsStr, Bool.or_eq_true, List.isPrefixOf_iff_prefix, ih,
      List.infix_cons_iff]

theorem noDB_of_part {t s : Str} (h : t <:+: s) (hs : containsStr "$\x7b".toList s = false) :
    containsStr "$\x7b".toList t = false := by
  cases ht : containsStr "$\x7b".toList t with
  | false => rfl
  | true =>
    have := (containsStr_iff_occurs _ _).mpr (((containsStr_iff_occurs _ _).mp ht).trans h)
    rw [hs] at this
    cases this

theorem lastElem_suffix (p : Str) : lastElem p <:+ p := by
  unfold lastElem
  rw [← List.reverse_prefix, List.reverse_reverse]
  exact List.takeWhile_prefix _

theorem uptoLastSep_initial (p : Str) : uptoLastSep p <+: p := by
  unfold uptoLastSep
  rw [← List.reverse_suffix, List.reverse_reverse]
  exact List.dropWhile_suffix _

theorem Base_noDB (f : Str) (h : containsStr "$\x7b".toList f = false) :
    containsStr "$\x7b".toList (Base f) = false := by
  unfold Base
  split
  · decide
  · simp only
    split
    · decide
    · have h1 : (f.reverse.dropWhile (fun c => c == '/')).reverse <+: f := by
        rw [← List.reverse_suffix, List.reverse_reverse]
        exact List.dropWhile_suffix _
      exact noDB_of_part ((lastElem_suffix _).isInfix.trans h1.isInfix) h

theorem Ext_suffix (p : Str) : Ext p <:+ p := by
  have key : ∀ e : Str,
      (if (e.takeWhile (fun c => c != '.')).length < e.length
        then '.' :: (e.takeWhile (fun c => c != '.')).reverse else []) <:+ e.reverse := by
    intro e
    split
    · rename_i hlt
      have hsplit := List.takeWhile_append_dropWhile (fun c => c != '.') e
      cases hd : List.dropWhile (fun c => c != '.') e with
      | nil =>
        rw [hd, List.append_nil] at hsplit
        rw [hsplit] at hlt
        exact absurd hlt (Nat.lt_irrefl _)
      | cons x xs =>
        have hx : x = '.' := by
          have := List.head_dropWhile_not (fun c => c != '.') e (by rw [hd]; simp)
          simp only [hd, List.head_cons] at this
          simpa using this
        subst hx
        rw [hd] at hsplit
        generalize List.takeWhile (fun c => c != '.') e = tw at hsplit
        refine ⟨xs.reverse, ?_⟩
        rw [← hsplit]
        simp
    · exact List.nil_suffix
  unfold Ext
  simp only
  have h := key (lastElem p).reverse
  rw [List.reverse_reverse] at h
  exact h.trans (lastElem_suffix p)

theorem trimSuffix_initial (s suffix : Str) : trimSuffix s suffix <+: s := by
  unfold trimSuffix
  split
  · exact List.take_prefix _ _
  · exact List.prefix_refl _

theorem backtrack_suffix (dotdot : Nat) (cut : Char) (o : Str) :
    backtrack dotdot cut o <:+ o := by
  induction o generalizing cut with
  | nil => exact List.suffix_refl _
  | cons c o ih =>
    unfold backtrack
    split
    · exact (ih c).trans (List.suffix_cons c o)
    · exact List.suffix_refl _

theorem backtrack_length (dotdot : Nat) (cut : Char) (o : Str) (h : dotdot ≤ o.length) :
    dotdot ≤ (backtrack dotdot cut o).length := by
  induction o generalizing cut with
  | nil => exact h
  | cons c o ih =>
    unfold backtrack
    split
    · rename_i hc
      simp only [Bool.and_eq_true, decide_eq_true_eq, List.length_cons] at hc
      exact ih c (by omega)
    · exact h

theorem noDB_of_final {t s : Str} (h : t <:+ s) (hs : containsStr "$\x7b".toList s = false) :
    containsStr "$\x7b".toList t = false :=
  noDB_of_part h.isInfix hs

theorem noDB_of_initial {t s : Str} (h : t <+: s) (hs : containsStr "$\x7b".toList s = false) :
    containsStr "$\x7b".toList t = false :=
  noDB_of_part h.isInfix hs

theorem getLast?_of_suffix {t s : Str} (h : t <:+ s) (ht : t ≠ []) :
    t.getLast? = s.getLast? := by
  obtain ⟨u, rfl⟩ := h
  rw [List.getLast?_append_of_ne_nil _ ht]

/-- The loop of `filepath.Clean` never joins a `$` and a `{`: if neither the unread
input nor the output so far contains `${`, neither does the final output. -/
theorem cleanLoop_noDB (rooted : Bool) (fuel : Nat) (rest out : Str) (dotdot : Nat)
    (hrest : containsStr "$\x7b".toList rest = false)
    (hout : containsStr "$\x7b".toList out.reverse = false)
    (hroot : rooted = true → out.getLast? = some '/' ∧ 1 ≤ dotdot) :
    containsStr "$\x7b".toList (cleanLoop rooted fuel rest out dotdot).reverse = false := by
  induction fuel generalizing rest out dotdot with
  | zero => exact hout
  | succ fuel ih =>
    unfold cleanLoop
    cases rest with
    | nil => exact hout
    | cons c r1 =>
      simp only
      have hr1 : containsStr "$\x7b".toList r1 = false := noDB_tail hrest
      have hr2 : containsStr "$\x7b".toList r1.tail = false :=
        noDB_of_final (List.tail_suffix r1) hr1
      split
      · exact ih r1 out dotdot hr1 hout hroot
      · split
        · exact ih r1 out dotdot hr1 hout hroot
        · split
          · -- the `..` element
            cases out with
            | nil =>
              simp only
              split
              · rename_i hnr
                have hrf : rooted = false := by simpa using hnr
                exact ih r1.tail ['.', '.'] 2 hr2 (by decide) (by intro h; rw [hrf] at h; cases h)
              · exact ih r1.tail [] dotdot hr2 hout hroot
            | cons last o =>
              simp only
              split
              · rename_i hlt
                have hsuf := backtrack_suffix dotdot last o
                have hlen : dotdot ≤ (backtrack dotdot last o).length :=
                  backtrack_length dotdot last o (by
                    simp only [List.length_cons] at hlt; omega)
                refine ih r1.tail _ dotdot hr2 ?_ ?_
                · have hp : (backtrack dotdot last o).reverse <+: (last :: o).reverse := by
                    rw [List.reverse_prefix]
                    exact hsuf.trans (List.suffix_cons last o)
                  exact noDB_of_initial hp hout
                · intro hr
                  obtain ⟨hl, hd⟩ := hroot hr
                  refine ⟨?_, hd⟩
                  have hne : backtrack dotdot last o ≠ [] := by
                    intro h0; rw [h0] at hlen; simp at hlen; omega
                  rw [getLast?_of_suffix (hsuf.trans (List.suffix_cons last o)) hne]
                  exact hl
              · split
                · rename_i hnr
                  have hrf : rooted = false := by simpa using hnr
                  refine ih r1.tail _ _ hr2 ?_ (by intro h; rw [hrf] at h; cases h)
                  have e : ('.' :: '.' :: '/' :: last :: o).reverse
                      = (last :: o).reverse ++ ['/', '.', '.'] := by simp
                  rw [e]
                  exact noDB_append hout (by decide) (by simp)
                · exact ih r1.tail _ dotdot hr2 hout hroot
          · -- a real path element
            try dsimp only
            have helem : containsStr "$\x7b".toList
                (List.takeWhile (fun c => c != '/') (c :: r1)) = false :=
              noDB_of_initial (List.takeWhile_prefix _) hrest
            have hdrop : containsStr "$\x7b".toList
                (List.dropWhile (fun c => c != '/') (c :: r1)) = false :=
              noDB_of_final (List.dropWhile_suffix _) hrest
            refine ih _ _ dotdot hdrop ?_ ?_
            · rw [List.reverse_append, List.reverse_reverse]
              split
              · have e : ('/' :: out).reverse = out.reverse ++ ['/'] := by simp
                rw [e]
                refine noDB_append_left (noDB_append hout (by decide) (by simp)) helem ?_
                simp
              · rename_i hsep
                cases hr : rooted with
                | true =>
                  obtain ⟨hl, _⟩ := hroot hr
                  have hlen : out.length = 1 := by
                    simpa [hr] using hsep
                  have ho : out = ['/'] := by
                    match out, hlen, hl with
                    | [x], _, hl =>
                      simp only [List.getLast?_singleton, Option.some.injEq] at hl
                      rw [hl]
                  rw [ho]
                  exact noDB_append_left (by decide) helem (by decide)
                | false =>
                  have hlen : out.length = 0 := by
                    simpa [hr] using hsep
                  have ho : out = [] := List.length_eq_zero.mp hlen
                  rw [ho]
                  exact helem
            · intro hr
              obtain ⟨hl, hd⟩ := hroot hr
              refine ⟨?_, hd⟩
              have hne : out ≠ [] := by
                intro h0; rw [h0] at hl; cases hl
              split
              · rw [List.getLast?_append_of_ne_nil _ (List.cons_ne_nil _ _),
                  ← getLast?_of_suffix (List.suffix_cons _ out) hne]
                exact hl
              · rw [List.getLast?_append_of_ne_nil _ hne]
                exact hl

theorem Clean_noDB (p : Str) (h : containsStr "$\x7b".toList p = false) :
    containsStr "$\x7b".toList (Clean p) = false := by
  have fin : ∀ out : Str, containsStr "$\x7b".toList out.reverse = false →
      containsStr "$\x7b".toList (if out = [] then ['.'] else out.reverse) = false := by
    intro out ho
    by_cases hn : out = []
    · rw [if_pos hn]; decide
    · rw [if_neg hn]; exact ho
  unfold Clean
  by_cases hp : p = []
  · rw [if_pos hp]; decide
  · rw [if_neg hp]
    simp only
    by_cases hr : p.head? = some '/'
    · rw [if_pos hr]
      exact fin _ (cleanLoop_noDB true _ _ ['/'] 1
        (noDB_of_final (List.tail_suffix p) h) (by decide) (fun _ => ⟨rfl, Nat.le_refl 1⟩))
    · rw [if_neg hr]
      exact fin _ (cleanLoop_noDB false _ _ [] 0 h (by decide) (by intro h; cases h))

theorem Dir_noDB (f : Str) (h : containsStr "$\x7b".toList f = false) :
    containsStr "$\x7b".toList (Dir f) = false :=
  Clean_noDB _ (noDB_of_initial (uptoLastSep_initial f) h)

theorem Ext_noDB (f : Str) (h : containsStr "$\x7b".toList f = false) :
    containsStr "$\x7b".toList (Ext f) = false :=
  noDB_of_final (Ext_suffix f) h

theorem trimSuffix_noDB (s suffix : Str) (h : containsStr "$\x7b".toList s = false) :
    containsStr "$\x7b".toList (trimSuffix s suffix) = false :=
  noDB_of_initial (trimSuffix_initial s suffix) h

/-! ## The components of the input file (C9) -/

theorem scan_value_space {m : Str → Option (Str × Nat)} (hm : DollarMatcher m) {a : Str}
    (ha : containsStr "$\x7b".toList a = false) (b : Str) :
    scan m 0 (a ++ ' ' :: b) = a ++ ' ' :: scan m 0 b := by
  rw [scan_noDB_append hm ha _ (by simp)]
  have hnone : m (' ' :: b) = none := by
    cases hmc : m (' ' :: b) with
    | none => rfl
    | some rn =>
      obtain ⟨r, n⟩ := rn
      obtain ⟨t, ht⟩ := hm _ r n hmc
      have : ' ' = '$' := by injection ht
      exact absurd this (by decide)
  simp only [scan, hnone]

/-- The first nine entries of the table of `Replace`, and the patterns of the rest. -/
theorem tokenTable_nine (env : ReplaceEnv) (inputFile outputFile source : Str) :
    ∃ rest, tokenTable env inputFile outputFile source
        = ("${INPUT_FILE}".toList, '"' :: inputFile ++ ['"'])
          :: ("${OUTPUT_FILE}".toList, '"' :: outputFile ++ ['"'])
          :: ("${INPUT_FILE_BASE}".toList, Base inputFile)
          :: ("${OUTPUT_FILE_BASE}".toList, Base inputFile)
          :: ("${INPUT_FILE_EXTENSION}".toList, Ext (Base inputFile))
          :: ("$\x7bOUTPUT_FILE_EXTENSION".toList, Ext (Base outputFile))
          :: ("${INPUT_FILE_BASENAME}".toList,
                trimSuffix (Base inputFile) (Ext (Base inputFile)))
          :: ("${OUTPUT_FILE_BASENAME}".toList,
                trimSuffix (Base outputFile) (Ext (Base outputFile)))
          :: ("${INPUT_FILE_DIR}".toList, Dir inputFile) :: rest ∧
      (rest.map Prod.fst).all (fun p => "$\x7b".toList.isPrefixOf p) = true :=
  ⟨_, rfl, rfl⟩

/-- C9: for every input path without `${`, the template
`${INPUT_FILE_BASE} ${INPUT_FILE_EXTENSION} ${INPUT_FILE_BASENAME} ${INPUT_FILE_DIR}`
resolves to the base name of the path, the extension of that base name, the base name
without that extension, and the directory of the path, separated by single blanks. -/
theorem replace_input_file_components (env : ReplaceEnv)
    (inputFile outputFile source : Str) (metadata : Option Metadata)
    (hi : containsStr "$\x7b".toList inputFile = false) :
    Replace env
      "${INPUT_FILE_BASE} ${INPUT_FILE_EXTENSION} ${INPUT_FILE_BASENAME} ${INPUT_FILE_DIR}".toList
      inputFile outputFile source metadata
      = Base inputFile ++ " ".toList ++ Ext (Base inputFile) ++ " ".toList
        ++ trimSuffix (Base inputFile) (Ext (Base inputFile)) ++ " ".toList
        ++ Dir inputFile := by
  obtain ⟨rest, htbl, hrest⟩ := tokenTable_nine env inputFile outputFile source
  have hB : containsStr "$\x7b".toList (Base inputFile) = false := Base_noDB _ hi
  have hE : containsStr "$\x7b".toList (Ext (Base inputFile)) = false := Ext_noDB _ hB
  have hN : containsStr "$\x7b".toList (trimSuffix (Base inputFile) (Ext (Base inputFile)))
      = false := trimSuffix_noDB _ _ hB
  have hD : containsStr "$\x7b".toList (Dir inputFile) = false := Dir_noDB _ hi
  generalize Base inputFile = B at *
  generalize Ext B = E at *
  generalize trimSuffix B E = N at *
  generalize Dir inputFile = D at *
  generalize ('"' :: inputFile ++ ['"']) = v1 at htbl
  generalize ('"' :: outputFile ++ ['"']) = v2 at htbl
  generalize Ext (Base outputFile) = v6 at htbl
  generalize trimSuffix (Base outputFile) v6 = v8 at htbl
  have s1 : replaceAll
      "${INPUT_FILE_BASE} ${INPUT_FILE_EXTENSION} ${INPUT_FILE_BASENAME} ${INPUT_FILE_DIR}".toList
      "${INPUT_FILE}".toList v1
      = "${INPUT_FILE_BASE} ${INPUT_FILE_EXTENSION} ${INPUT_FILE_BASENAME} ${INPUT_FILE_DIR}".toList :=
    rfl
  have s2 : replaceAll
      "${INPUT_FILE_BASE} ${INPUT_FILE_EXTENSION} ${INPUT_FILE_BASENAME} ${INPUT_FILE_DIR}".toList
      "${OUTPUT_FILE}".toList v2
      = "${INPUT_FILE_BASE} ${INPUT_FILE_EXTENSION} ${INPUT_FILE_BASENAME} ${INPUT_FILE_DIR}".toList :=
    rfl
  have s3 : replaceAll
      "${INPUT_FILE_BASE} ${INPUT_FILE_EXTENSION} ${INPUT_FILE_BASENAME} ${INPUT_FILE_DIR}".toList
      "${INPUT_FILE_BASE}".toList B
      = B ++ ' ' :: "${INPUT_FILE_EXTENSION} ${INPUT_FILE_BASENAME} ${INPUT_FILE_DIR}".toList :=
    rfl
  have s4 : replaceAll
      (B ++ ' ' :: "${INPUT_FILE_EXTENSION} ${INPUT_FILE_BASENAME} ${INPUT_FILE_DIR}".toList)
      "${OUTPUT_FILE_BASE}".toList B
      = B ++ ' ' :: "${INPUT_FILE_EXTENSION} ${INPUT_FILE_BASENAME} ${INPUT_FILE_DIR}".toList := by
    unfold replaceAll
    rw [scan_value_space (literalMatcher_dollar "${OUTPUT_FILE_BASE}".toList _ rfl) hB]
    rfl
  have s5 : replaceAll
      (B ++ ' ' :: "${INPUT_FILE_EXTENSION} ${INPUT_FILE_BASENAME} ${INPUT_FILE_DIR}".toList)
      "${INPUT_FILE_EXTENSION}".toList E
      = B ++ ' ' :: (E ++ ' ' :: "${INPUT_FILE_BASENAME} ${INPUT_FILE_DIR}".toList) := by
    unfold replaceAll
    rw [scan_value_space (literalMatcher_dollar "${INPUT_FILE_EXTENSION}".toList _ rfl) hB]
    rfl
  have s6 : replaceAll
      (B ++ ' ' :: (E ++ ' ' :: "${INPUT_FILE_BASENAME} ${INPUT_FILE_DIR}".toList))
      "$\x7bOUTPUT_FILE_EXTENSION".toList v6
      = B ++ ' ' :: (E ++ ' ' :: "${INPUT_FILE_BASENAME} ${INPUT_FILE_DIR}".toList) := by
    unfold replaceAll
    rw [scan_value_space (literalMatcher_dollar "$\x7bOUTPUT_FILE_EXTENSION".toList _ rfl) hB,
      scan_value_space (literalMatcher_dollar "$\x7bOUTPUT_FILE_EXTENSION".toList _ rfl) hE]
    rfl
  have s7 : replaceAll
      (B ++ ' ' :: (E ++ ' ' :: "${INPUT_FILE_BASENAME} ${INPUT_FILE_DIR}".toList))
      "${INPUT_FILE_BASENAME}".toList N
      = B ++ ' ' :: (E ++ ' ' :: (N ++ ' ' :: "${INPUT_FILE_DIR}".toList)) := by
    unfold replaceAll
    rw [scan_value_space (literalMatcher_dollar "${INPUT_FILE_BASENAME}".toList _ rfl) hB,
      scan_value_space (literalMatcher_dollar "${INPUT_FILE_BASENAME}".toList _ rfl) hE]
    rfl
  have s8 : replaceAll
      (B ++ ' ' :: (E ++ ' ' :: (N ++ ' ' :: "${INPUT_FILE_DIR}".toList)))
      "${OUTPUT_FILE_BASENAME}".toList v8
      = B ++ ' ' :: (E ++ ' ' :: (N ++ ' ' :: "${INPUT_FILE_DIR}".toList)) := by
    unfold replaceAll
    rw [scan_value_space (literalMatcher_dollar "${OUTPUT_FILE_BASENAME}".toList _ rfl) hB,
      scan_value_space (literalMatcher_dollar "${OUTPUT_FILE_BASENAME}".toList _ rfl) hE,
      scan_value_space (literalMatcher_dollar "${OUTPUT_FILE_BASENAME}".toList _ rfl) hN]
    rfl
  have s9 : replaceAll
      (B ++ ' ' :: (E ++ ' ' :: (N ++ ' ' :: "${INPUT_FILE_DIR}".toList)))
      "${INPUT_FILE_DIR}".toList D
      = B ++ ' ' :: (E ++ ' ' :: (N ++ ' ' :: D)) := by
    unfold replaceAll
    rw [scan_value_space (literalMatcher_dollar "${INPUT_FILE_DIR}".toList _ rfl) hB,
      scan_value_space (literalMatcher_dollar "${INPUT_FILE_DIR}".toList _ rfl) hE,
      scan_value_space (literalMatcher_dollar "${INPUT_FILE_DIR}".toList _ rfl) hN]
    have : scan (literalMatcher "${INPUT_FILE_DIR}".toList D) 0 "${INPUT_FILE_DIR}".toList
        = D ++ [] := rfl
    rw [this, List.append_nil]
  have hfinal : containsStr "$\x7b".toList (B ++ ' ' :: (E ++ ' ' :: (N ++ ' ' :: D))) = false :=
    noDB_append hB (noDB_cons (by decide)
      (noDB_append hE (noDB_cons (by decide)
        (noDB_append hN (noDB_cons (by decide) hD) (by simp))) (by simp))) (by simp)
  unfold Replace
  simp only [htbl, List.foldl_cons, s1, s2, s3, s4, s5, s6, s7, s8, s9]
  rw [foldl_replaceAll_noDB rest hrest _ hfinal, metadataStep_noDB env metadata _ hfinal]
  simp

theorem replace_input_file_components_witness :
    containsStr "$\x7b".toList "/path/to/input.mp4".toList = false ∧
    Replace sampleEnv
      "${INPUT_FILE_BASE} ${INPUT_FILE_EXTENSION} ${INPUT_FILE_BASENAME} ${INPUT_FILE_DIR}".toList
      "/path/to/input.mp4".toList "/path/to/output.mp4".toList "test".toList none
      = "input.mp4 .mp4 input /path/to".toList :=
  ⟨by decide,
   replace_input_file_components sampleEnv "/path/to/input.mp4".toList
     "/path/to/output.mp4".toList "test".toList none (by decide)⟩

/-! ## The unterminated `${OUTPUT_FILE_EXTENSION` literal and the output variants (C7, C10) -/

/-- C7, at the failing input: `OUTPUT_FILE_EXTENSIONS` is not a documented token name and
does not start with `METADATA_`, yet `${OUTPUT_FILE_EXTENSIONS}` is rewritten: the
literal of line 26 lacks its closing brace, so its first 23 characters are replaced by
the extension of the output file and `S}` is left behind. -/
theorem unknown_token_is_rewritten :
    Replace sampleEnv "${OUTPUT_FILE_EXTENSIONS}".toList "/in/a.mp4".toList
        "/out/b.mkv".toList "api".toList none
      = ".mkvS\x7d".toList ∧
    Replace sampleEnv "${OUTPUT_FILE_EXTENSIONS}".toList "/in/a.mp4".toList
        "/out/b.mkv".toList "api".toList none
      ≠ "${OUTPUT_FILE_EXTENSIONS}".toList := by
  decide

/-- C10, at the failing input: with input `/in/a.mp4` and output `/out/b.mkv` the four
output tokens resolve to `a.mp4 .mkv} b /in`: `${OUTPUT_FILE_BASE}` and
`${OUTPUT_FILE_DIR}` are computed from the input file (lines 24 and 30), and the closing
brace of `${OUTPUT_FILE_EXTENSION}` is left in the text (line 26); only
`${OUTPUT_FILE_BASENAME}` is as documented.  The documented result would be
`b.mkv .mkv b /out`. -/
theorem output_tokens_use_input_file :
    Replace sampleEnv
      "${OUTPUT_FILE_BASE} ${OUTPUT_FILE_EXTENSION} ${OUTPUT_FILE_BASENAME} ${OUTPUT_FILE_DIR}".toList
      "/in/a.mp4".toList "/out/b.mkv".toList "test".toList none
      = "a.mp4 .mkv\x7d b /in".toList ∧
    Base "/out/b.mkv".toList ++ " ".toList ++ Ext (Base "/out/b.mkv".toList) ++ " ".toList
      ++ trimSuffix (Base "/out/b.mkv".toList) (Ext (Base "/out/b.mkv".toList)) ++ " ".toList
      ++ Dir "/out/b.mkv".toList
      = "b.mkv .mkv b /out".toList := by
  decide

/-! ## Unknown tokens that the code does leave unchanged -/

theorem tokenTable_patterns (env : ReplaceEnv) (inputFile outputFile source : Str) :
    (tokenTable env inputFile outputFile source).map Prod.fst
      = documentedNames.map patternOf :=
  rfl

theorem scan_token {m : Str → Option (Str × Nat)} (hm : DollarMatcher m) (rest : Str)
    (hnone : m ('$' :: '{' :: rest) = none)
    (hrest : containsStr "$\x7b".toList rest = false) :
    scan m 0 ('$' :: '{' :: rest) = '$' :: '{' :: rest := by
  have h2 : m ('{' :: rest) = none := by
    cases hmc : m ('{' :: rest) with
    | none => rfl
    | some rn =>
      obtain ⟨r, n⟩ := rn
      obtain ⟨t, ht⟩ := hm _ r n hmc
      have : '{' = '$' := by injection ht
      exact absurd this (by decide)
  simp only [scan, hnone, h2]
  rw [scan_noDB hm hrest]

/-- A text `p ++ u` that is a prefix of `name ++ "}"` forces `p` to be a prefix of
`name`, unless `p` contains a closing brace. -/
theorem prefix_of_closed {p name u : Str} (hp : '}' ∉ p)
    (h : p ++ u = name ++ ['}']) : p <+: name := by
  rcases List.append_eq_append_iff.mp h with ⟨a, hname, _⟩ | ⟨c, hpe, hu⟩
  · exact ⟨a, hname.symm⟩
  · cases c with
    | nil => exact ⟨[], by simpa using hpe⟩
    | cons x c =>
      exfalso
      have hx : ['}'] = x :: (c ++ u) := by simpa using hu
      have hx1 : x = '}' := by
        have := List.cons.inj hx
        exact this.1.symm
      have hc : c = [] ∧ u = [] := by
        have := (List.cons.inj hx).2
        exact List.append_eq_nil.mp this.symm
      apply hp
      rw [hpe, hx1]
      simp

theorem prefix_closed_eq {x name u : Str} (hname : '}' ∉ name)
    (h : (x ++ ['}']) ++ u = name ++ ['}']) : x = name := by
  rw [List.append_assoc] at h
  rcases List.append_eq_append_iff.mp h with ⟨a, hn, ha⟩ | ⟨c, hx, hc⟩
  · -- name = x ++ a, '}' :: u = a ++ ['}']
    cases a with
    | nil => simpa using hn.symm
    | cons y a =>
      exfalso
      have hy : y = '}' := by
        have : '}' :: u = y :: (a ++ ['}']) := by simpa using ha
        exact (List.cons.inj this).1.symm
      apply hname
      rw [hn, hy]
      simp
  · -- x = name ++ c, ['}'] = c ++ '}' :: u
    cases c with
    | nil => simpa using hx
    | cons y c =>
      exfalso
      have h2 := (List.cons.inj hc).2
      have := congrArg List.length h2
      simp at this
      omega

/-- No literal of the table occurs at the head of `${name}` for an undocumented name
without closing brace that does not start with `OUTPUT_FILE_EXTENSION`. -/
theorem pattern_not_prefix (x name : Str) (hx : x ∈ documentedNames)
    (hbrace : '}' ∉ name) (hdoc : name ∉ documentedNames)
    (hext : "OUTPUT_FILE_EXTENSION".toList.isPrefixOf name = false) :
    (patternOf x).isPrefixOf ('$' :: '{' :: name ++ ['}']) = false := by
  cases hp : (patternOf x).isPrefixOf ('$' :: '{' :: name ++ ['}']) with
  | false => rfl
  | true =>
    exfalso
    obtain ⟨u, hu⟩ := List.isPrefixOf_iff_prefix.mp hp
    unfold patternOf at hu
    split at hu
    · rename_i hxe
      subst hxe
      have h1 : "OUTPUT_FILE_EXTENSION".toList ++ u = name ++ ['}'] := by
        simpa using hu
      have := prefix_of_closed (by decide) h1
      rw [← List.isPrefixOf_iff_prefix, hext] at this
      cases this
    · have h1 : (x ++ ['}']) ++ u = name ++ ['}'] := by
        simpa using hu
      have := prefix_closed_eq hbrace h1
      exact hdoc (this ▸ hx)

theorem foldl_replaceAll_id (tbl : List (Str × Str)) (s : Str)
    (h : ∀ e ∈ tbl, replaceAll s e.1 e.2 = s) :
    tbl.foldl (fun s p => replaceAll s p.1 p.2) s = s := by
  induction tbl with
  | nil => rfl
  | cons e tbl ih =>
    rw [List.foldl_cons, h e (List.mem_cons_self _ _)]
    exact ih (fun e' he' => h e' (List.mem_cons_of_mem _ he'))

theorem patternOf_dollar (x : Str) : "$\x7b".toList.isPrefixOf (patternOf x) = true := by
  unfold patternOf
  split <;> simp [List.isPrefixOf]

/-- X2: for every name without `}` and without `${` that is not a documented token name
and starts neither with `METADATA_` nor with `OUTPUT_FILE_EXTENSION`, `Replace` leaves the
token `${name}` unchanged, whatever the files, the source, the metadata and the
surroundings are. -/
theorem replace_keeps_unknown_token (env : ReplaceEnv) (name inputFile outputFile source : Str)
    (metadata : Option Metadata)
    (hbrace : '}' ∉ name) (hdb : containsStr "$\x7b".toList name = false)
    (hdoc : name ∉ documentedNames)
    (hmeta : "METADATA_".toList.isPrefixOf name = false)
    (hext : "OUTPUT_FILE_EXTENSION".toList.isPrefixOf name = false) :
    Replace env ("$\x7b".toList ++ name ++ "\x7d".toList) inputFile outputFile source metadata
      = "$\x7b".toList ++ name ++ "\x7d".toList := by
  have hs : "$\x7b".toList ++ name ++ "\x7d".toList = '$' :: '{' :: name ++ ['}'] := rfl
  have hrest : containsStr "$\x7b".toList (name ++ ['}']) = false :=
    noDB_append hdb (by decide) (by simp)
  have hfold : (tokenTable env inputFile outputFile source).foldl
      (fun s p => replaceAll s p.1 p.2) ('$' :: '{' :: name ++ ['}'])
      = '$' :: '{' :: name ++ ['}'] := by
    apply foldl_replaceAll_id
    intro e he
    have hmem : e.1 ∈ (tokenTable env inputFile outputFile source).map Prod.fst :=
      List.mem_map_of_mem _ he
    rw [tokenTable_patterns] at hmem
    obtain ⟨x, hx, hxe⟩ := List.mem_map.mp hmem
    have hnp := pattern_not_prefix x name hx hbrace hdoc hext
    rw [hxe] at hnp
    unfold replaceAll
    have hm : DollarMatcher (literalMatcher e.1 e.2) :=
      literalMatcher_dollar _ _ (by rw [← hxe]; exact patternOf_dollar x)
    have h0 : literalMatcher e.1 e.2 ('$' :: '{' :: (name ++ ['}'])) = none := by
      unfold literalMatcher
      have : e.1.isPrefixOf ('$' :: '{' :: (name ++ ['}'])) = false := by
        simpa using hnp
      rw [this]
      rfl
    have := scan_token hm (name ++ ['}']) h0 hrest
    simpa using this
  unfold Replace
  rw [hs]
  simp only [hfold]
  cases metadata with
  | none => rfl
  | some md =>
    simp only
    cases md.marshal with
    | none => rfl
    | some j =>
      simp only
      have hm := metadataMatcher_dollar (env.gjsonGet j)
      have h0 : metadataMatcher (env.gjsonGet j) ('$' :: '{' :: (name ++ ['}'])) = none := by
        unfold metadataMatcher
        split
        · rename_i hp
          exfalso
          obtain ⟨u, hu⟩ := List.isPrefixOf_iff_prefix.mp hp
          have h1 : "METADATA_".toList ++ u = name ++ ['}'] := by
            have : '$' :: '{' :: ("METADATA_".toList ++ u) = '$' :: '{' :: (name ++ ['}']) := hu
            simpa using this
          have := prefix_of_closed (by decide) h1
          rw [← List.isPrefixOf_iff_prefix, hmeta] at this
          cases this
        · rfl
      have := scan_token hm (name ++ ['}']) h0 hrest
      simpa using this

theorem replace_keeps_unknown_token_witness :
    Replace sampleEnv "${FOO}".toList "/in/a.mp4".toList "/out/b.mkv".toList "api".toList
        (some { marshal := some "{}".toList })
      = "${FOO}".toList :=
  replace_keeps_unknown_token sampleEnv "FOO".toList "/in/a.mp4".toList "/out/b.mkv".toList
    "api".toList (some { marshal := some "{}".toList })
    (by decide) (by decide) (by decide) (by decide) (by decide)

/-! ## What the output tokens resolve to -/

theorem scan_cons_other {m : Str → Option (Str × Nat)} (hm : DollarMatcher m) (c : Char)
    (hc : c ≠ '$') (s : Str) : scan m 0 (c :: s) = c :: scan m 0 s := by
  have hnone : m (c :: s) = none := by
    cases hmc : m (c :: s) with
    | none => rfl
    | some rn =>
      obtain ⟨r, n⟩ := rn
      obtain ⟨t, ht⟩ := hm _ r n hmc
      have : c = '$' := by injection ht
      exact absurd this hc
  simp only [scan, hnone]

theorem scan_value_brace {m : Str → Option (Str × Nat)} (hm : DollarMatcher m) {a : Str}
    (ha : containsStr "$\x7b".toList a = false) (b : Str) :
    scan m 0 (a ++ '}' :: ' ' :: b) = a ++ '}' :: ' ' :: scan m 0 b := by
  rw [scan_noDB_append hm ha _ (by simp), scan_cons_other hm '}' (by decide),
    scan_cons_other hm ' ' (by decide)]

/-- The first ten entries of the table of `Replace`, and the patterns of the rest. -/
theorem tokenTable_ten (env : ReplaceEnv) (inputFile outputFile source : Str) :
    ∃ rest, tokenTable env inputFile outputFile source
        = ("${INPUT_FILE}".toList, '"' :: inputFile ++ ['"'])
          :: ("${OUTPUT_FILE}".toList, '"' :: outputFile ++ ['"'])
          :: ("${INPUT_FILE_BASE}".toList, Base inputFile)
          :: ("${OUTPUT_FILE_BASE}".toList, Base inputFile)
          :: ("${INPUT_FILE_EXTENSION}".toList, Ext (Base inputFile))
          :: ("$\x7bOUTPUT_FILE_EXTENSION".toList, Ext (Base outputFile))
          :: ("${INPUT_FILE_BASENAME}".toList,
                trimSuffix (Base inputFile) (Ext (Base inputFile)))
          :: ("${OUTPUT_FILE_BASENAME}".toList,
                trimSuffix (Base outputFile) (Ext (Base outputFile)))
          :: ("${INPUT_FILE_DIR}".toList, Dir inputFile)
          :: ("${OUTPUT_FILE_DIR}".toList, Dir inputFile) :: rest ∧
      (rest.map Prod.fst).all (fun p => "$\x7b".toList.isPrefixOf p) = true :=
  ⟨_, rfl, rfl⟩

/-- X3: for every input and output path without `${`, the template
`${OUTPUT_FILE_BASE} ${OUTPUT_FILE_EXTENSION} ${OUTPUT_FILE_BASENAME} ${OUTPUT_FILE_DIR}`
resolves to the base name of the input file, the extension of the output base name
followed by a stray `}`, the output base name without its extension, and the directory
of the input file. -/
theorem replace_output_file_components (env : ReplaceEnv)
    (inputFile outputFile source : Str) (metadata : Option Metadata)
    (hi : containsStr "$\x7b".toList inputFile = false)
    (ho : containsStr "$\x7b".toList outputFile = false) :
    Replace env
      "${OUTPUT_FILE_BASE} ${OUTPUT_FILE_EXTENSION} ${OUTPUT_FILE_BASENAME} ${OUTPUT_FILE_DIR}".toList
      inputFile outputFile source metadata
      = Base inputFile ++ " ".toList ++ Ext (Base outputFile) ++ "\x7d ".toList
        ++ trimSuffix (Base outputFile) (Ext (Base outputFile)) ++ " ".toList
        ++ Dir inputFile := by
  obtain ⟨rest, htbl, hrest⟩ := tokenTable_ten env inputFile outputFile source
  have hB : containsStr "$\x7b".toList (Base inputFile) = false := Base_noDB _ hi
  have hBo : containsStr "$\x7b".toList (Base outputFile) = false := Base_noDB _ ho
  have hE : containsStr "$\x7b".toList (Ext (Base outputFile)) = false := Ext_noDB _ hBo
  have hN : containsStr "$\x7b".toList (trimSuffix (Base outputFile) (Ext (Base outputFile)))
      = false := trimSuffix_noDB _ _ hBo
  have hD : containsStr "$\x7b".toList (Dir inputFile) = false := Dir_noDB _ hi
  generalize ('"' :: inputFile ++ ['"']) = v1 at htbl
  generalize ('"' :: outputFile ++ ['"']) = v2 at htbl
  generalize Ext (Base inputFile) = v5 at htbl
  generalize trimSuffix (Base inputFile) v5 = v7 at htbl
  generalize Base inputFile = B at *
  generalize Ext (Base outputFile) = E at *
  generalize trimSuffix (Base outputFile) E = N at *
  generalize Dir inputFile = D at *
  have s1 : replaceAll
      "${OUTPUT_FILE_BASE} ${OUTPUT_FILE_EXTENSION} ${OUTPUT_FILE_BASENAME} ${OUTPUT_FILE_DIR}".toList
      "${INPUT_FILE}".toList v1
      = "${OUTPUT_FILE_BASE} ${OUTPUT_FILE_EXTENSION} ${OUTPUT_FILE_BASENAME} ${OUTPUT_FILE_DIR}".toList :=
    rfl
  have s2 : replaceAll
      "${OUTPUT_FILE_BASE} ${OUTPUT_FILE_EXTENSION} ${OUTPUT_FILE_BASENAME} ${OUTPUT_FILE_DIR}".toList
      "${OUTPUT_FILE}".toList v2
      = "${OUTPUT_FILE_BASE} ${OUTPUT_FILE_EXTENSION} ${OUTPUT_FILE_BASENAME} ${OUTPUT_FILE_DIR}".toList :=
    rfl
  have s3 : replaceAll
      "${OUTPUT_FILE_BASE} ${OUTPUT_FILE_EXTENSION} ${OUTPUT_FILE_BASENAME} ${OUTPUT_FILE_DIR}".toList
      "${INPUT_FILE_BASE}".toList B
      = "${OUTPUT_FILE_BASE} ${OUTPUT_FILE_EXTENSION} ${OUTPUT_FILE_BASENAME} ${OUTPUT_FILE_DIR}".toList :=
    rfl
  have s4 : replaceAll
      "${OUTPUT_FILE_BASE} ${OUTPUT_FILE_EXTENSION} ${OUTPUT_FILE_BASENAME} ${OUTPUT_FILE_DIR}".toList
      "${OUTPUT_FILE_BASE}".toList B
      = B ++ ' ' :: "${OUTPUT_FILE_EXTENSION} ${OUTPUT_FILE_BASENAME} ${OUTPUT_FILE_DIR}".toList :=
    rfl
  have s5 : replaceAll
      (B ++ ' ' :: "${OUTPUT_FILE_EXTENSION} ${OUTPUT_FILE_BASENAME} ${OUTPUT_FILE_DIR}".toList)
      "${INPUT_FILE_EXTENSION}".toList v5
      = B ++ ' ' :: "${OUTPUT_FILE_EXTENSION} ${OUTPUT_FILE_BASENAME} ${OUTPUT_FILE_DIR}".toList := by
    unfold replaceAll
    rw [scan_value_space (literalMatcher_dollar "${INPUT_FILE_EXTENSION}".toList _ rfl) hB]
    rfl
  have s6 : replaceAll
      (B ++ ' ' :: "${OUTPUT_FILE_EXTENSION} ${OUTPUT_FILE_BASENAME} ${OUTPUT_FILE_DIR}".toList)
      "$\x7bOUTPUT_FILE_EXTENSION".toList E
      = B ++ ' ' :: (E ++ '}' :: ' ' :: "${OUTPUT_FILE_BASENAME} ${OUTPUT_FILE_DIR}".toList) := by
    unfold replaceAll
    rw [scan_value_space (literalMatcher_dollar "$\x7bOUTPUT_FILE_EXTENSION".toList _ rfl) hB]
    rfl
  have s7 : replaceAll
      (B ++ ' ' :: (E ++ '}' :: ' ' :: "${OUTPUT_FILE_BASENAME} ${OUTPUT_FILE_DIR}".toList))
      "${INPUT_FILE_BASENAME}".toList v7
      = B ++ ' ' :: (E ++ '}' :: ' ' :: "${OUTPUT_FILE_BASENAME} ${OUTPUT_FILE_DIR}".toList) := by
    unfold replaceAll
    rw [scan_value_space (literalMatcher_dollar "${INPUT_FILE_BASENAME}".toList _ rfl) hB,
      scan_value_brace (literalMatcher_dollar "${INPUT_FILE_BASENAME}".toList _ rfl) hE]
    rfl
  have s8 : replaceAll
      (B ++ ' ' :: (E ++ '}' :: ' ' :: "${OUTPUT_FILE_BASENAME} ${OUTPUT_FILE_DIR}".toList))
      "${OUTPUT_FILE_BASENAME}".toList N
      = B ++ ' ' :: (E ++ '}' :: ' ' :: (N ++ ' ' :: "${OUTPUT_FILE_DIR}".toList)) := by
    unfold replaceAll
    rw [scan_value_space (literalMatcher_dollar "${OUTPUT_FILE_BASENAME}".toList _ rfl) hB,
      scan_value_brace (literalMatcher_dollar "${OUTPUT_FILE_BASENAME}".toList _ rfl) hE]
    rfl
  have s9 : replaceAll
      (B ++ ' ' :: (E ++ '}' :: ' ' :: (N ++ ' ' :: "${OUTPUT_FILE_DIR}".toList)))
      "${INPUT_FILE_DIR}".toList D
      = B ++ ' ' :: (E ++ '}' :: ' ' :: (N ++ ' ' :: "${OUTPUT_FILE_DIR}".toList)) := by
    unfold replaceAll
    rw [scan_value_space (literalMatcher_dollar "${INPUT_FILE_DIR}".toList _ rfl) hB,
      scan_value_brace (literalMatcher_dollar "${INPUT_FILE_DIR}".toList _ rfl) hE,
      scan_value_space (literalMatcher_dollar "${INPUT_FILE_DIR}".toList _ rfl) hN]
    rfl
  have s10 : replaceAll
      (B ++ ' ' :: (E ++ '}' :: ' ' :: (N ++ ' ' :: "${OUTPUT_FILE_DIR}".toList)))
      "${OUTPUT_FILE_DIR}".toList D
      = B ++ ' ' :: (E ++ '}' :: ' ' :: (N ++ ' ' :: D)) := by
    unfold replaceAll
    rw [scan_value_space (literalMatcher_dollar "${OUTPUT_FILE_DIR}".toList _ rfl) hB,
      scan_value_brace (literalMatcher_dollar "${OUTPUT_FILE_DIR}".toList _ rfl) hE,
      scan_value_space (literalMatcher_dollar "${OUTPUT_FILE_DIR}".toList _ rfl) hN]
    have : scan (literalMatcher "${OUTPUT_FILE_DIR}".toList D) 0 "${OUTPUT_FILE_DIR}".toList
        = D ++ [] := rfl
    rw [this, List.append_nil]
  have hfinal : containsStr "$\x7b".toList
      (B ++ ' ' :: (E ++ '}' :: ' ' :: (N ++ ' ' :: D))) = false :=
    noDB_append hB (noDB_cons (by decide)
      (noDB_append hE (noDB_cons (by decide) (noDB_cons (by decide)
        (noDB_append hN (noDB_cons (by decide) hD) (by simp)))) (by simp))) (by simp)
  unfold Replace
  simp only [htbl, List.foldl_cons, s1, s2, s3, s4, s5, s6, s7, s8, s9, s10]
  rw [foldl_replaceAll_noDB rest hrest _ hfinal, metadataStep_noDB env metadata _ hfinal]
  simp

theorem replace_output_file_components_witness :
    containsStr "$\x7b".toList "/in/a.mp4".toList = false ∧
    containsStr "$\x7b".toList "/out/b.mkv".toList = false ∧
    Replace sampleEnv
      "${OUTPUT_FILE_BASE} ${OUTPUT_FILE_EXTENSION} ${OUTPUT_FILE_BASENAME} ${OUTPUT_FILE_DIR}".toList
      "/in/a.mp4".toList "/out/b.mkv".toList "test".toList none
      = "a.mp4 .mkv\x7d b /in".toList :=
  ⟨by decide, by decide,
   replace_output_file_components sampleEnv "/in/a.mp4".toList "/out/b.mkv".toList
     "test".toList none (by decide) (by decide)⟩

/-! ## Metadata tokens (C11, C12) -/

theorem scan_skip_all (m : Str → Option (Str × Nat)) (k : Nat) (s : Str)
    (h : s.length ≤ k) : scan m k s = [] := by
  induction s generalizing k with
  | nil => cases k <;> rfl
  | cons c s ih =>
    cases k with
    | zero => simp at h
    | succ k =>
      simp only [scan]
      exact ih k (by simpa using h)

theorem takeWhile_closing (p rest : Str) (hp : '}' ∉ p) :
    (p ++ '}' :: rest).takeWhile (fun c => c != '}') = p ∧
    (p ++ '}' :: rest).dropWhile (fun c => c != '}') = '}' :: rest := by
  induction p with
  | nil => simp [List.takeWhile, List.dropWhile]
  | cons c p ih =>
    have hc : c ≠ '}' := by
      intro h; apply hp; rw [h]; simp
    have hp' : '}' ∉ p := fun h => hp (List.mem_cons_of_mem _ h)
    obtain ⟨h1, h2⟩ := ih hp'
    have hb : (c != '}') = true := by simp [hc]
    rw [List.cons_append, List.takeWhile_cons, List.dropWhile_cons, hb, h1, h2]
    exact ⟨rfl, rfl⟩

/-- The METADATA expression matches the token `${METADATA_p}` for a non-empty path
without `}`, with the whole token as the match and `p` as its submatch. -/
theorem metadataMatcher_token (get : Str → Option Str) (p rest : Str) (hne : p ≠ [])
    (hp : '}' ∉ p) :
    metadataMatcher get ("$\x7bMETADATA_".toList ++ p ++ '}' :: rest)
      = some ((get p).getD [], 11 + p.length + 1) := by
  obtain ⟨h1, h2⟩ := takeWhile_closing p rest hp
  unfold metadataMatcher
  have hpre : "$\x7bMETADATA_".toList.isPrefixOf ("$\x7bMETADATA_".toList ++ p ++ '}' :: rest)
      = true := by
    rw [List.isPrefixOf_iff_prefix, List.append_assoc]
    exact List.prefix_append _ _
  have hdrop : ("$\x7bMETADATA_".toList ++ p ++ '}' :: rest).drop 11 = p ++ '}' :: rest := by
    rw [List.append_assoc]
    rfl
  rw [if_pos hpre]
  simp only [hdrop, h1, h2]
  simp [hne]

theorem documentedNames_no_metadata (p : Str) :
    "METADATA_".toList ++ p ∉ documentedNames := by
  intro h
  have hall : documentedNames.all (fun x => !("METADATA_".toList.isPrefixOf x)) = true := by
    decide
  have := List.all_eq_true.mp hall _ h
  have hp : "METADATA_".toList.isPrefixOf ("METADATA_".toList ++ p) = true := by
    rw [List.isPrefixOf_iff_prefix]
    exact List.prefix_append _ _
  rw [hp] at this
  cases this

/-- The literal passes of `Replace` leave `${name}` after token-free text unchanged, for
an undocumented name without `}` and `${` that does not start with
`OUTPUT_FILE_EXTENSION`. -/
theorem foldl_keeps_token (env : ReplaceEnv) (pre name inputFile outputFile source : Str)
    (hpre : containsStr "$\x7b".toList pre = false)
    (hbrace : '}' ∉ name) (hdb : containsStr "$\x7b".toList name = false)
    (hdoc : name ∉ documentedNames)
    (hext : "OUTPUT_FILE_EXTENSION".toList.isPrefixOf name = false) :
    (tokenTable env inputFile outputFile source).foldl
        (fun s p => replaceAll s p.1 p.2) (pre ++ ('$' :: '{' :: (name ++ ['}'])))
      = pre ++ ('$' :: '{' :: (name ++ ['}'])) := by
  have hrest : containsStr "$\x7b".toList (name ++ ['}']) = false :=
    noDB_append hdb (by decide) (by simp)
  apply foldl_replaceAll_id
  intro e he
  have hmem : e.1 ∈ (tokenTable env inputFile outputFile source).map Prod.fst :=
    List.mem_map_of_mem _ he
  rw [tokenTable_patterns] at hmem
  obtain ⟨x, hx, hxe⟩ := List.mem_map.mp hmem
  have hnp := pattern_not_prefix x name hx hbrace hdoc hext
  rw [hxe] at hnp
  unfold replaceAll
  have hm : DollarMatcher (literalMatcher e.1 e.2) :=
    literalMatcher_dollar _ _ (by rw [← hxe]; exact patternOf_dollar x)
  have h0 : literalMatcher e.1 e.2 ('$' :: '{' :: (name ++ ['}'])) = none := by
    unfold literalMatcher
    have : e.1.isPrefixOf ('$' :: '{' :: (name ++ ['}'])) = false := by
      simpa using hnp
    rw [this]
    rfl
  rw [scan_noDB_append hm hpre _ (by simp), scan_token hm (name ++ ['}']) h0 hrest]

/-- The METADATA step on `${METADATA_p}` after token-free text. -/
theorem scan_metadata_token (get : Str → Option Str) (pre p : Str)
    (hpre : containsStr "$\x7b".toList pre = false) (hne : p ≠ []) (hp : '}' ∉ p) :
    scan (metadataMatcher get) 0 (pre ++ ('$' :: '{' :: (("METADATA_".toList ++ p) ++ ['}'])))
      = pre ++ (get p).getD [] := by
  have hm := metadataMatcher_dollar get
  have htok := metadataMatcher_token get p [] hne hp
  have hshape : "$\x7bMETADATA_".toList ++ p ++ ['}']
      = '$' :: '{' :: (("METADATA_".toList ++ p) ++ ['}']) := by
    simp
  rw [hshape] at htok
  rw [scan_noDB_append hm hpre _ (by simp)]
  simp only [scan, htok]
  rw [scan_skip_all]
  · simp
  · simp
    omega

theorem metadata_template_shape (pre p : Str) :
    pre ++ "$\x7bMETADATA_".toList ++ p ++ "\x7d".toList
      = pre ++ ('$' :: '{' :: (("METADATA_".toList ++ p) ++ ['}'])) := by
  simp

theorem metadata_name_facts (p : Str) (hbrace : '}' ∉ p)
    (hdb : containsStr "$\x7b".toList p = false) :
    '}' ∉ "METADATA_".toList ++ p ∧
    containsStr "$\x7b".toList ("METADATA_".toList ++ p) = false ∧
    "OUTPUT_FILE_EXTENSION".toList.isPrefixOf ("METADATA_".toList ++ p) = false := by
  refine ⟨?_, ?_, ?_⟩
  · intro h
    rcases List.mem_append.mp h with h | h
    · revert h; decide
    · exact hbrace h
  · exact noDB_append_left (by decide) hdb (by decide)
  · rfl

/-- C11, counterexample: the key `x${SOURCE` exists in the metadata and contains no `}`,
yet `${METADATA_x${SOURCE}` resolves to `${METADATA_xapi`: the `${SOURCE}` pass runs
before the METADATA expression and consumes the closing brace.  And a text before the
token is resolved like any other text: `${SOURCE}: ${METADATA_color}` gives
`api: red`. -/
theorem metadata_token_meets_other_passes :
    '}' ∉ "x$\x7bSOURCE".toList ∧
    tokenKeyEnv.gjsonGet tokenKeyMetadataText "x$\x7bSOURCE".toList = some "v".toList ∧
    Replace tokenKeyEnv ("$\x7bMETADATA_".toList ++ "x$\x7bSOURCE".toList ++ "\x7d".toList)
        [] [] "api".toList (some tokenKeyMetadata)
      = "$\x7bMETADATA_xapi".toList ∧
    Replace metadataEnv ("${SOURCE}: ".toList ++ "$\x7bMETADATA_".toList ++ "color".toList
        ++ "\x7d".toList) [] [] "api".toList (some sampleMetadata)
      = "api: red".toList := by
  decide

/-- C11 (amended): for every metadata that is not nil and marshals to JSON, every text
`pre` without `${` and every non-empty path `p` without `}` and `${` at which `gjson`
finds a value, `Replace (pre ++ "${METADATA_" ++ p ++ "}")` is `pre` followed by the
string form of that value. -/
theorem replace_metadata_path (env : ReplaceEnv) (pre p inputFile outputFile source : Str)
    (md : Metadata) (json v : Str)
    (hpre : containsStr "$\x7b".toList pre = false)
    (hne : p ≠ []) (hbrace : '}' ∉ p) (hdb : containsStr "$\x7b".toList p = false)
    (hjson : md.marshal = some json) (hval : env.gjsonGet json p = some v) :
    Replace env (pre ++ "$\x7bMETADATA_".toList ++ p ++ "\x7d".toList) inputFile outputFile
        source (some md)
      = pre ++ v := by
  obtain ⟨h1, h2, h3⟩ := metadata_name_facts p hbrace hdb
  unfold Replace
  rw [metadata_template_shape]
  simp only [foldl_keeps_token env pre _ inputFile outputFile source hpre h1 h2
    (documentedNames_no_metadata p) h3, hjson]
  rw [scan_metadata_token _ pre p hpre hne hbrace, hval]
  rfl

theorem replace_metadata_path_witness :
    Replace metadataEnv "Color: ${METADATA_color}".toList [] [] [] (some sampleMetadata)
        = "Color: red".toList ∧
    Replace metadataEnv "Age: ${METADATA_user.age}".toList [] [] [] (some sampleMetadata)
        = "Age: 30".toList ∧
    Replace metadataEnv "Track: ${METADATA_tracks.1}".toList [] [] [] (some sampleMetadata)
        = "Track: track2".toList :=
  ⟨replace_metadata_path metadataEnv "Color: ".toList "color".toList [] [] [] sampleMetadata
      sampleMetadataText "red".toList (by decide) (by decide) (by decide) (by decide) rfl
      (by decide),
   replace_metadata_path metadataEnv "Age: ".toList "user.age".toList [] [] [] sampleMetadata
      sampleMetadataText "30".toList (by decide) (by decide) (by decide) (by decide) rfl
      (by decide),
   replace_metadata_path metadataEnv "Track: ".toList "tracks.1".toList [] [] []
      sampleMetadata sampleMetadataText "track2".toList (by decide) (by decide) (by decide)
      (by decide) rfl (by decide)⟩

/-- C12, counterexample: without metadata the token of a missing path is returned
unchanged, not replaced by the empty string. -/
theorem missing_path_without_metadata :
    Replace sampleEnv "${METADATA_missing}".toList [] [] [] none
        = "${METADATA_missing}".toList ∧
    Replace sampleEnv "${METADATA_missing}".toList [] [] [] none ≠ [] := by
  decide

/-- C12: for every non-empty path `p` without `}` and `${`: with a metadata that is not
nil and marshals to JSON in which `gjson` finds no value at `p`, `Replace` turns
`${METADATA_p}` into the empty string; with nil metadata, or one that does not marshal,
`Replace` returns the token unchanged. -/
theorem replace_missing_metadata_path (env : ReplaceEnv)
    (p inputFile outputFile source : Str)
    (hne : p ≠ []) (hbrace : '}' ∉ p) (hdb : containsStr "$\x7b".toList p = false) :
    (∀ (md : Metadata) (json : Str), md.marshal = some json → env.gjsonGet json p = none →
      Replace env ("$\x7bMETADATA_".toList ++ p ++ "\x7d".toList) inputFile outputFile source
        (some md) = []) ∧
    Replace env ("$\x7bMETADATA_".toList ++ p ++ "\x7d".toList) inputFile outputFile source none
      = "$\x7bMETADATA_".toList ++ p ++ "\x7d".toList ∧
    (∀ md : Metadata, md.marshal = none →
      Replace env ("$\x7bMETADATA_".toList ++ p ++ "\x7d".toList) inputFile outputFile source
        (some md) = "$\x7bMETADATA_".toList ++ p ++ "\x7d".toList) := by
  obtain ⟨h1, h2, h3⟩ := metadata_name_facts p hbrace hdb
  have hshape := metadata_template_shape [] p
  simp only [List.nil_append] at hshape
  have hfold := foldl_keeps_token env [] _ inputFile outputFile source rfl h1 h2
    (documentedNames_no_metadata p) h3
  simp only [List.nil_append] at hfold
  refine ⟨?_, ?_, ?_⟩
  · intro md json hjson hval
    unfold Replace
    rw [hshape]
    simp only [hfold, hjson]
    have := scan_metadata_token (env.gjsonGet json) [] p rfl hne hbrace
    simp only [List.nil_append] at this
    rw [this, hval]
    rfl
  · unfold Replace
    rw [hshape]
    simp only [hfold]
  · intro md hjson
    unfold Replace
    rw [hshape]
    simp only [hfold, hjson]

theorem replace_missing_metadata_path_witness :
    Replace metadataEnv "${METADATA_missing}".toList [] [] [] (some sampleMetadata) = [] :=
  (replace_missing_metadata_path metadataEnv "missing".toList [] [] [] (by decide) (by decide)
    (by decide)).1 sampleMetadata sampleMetadataText rfl (by decide)

/-! ## Resolving twice (C13) and inserted text (C14) -/

theorem scan_no_match (m : Str → Option (Str × Nat)) (s : Str) (h : hasMatch m s = false) :
    scan m 0 s = s := by
  induction s with
  | nil => rfl
  | cons c s ih =>
    simp only [hasMatch, Bool.or_eq_false_iff] at h
    have hnone : m (c :: s) = none := by
      cases hm : m (c :: s) with
      | none => rfl
      | some x => rw [hm] at h; simp at h
    simp only [scan, hnone]
    rw [ih h.2]

theorem hasMatch_literal (old new : Str) (s : Str) (h : containsStr old s = false) :
    hasMatch (literalMatcher old new) s = false := by
  induction s with
  | nil => rfl
  | cons c s ih =>
    simp only [containsStr, Bool.or_eq_false_iff] at h
    simp only [hasMatch, literalMatcher, h.1, ih h.2]
    rfl

theorem metadataMatcher_isSome (get : Str → Option Str) (s : Str) :
    (metadataMatcher get s).isSome = (metadataMatcher (fun _ => none) s).isSome := by
  unfold metadataMatcher
  split
  · simp only
    split <;> rfl
  · rfl

theorem hasMatch_metadata (get : Str → Option Str) (s : Str) :
    hasMatch (metadataMatcher get) s = hasMatch (metadataMatcher (fun _ => none)) s := by
  induction s with
  | nil => rfl
  | cons c s ih => simp only [hasMatch, ih, metadataMatcher_isSome get (c :: s)]

/-- Text without anything to rewrite is returned by `Replace` as it is. -/
theorem replace_fixed (env : ReplaceEnv) (y inputFile outputFile source : Str)
    (metadata : Option Metadata) (h : hasToken y = false) :
    Replace env y inputFile outputFile source metadata = y := by
  unfold hasToken at h
  simp only [Bool.or_eq_false_iff] at h
  obtain ⟨hlit, hmeta⟩ := h
  have hfold : (tokenTable env inputFile outputFile source).foldl
      (fun s p => replaceAll s p.1 p.2) y = y := by
    apply foldl_replaceAll_id
    intro e he
    have hmem : e.1 ∈ (tokenTable env inputFile outputFile source).map Prod.fst :=
      List.mem_map_of_mem _ he
    rw [tokenTable_patterns] at hmem
    have hno : containsStr e.1 y = false := by
      cases hc : containsStr e.1 y with
      | false => rfl
      | true =>
        have : (documentedNames.map patternOf).any (fun pat => containsStr pat y) = true :=
          List.any_eq_true.mpr ⟨e.1, hmem, hc⟩
        rw [hlit] at this
        cases this
    exact scan_no_match _ _ (hasMatch_literal e.1 e.2 y hno)
  unfold Replace
  simp only [hfold]
  cases metadata with
  | none => rfl
  | some md =>
    simp only
    cases md.marshal with
    | none => rfl
    | some j =>
      simp only
      exact scan_no_match _ _ (by rw [hasMatch_metadata]; exact hmeta)

/-- C13, counterexample: no substitution value contains `${`, yet resolving the template
`${DATE_${SOURCE}}` with source `YEAR` gives `${DATE_YEAR}`, and resolving that again
gives the year: the token is assembled from template text and the inserted source after
the `${DATE_YEAR}` pass is over. -/
theorem replace_twice_differs :
    (tokenTable sampleEnv [] [] "YEAR".toList).all
        (fun e => !containsStr "$\x7b".toList e.2) = true ∧
    Replace sampleEnv "$\x7bDATE_$\x7bSOURCE\x7d\x7d".toList [] [] "YEAR".toList none
      = "${DATE_YEAR}".toList ∧
    Replace sampleEnv
        (Replace sampleEnv "$\x7bDATE_$\x7bSOURCE\x7d\x7d".toList [] [] "YEAR".toList none)
        [] [] "YEAR".toList none
      = "2026".toList := by
  decide

/-- C13: with the surroundings and all arguments held fixed, for every template whose
resolved text contains nothing that `Replace` rewrites (none of the literals of its table
and no match of the METADATA expression), resolving the resolved text again gives the
same text. -/
theorem replace_idempotent_on_resolved (env : ReplaceEnv)
    (x inputFile outputFile source : Str) (metadata : Option Metadata)
    (h : hasToken (Replace env x inputFile outputFile source metadata) = false) :
    Replace env (Replace env x inputFile outputFile source metadata) inputFile outputFile
        source metadata
      = Replace env x inputFile outputFile source metadata :=
  replace_fixed env _ inputFile outputFile source metadata h

theorem replace_idempotent_on_resolved_witness :
    Replace metadataEnv
        (Replace metadataEnv "-i ${INPUT_FILE} ${METADATA_color} ${UUID}".toList
          "/in/a.mp4".toList "/out/b.mkv".toList "api".toList (some sampleMetadata))
        "/in/a.mp4".toList "/out/b.mkv".toList "api".toList (some sampleMetadata)
      = Replace metadataEnv "-i ${INPUT_FILE} ${METADATA_color} ${UUID}".toList
          "/in/a.mp4".toList "/out/b.mkv".toList "api".toList (some sampleMetadata) :=
  replace_idempotent_on_resolved metadataEnv
    "-i ${INPUT_FILE} ${METADATA_color} ${UUID}".toList "/in/a.mp4".toList
    "/out/b.mkv".toList "api".toList (some sampleMetadata) (by decide)

/-- The first three entries of the table of `Replace`, and the patterns of the rest. -/
theorem tokenTable_three (env : ReplaceEnv) (inputFile outputFile source : Str) :
    ∃ rest, tokenTable env inputFile outputFile source
        = ("${INPUT_FILE}".toList, '"' :: inputFile ++ ['"'])
          :: ("${OUTPUT_FILE}".toList, '"' :: outputFile ++ ['"'])
          :: ("${INPUT_FILE_BASE}".toList, Base inputFile) :: rest ∧
      (rest.map Prod.fst).all (fun p => "$\x7b".toList.isPrefixOf p) = true :=
  ⟨_, rfl, rfl⟩

/-- C14, counterexample: the base name of the input file is `${SOURCE}`; the text inserted
for `${INPUT_FILE_BASE}` is scanned by the later `${SOURCE}` pass, and the result is the
source, not the base name. -/
theorem inserted_base_is_scanned :
    Base "/x/${SOURCE}".toList = "${SOURCE}".toList ∧
    Replace sampleEnv "${INPUT_FILE_BASE}".toList "/x/${SOURCE}".toList
        "/out/b.mkv".toList "api".toList none
      = "api".toList ∧
    Replace sampleEnv "${INPUT_FILE_BASE}".toList "/x/${SOURCE}".toList
        "/out/b.mkv".toList "api".toList none
      ≠ Base "/x/${SOURCE}".toList := by
  decide

/-- C14: for every input file whose base name contains no `${`, and every output file,
source and metadata, `Replace "${INPUT_FILE_BASE}"` is the base name of the input file
verbatim. -/
theorem replace_input_file_base (env : ReplaceEnv) (inputFile outputFile source : Str)
    (metadata : Option Metadata)
    (hB : containsStr "$\x7b".toList (Base inputFile) = false) :
    Replace env "${INPUT_FILE_BASE}".toList inputFile outputFile source metadata
      = Base inputFile := by
  obtain ⟨rest, htbl, hrest⟩ := tokenTable_three env inputFile outputFile source
  generalize Base inputFile = B at *
  generalize ('"' :: inputFile ++ ['"']) = v1 at htbl
  generalize ('"' :: outputFile ++ ['"']) = v2 at htbl
  have s1 : replaceAll "${INPUT_FILE_BASE}".toList "${INPUT_FILE}".toList v1
      = "${INPUT_FILE_BASE}".toList := rfl
  have s2 : replaceAll "${INPUT_FILE_BASE}".toList "${OUTPUT_FILE}".toList v2
      = "${INPUT_FILE_BASE}".toList := rfl
  have s3 : replaceAll "${INPUT_FILE_BASE}".toList "${INPUT_FILE_BASE}".toList B = B := by
    have : replaceAll "${INPUT_FILE_BASE}".toList "${INPUT_FILE_BASE}".toList B = B ++ [] :=
      rfl
    rw [this, List.append_nil]
  unfold Replace
  rw [htbl]
  simp only [List.foldl_cons, s1, s2, s3]
  rw [foldl_replaceAll_noDB rest hrest _ hB, metadataStep_noDB env metadata _ hB]

theorem replace_input_file_base_witness :
    Replace sampleEnv "${INPUT_FILE_BASE}".toList "/my ${SOURCE}/in put.mp4".toList
        "/out/b.mkv".toList "api".toList none
      = Base "/my ${SOURCE}/in put.mp4".toList :=
  replace_input_file_base sampleEnv "/my ${SOURCE}/in put.mp4".toList "/out/b.mkv".toList
    "api".toList none (by decide)

/-- One `strings.ReplaceAll` pass does not scan the text it inserts: replacing a literal
in itself gives the new text, also when the new text contains the literal. -/
theorem replaceAll_self (c : Char) (old new : Str) :
    replaceAll (c :: old) (c :: old) new = new := by
  have hp : (c :: old).isPrefixOf (c :: old) = true := by
    rw [List.isPrefixOf_iff_prefix]
  unfold replaceAll
  simp only [scan, literalMatcher, hp, if_true]
  rw [scan_skip_all _ _ _ (by simp)]
  simp

/-! ## ANSI color escapes in log payloads (C15) -/

theorem scan_no_esc (k : Nat) (s : Str) (h : everyEscStartsEscape s = true) :
    '\x1b' ∉ scan ansiMatcher k s := by
  induction s generalizing k with
  | nil => cases k <;> simp [scan]
  | cons c s ih =>
    simp only [everyEscStartsEscape, Bool.and_eq_true, Bool.or_eq_true] at h
    cases k with
    | succ k =>
      simp only [scan]
      exact ih k h.2
    | zero =>
      cases hm : ansiMatcher (c :: s) with
      | some rn =>
        obtain ⟨r, n⟩ := rn
        have hr : r = [] := by
          unfold ansiMatcher at hm
          split at hm
          · split at hm
            · split at hm
              · injection hm with hm
                injection hm with hr _
                exact hr.symm
              · cases hm
            · cases hm
          · cases hm
        simp only [scan, hm, hr, List.nil_append]
        exact ih (n - 1) h.2
      | none =>
        simp only [scan, hm]
        have hc : c ≠ '\x1b' := by
          rcases h.1 with hc | hc
          · simpa using hc
          · rw [hm] at hc
            cases hc
        intro hmem
        rcases List.mem_cons.mp hmem with heq | hmem
        · exact hc heq.symm
        · exact ih 0 h.2 hmem

theorem hasAnsi_esc (s : Str) (h : hasAnsi s = true) : '\x1b' ∈ s := by
  unfold hasAnsi at h
  induction s with
  | nil => cases h
  | cons c s ih =>
    simp only [hasMatch, Bool.or_eq_true] at h
    rcases h with h | h
    · have hc : c = '\x1b' := by
        unfold ansiMatcher at h
        split at h
        · split at h
          · rename_i hcd
            injection (by assumption : c :: s = _ :: _ :: _) with h1 _
            rw [h1]
            exact hcd.1
          · cases h
        · cases h
      rw [hc]
      exact List.mem_cons_self _ _
    · exact List.mem_cons_of_mem _ (ih h)

/-- C15, counterexample: in the payload ESC `[` ESC `[0m0m` the only match of the
expression is the inner ESC `[0m`; removing it joins the text around it into ESC `[0m`,
which the single pass never sees, so the broadcast text contains a color escape. -/
theorem stripped_payload_has_escape :
    logCallback true "\x1b[\x1b[0m0m".toList = some ("log:created".toList, "\x1b[0m".toList) ∧
    hasAnsi "\x1b[0m".toList = true := by
  decide

/-- C15: for every log payload in which every ESC character begins a color escape, the
text broadcast as `log:created` contains no ESC character, and so no color escape. -/
theorem broadcast_has_no_escape (p : Str) (h : everyEscStartsEscape p = true) :
    logCallback true p = some ("log:created".toList, stripAnsi p) ∧
    '\x1b' ∉ stripAnsi p ∧ hasAnsi (stripAnsi p) = false := by
  have hesc : '\x1b' ∉ stripAnsi p := scan_no_esc 0 p h
  refine ⟨rfl, hesc, ?_⟩
  cases ha : hasAnsi (stripAnsi p) with
  | false => rfl
  | true => exact absurd (hasAnsi_esc _ ha) hesc

theorem broadcast_has_no_escape_witness :
    logCallback true "\x1b[1;31merror\x1b[0m: no such file".toList
        = some ("log:created".toList, stripAnsi "\x1b[1;31merror\x1b[0m: no such file".toList) ∧
    '\x1b' ∉ stripAnsi "\x1b[1;31merror\x1b[0m: no such file".toList ∧
    hasAnsi (stripAnsi "\x1b[1;31merror\x1b[0m: no such file".toList) = false :=
  broadcast_has_no_escape "\x1b[1;31merror\x1b[0m: no such file".toList (by decide)

/-- The sample payload stripped. -/
theorem stripAnsi_sample :
    stripAnsi "\x1b[1;31merror\x1b[0m: no such file".toList = "error: no such file".toList := by
  decide

/-! ## Progress and status of snapshots (C16) -/

theorem sidecarStep_snapshots (o : HookOracle) (phase : Phase) (p : Hook) (w : World) :
    ∃ d, (sidecarStep o phase p w).2.2.events = w.events ++ d ∧
      ∀ e ∈ d, progressEvent w.task.progress e = true := by
  unfold sidecarStep
  cases phase <;> (repeat' split) <;>
    simp [World.updateTask, World.emit, Task.setHook, progressEvent]

theorem scriptStep_snapshots (parse : Str → Except Str (List Str)) (o : HookOracle)
    (phase : Phase) (p : Hook) (w : World) :
    ∃ d, (scriptStep parse o phase p w).2.2.events = w.events ++ d ∧
      ∀ e ∈ d, progressEvent w.task.progress e = true := by
  unfold scriptStep
  cases p.scriptPath with
  | none => simp
  | some sc =>
    simp only
    split
    · generalize Replace o.envScript sc.raw (hookFiles phase w.task).1
        (hookFiles phase w.task).2 w.task.source w.task.metadata = resolved
      rcases parse resolved with e | _ | ⟨a, as⟩
      · cases phase <;> simp [World.updateTask, Task.setHook, progressEvent]
      · cases phase <;> simp [World.updateTask, Task.setHook, progressEvent]
      · cases o.script <;> cases phase <;>
          simp [World.updateTask, World.emit, Task.setHook, progressEvent]
    · simp

/-- Every snapshot the post hook writes has the progress the task had when the hook was
called. -/
theorem postHook_snapshots (parse : Str → Except Str (List Str)) (o : HookOracle)
    (w : World) :
    ∃ d, (prePostProcessTask parse o Phase.post w).2.events = w.events ++ d ∧
      ∀ e ∈ d, progressEvent w.task.progress e = true := by
  unfold prePostProcessTask
  simp only [World.emit]
  split
  · exact ⟨[Event.hookCall Phase.post], rfl, by simp [progressEvent]⟩
  · rename_i p hp
    split
    · exact ⟨[Event.hookCall Phase.post], rfl, by simp [progressEvent]⟩
    · generalize hw0 : World.updateTask
        { task := { (Task.setHook w.task Phase.post { p with startedAt := o.startedAt }) with
            status := phaseStatus Phase.post },
          events := w.events ++ [Event.hookCall Phase.post],
          scanners := w.scanners } = w0
      have hp0 : w0.task.progress = w.task.progress := by subst hw0; rfl
      have he0 : w0.events = w.events ++ [Event.hookCall Phase.post, Event.update w0.task] := by
        subst hw0; simp [World.updateTask]
      have hq0 : ∀ e ∈ [Event.hookCall Phase.post, Event.update w0.task],
          progressEvent w.task.progress e = true := by
        simp [progressEvent, hp0]
      generalize ({ p with startedAt := o.startedAt } : Hook) = p0
      have hp1 := sidecarStep_progress o Phase.post p0 w0
      obtain ⟨d1, he1, hq1⟩ := sidecarStep_snapshots o Phase.post p0 w0
      rcases hs1 : sidecarStep o Phase.post p0 w0 with ⟨e1, p1, w1⟩
      rw [hs1] at hp1 he1
      simp only at hp1 he1
      rw [hp0] at hq1
      have hall1 : ∀ e ∈ [Event.hookCall Phase.post, Event.update w0.task] ++ d1,
          progressEvent w.task.progress e = true := by
        intro e he
        rcases List.mem_append.mp he with he | he
        · exact hq0 e he
        · exact hq1 e he
      cases e1 with
      | some e =>
        exact ⟨_, by simp only [he1, he0, List.append_assoc], hall1⟩
      | none =>
        simp only
        have hp2 := scriptStep_progress parse o Phase.post p1 w1
        obtain ⟨d2, he2, hq2⟩ := scriptStep_snapshots parse o Phase.post p1 w1
        rcases hs2 : scriptStep parse o Phase.post p1 w1 with ⟨b2, p2, w2⟩
        rw [hs2] at hp2 he2
        simp only at hp2 he2
        rw [hp1, hp0] at hq2
        have hall2 : ∀ e ∈ ([Event.hookCall Phase.post, Event.update w0.task] ++ d1) ++ d2,
            progressEvent w.task.progress e = true := by
          intro e he
          rcases List.mem_append.mp he with he | he
          · exact hall1 e he
          · exact hq2 e he
        have hev2 : w2.events
            = w.events ++ (([Event.hookCall Phase.post, Event.update w0.task] ++ d1) ++ d2) := by
          simp only [he2, he1, he0, List.append_assoc]
        cases b2 with
        | true => exact ⟨_, hev2, hall2⟩
        | false =>
          simp only [importStep_post]
          refine ⟨_, ?_, hall2⟩
          rw [← hev2]
          split <;> rfl

theorem postDone_append {a b : List Event} (ha : PostDone a) (hb : PostDone b) :
    PostDone (a ++ b) := by
  intro t ht
  rw [snapshotsOf_append] at ht
  rcases List.mem_append.mp ht with h | h
  · exact ha t h
  · exact hb t h

theorem postDone_quiet {s : Status} {d : List Event}
    (h : ∀ e ∈ d, quietEvent s e = true) (hs : s ≠ Status.POST_PROCESSING) : PostDone d := by
  intro t ht hp
  exact absurd ((snapshotsOf_quiet h t ht).symm.trans hp) hs

theorem postDone_exec {s : Status} {d : List Event}
    (h : ∀ e ∈ d, execEvent s e = true) (hs : s ≠ Status.POST_PROCESSING) : PostDone d := by
  intro t ht hp
  exact absurd ((snapshotsOf_exec h t ht).symm.trans hp) hs

theorem postDone_progress {d : List Event}
    (h : ∀ e ∈ d, progressEvent (GoFloat.ofRat 100) e = true) : PostDone d := by
  induction d with
  | nil => intro t ht; simp [snapshotsOf] at ht
  | cons e es ih =>
    have hes := ih (fun e he => h e (List.mem_cons_of_mem _ he))
    have he := h e (List.mem_cons_self _ _)
    cases e with
    | update u =>
      intro t ht _
      rw [snapshotsOf_update] at ht
      rcases List.mem_cons.mp ht with rfl | ht
      · simpa [progressEvent] using he
      · exact hes t ht ‹_›
    | _ => exact hes

theorem postDone_update (t : Task)
    (h : t.status = Status.POST_PROCESSING → t.progress = GoFloat.ofRat 100) :
    PostDone [Event.update t] := by
  intro u hu
  simp only [snapshotsOf, List.mem_singleton] at hu
  rw [hu]
  exact h

theorem postDone_failTask (now : Int) (w : World) (err : Str) (h : PostDone w.events) :
    PostDone (failTask now w err).events := by
  obtain ⟨tf, hfe, _, hfp, _⟩ := failTask_events now w err
  rw [hfe]
  exact postDone_append h (postDone_update tf (fun _ => hfp))

theorem postDone_cancelTask (now : Int) (w : World) (err : Str) (h : PostDone w.events) :
    PostDone (cancelTask now w err).events := by
  obtain ⟨tf, hfe, _, hfp, _⟩ := cancelTask_events now w err
  rw [hfe]
  exact postDone_append h (postDone_update tf (fun _ => hfp))

theorem postDone_preHook (parse : Str → Except Str (List Str)) (o : HookOracle) (w : World)
    (h : PostDone w.events) :
    PostDone (prePostProcessTask parse o Phase.pre w).2.events := by
  obtain ⟨d, hev, hq, _⟩ := prePostProcessTask_events parse o Phase.pre w
  rw [hev]
  apply postDone_append h
  intro t ht
  rw [snapshotsOf_hookCall] at ht
  exact postDone_quiet hq (by decide) t ht

theorem postDone_beforeExecute (o : Oracle) (task : Task) :
    (∀ run, beforeExecute o task = Sum.inl run → PostDone run.world.events) ∧
    (∀ w, beforeExecute o task = Sum.inr w → PostDone w.events) := by
  have h0 : PostDone (startWorld o task).events := by
    intro t ht; simp [startWorld, snapshotsOf] at ht
  have h1 := postDone_preHook o.parse o.pre (startWorld o task) h0
  unfold beforeExecute
  rcases hr : prePostProcessTask o.parse o.pre Phase.pre (startWorld o task) with ⟨res, w1⟩
  rw [hr] at h1
  simp only at h1
  have hrun : PostDone (resolveAndRun o w1).events := by
    obtain ⟨hre, hrs⟩ := resolveAndRun_events o w1
    rw [hre]
    exact postDone_append h1 (postDone_update _ (fun hp => by rw [hrs] at hp; cases hp))
  have hmk : PostDone ((resolveAndRun o w1).emit
      (Event.mkdirAll (Dir (resolveAndRun o w1).task.outputFile.resolved))).events := by
    apply postDone_append hrun
    intro t ht; simp [snapshotsOf] at ht
  cases res with
  | panic =>
    refine ⟨?_, by simp⟩
    intro run hrun'
    simp only [Sum.inl.injEq] at hrun'
    subst hrun'
    exact h1
  | error e =>
    refine ⟨?_, by simp⟩
    intro run hrun'
    simp only [Sum.inl.injEq] at hrun'
    subst hrun'
    exact postDone_failTask _ _ _ h1
  | ok =>
    simp only
    cases hm : o.mkdirErr with
    | some e =>
      refine ⟨?_, by simp⟩
      intro run hrun'
      simp only [Sum.inl.injEq] at hrun'
      subst hrun'
      exact postDone_failTask _ _ _ hmk
    | none =>
      refine ⟨by simp, ?_⟩
      intro w hw
      simp only [Sum.inr.injEq] at hw
      subst hw
      apply postDone_append hmk
      intro t ht; simp [snapshotsOf] at ht

theorem postDone_afterExecute (o : Oracle) (err : Option Str) (w : World) (hi : w.idle)
    (h : PostDone w.events) : PostDone (afterExecute o err w).world.events := by
  rw [afterExecute_idle o err w hi]
  have hm : PostDone (markDone w).events := h
  cases err with
  | some e =>
    simp only
    cases causeAtCheck o.cancel with
    | some c => exact postDone_cancelTask _ _ _ hm
    | none => exact postDone_failTask _ _ _ hm
  | none =>
    simp only
    obtain ⟨d, hev, hq⟩ := postHook_snapshots o.parse o.post (markDone w)
    have h2 : PostDone (prePostProcessTask o.parse o.post Phase.post (markDone w)).2.events := by
      rw [hev]
      exact postDone_append hm (postDone_progress hq)
    rcases hr : prePostProcessTask o.parse o.post Phase.post (markDone w) with ⟨res, w2⟩
    rw [hr] at h2
    simp only at h2
    cases res with
    | panic => exact h2
    | error e => exact postDone_failTask _ _ _ h2
    | ok =>
      show PostDone (w2.events ++ [Event.update _])
      exact postDone_append h2 (postDone_update _ (fun hp => by cases hp))

/-- On every path through `processTask` on which no `UpdateFunc` call comes after the
return of `Execute`, a snapshot with status `POST_PROCESSING` has progress 100. -/
theorem postDone_processTask (o : Oracle) (task : Task) (hdone : o.scannersDone) :
    PostDone (processTask o task).world.events := by
  obtain ⟨hl, hr⟩ := postDone_beforeExecute o task
  obtain ⟨_, hs⟩ := beforeExecute_shape o task
  unfold processTask
  cases hb : beforeExecute o task with
  | inl run => exact hl run hb
  | inr w =>
    simp only
    obtain ⟨hws, _⟩ := hs w hb
    obtain ⟨_, dExec, hxe, hxq⟩ := callExecute_spec o w
    rw [hws] at hxq
    apply postDone_afterExecute _ _ _ (callExecute_idle o task w hdone hb)
    rw [hxe]
    exact postDone_append (hr w hb) (postDone_exec hxq (by decide))

/-- C16, counterexample: a task with a post hook that runs a script and succeeds; the
snapshot written when the post hook starts has status `POST_PROCESSING` and progress
100, because the progress is set to 100 as soon as the encoder has returned. -/
theorem post_snapshot_has_full_progress :
    (snapshotsOf (processTask sampleOracle postScriptTask).world.events).any
      (fun t => t.status == Status.POST_PROCESSING && t.progress == GoFloat.ofRat 100
        && !t.status.isTerminal) = true := by
  decide

/-- C16: on every path through `processTask` on which no `UpdateFunc` call comes after the
return of `Execute`, for every snapshot handed to `updateTask`: if its status is terminal
its progress is 100, and if its status is `POST_PROCESSING` its progress is 100 as
well. -/
theorem snapshot_progress_by_status (o : Oracle) (task : Task) (t : Task)
    (hdone : o.scannersDone)
    (ht : t ∈ snapshotsOf (processTask o task).world.events) :
    (t.status.isTerminal = true → t.progress = GoFloat.ofRat 100) ∧
    (t.status = Status.POST_PROCESSING → t.progress = GoFloat.ofRat 100) :=
  ⟨shape_terminal_progress (processTask_shape o task hdone) t ht,
   postDone_processTask o task hdone t ht⟩

theorem snapshot_progress_by_status_witness :
    (processTask sampleOracle postScriptTask).world.task.status = Status.DONE_SUCCESSFUL ∧
    (processTask sampleOracle postScriptTask).world.task.progress = GoFloat.ofRat 100 :=
  ⟨by decide,
   (snapshot_progress_by_status sampleOracle postScriptTask
      (processTask sampleOracle postScriptTask).world.task (fun _ => rfl) (by decide)).1
      (by decide)⟩

/-! ## The id of the live task (C17) -/

theorem sidecarStep_uuid (o : HookOracle) (phase : Phase) (p : Hook) (w : World) :
    (sidecarStep o phase p w).2.2.task.uuid = w.task.uuid := by
  unfold sidecarStep
  cases phase <;> (repeat' split) <;>
    simp [World.updateTask, World.emit, Task.setHook]

theorem scriptStep_uuid (parse : Str → Except Str (List Str)) (o : HookOracle)
    (phase : Phase) (p : Hook) (w : World) :
    (scriptStep parse o phase p w).2.2.task.uuid = w.task.uuid := by
  unfold scriptStep
  cases p.scriptPath with
  | none => simp
  | some sc =>
    simp only
    split
    · generalize Replace o.envScript sc.raw (hookFiles phase w.task).1
        (hookFiles phase w.task).2 w.task.source w.task.metadata = resolved
      rcases parse resolved with e | _ | ⟨a, as⟩
      · cases phase <;> simp [World.updateTask, Task.setHook]
      · cases phase <;> simp [World.updateTask, Task.setHook]
      · cases o.script <;> cases phase <;>
          simp [World.updateTask, World.emit, Task.setHook]
    · simp

theorem importStep_uuid (o : HookOracle) (phase : Phase) (p : Hook) (w : World) :
    (importStep o phase p w).2.2.2.task.uuid = w.task.uuid ∨
    (phase = Phase.pre ∧ (importStep o phase p w).2.2.2.task.uuid = o.imported.uuid) := by
  unfold importStep
  cases p.sidecarPath with
  | none => exact Or.inl rfl
  | some sp =>
    simp only
    split
    · rename_i h
      cases o.readErr with
      | some e => exact Or.inl rfl
      | none => exact Or.inr ⟨h.1, rfl⟩
    · exact Or.inl rfl

theorem setHook_uuid (t : Task) (phase : Phase) (p : Hook) :
    (t.setHook phase p).uuid = t.uuid := by
  cases phase <;> rfl

/-- The id of the live task after a hook call: the id it had, or, after a re-import in
the pre phase, the id the sidecar carries. -/
theorem prePostProcessTask_uuid (parse : Str → Except Str (List Str)) (o : HookOracle)
    (phase : Phase) (w : World) :
    (prePostProcessTask parse o phase w).2.task.uuid = w.task.uuid ∨
    (phase = Phase.pre ∧ (prePostProcessTask parse o phase w).2.task.uuid = o.imported.uuid) := by
  unfold prePostProcessTask
  simp only [World.emit]
  split
  · exact Or.inl rfl
  · rename_i p hp
    split
    · exact Or.inl rfl
    · generalize hw0 : World.updateTask
        { task := { (Task.setHook w.task phase { p with startedAt := o.startedAt }) with
            status := phaseStatus phase },
          events := w.events ++ [Event.hookCall phase],
          scanners := w.scanners } = w0
      have hu0 : w0.task.uuid = w.task.uuid := by
        subst hw0; cases phase <;> rfl
      generalize ({ p with startedAt := o.startedAt } : Hook) = p0
      have h1 := sidecarStep_uuid o phase p0 w0
      rcases hs1 : sidecarStep o phase p0 w0 with ⟨e1, p1, w1⟩
      rw [hs1] at h1
      simp only at h1
      cases e1 with
      | some e => exact Or.inl (h1.trans hu0)
      | none =>
        simp only
        have h2 := scriptStep_uuid parse o phase p1 w1
        rcases hs2 : scriptStep parse o phase p1 w1 with ⟨b2, p2, w2⟩
        rw [hs2] at h2
        simp only at h2
        have hu2 : w2.task.uuid = w.task.uuid := h2.trans (h1.trans hu0)
        cases b2 with
        | true => exact Or.inl hu2
        | false =>
          simp only
          have h3 := importStep_uuid o phase p2 w2
          rcases hs3 : importStep o phase p2 w2 with ⟨e3, p3, a3, w3⟩
          rw [hs3] at h3
          simp only at h3
          rw [hu2] at h3
          cases e3 with
          | some e => exact h3
          | none =>
            simp only
            have hfin : ∀ p4 : Hook,
                (if a3 = true then { w3 with task := w3.task.setHook phase p4 } else w3).task.uuid
                  = w3.task.uuid := by
              intro p4
              split
              · exact setHook_uuid _ _ _
              · rfl
            split <;> simp only [hfin] <;> exact h3

theorem scanLines_uuid (lib : ExecLib) (ls : List Str) (dur : GoFloat) (w : World) :
    (scanLines lib ls dur w).task.uuid = w.task.uuid := by
  induction ls generalizing dur w with
  | nil => rfl
  | cons line ls ih =>
    simp only [scanLines]
    rw [ih]
    split <;> rfl

theorem executeFrom_uuid (lib : ExecLib) (parse : Str → Except Str (List Str))
    (ffmpegPath : Str) (canceled : Bool) (child : Nat → ChildOracle)
    (cmds : List Str) (index : Nat) (w : World) :
    (executeFrom lib parse ffmpegPath canceled child index cmds w).2.task.uuid
      = w.task.uuid := by
  induction cmds generalizing index w with
  | nil => rfl
  | cons c cs ih =>
    simp only [executeFrom]
    rcases parse (trimSpace c) with e | args0
    · rfl
    · simp only
      cases (child index).pipeErr with
      | some e => rfl
      | none =>
        simp only
        cases startError (if 0 < index then [] else ffmpegPath) canceled (child index) with
        | some e => rfl
        | none =>
          simp only
          have hc : ∀ program args,
              (runChild lib (child index) program args w).task.uuid = w.task.uuid :=
            fun program args => scanLines_uuid _ _ _ _
          split
          · exact hc _ _
          · rw [ih]
            exact hc _ _

theorem worldRunScanners_uuid (lib : ExecLib) (w : World) :
    (w.runScanners lib).task.uuid = w.task.uuid :=
  sameButProgress_uuid (worldRunScanners_late lib w).1

theorem afterExecute_uuid (o : Oracle) (err : Option Str) (w : World) :
    (afterExecute o err w).world.task.uuid = w.task.uuid := by
  unfold afterExecute
  generalize hv : (markDone (w.runScanners o.lib)).runScanners o.lib = v
  have hvu : v.task.uuid = w.task.uuid := by
    subst hv
    rw [worldRunScanners_uuid]
    show (w.runScanners o.lib).task.uuid = _
    exact worldRunScanners_uuid _ _
  cases err with
  | some e =>
    simp only
    cases causeAtCheck o.cancel with
    | some c =>
      simp only
      rw [worldRunScanners_uuid]
      exact hvu
    | none =>
      simp only
      rw [worldRunScanners_uuid]
      exact hvu
  | none =>
    simp only
    have h := prePostProcessTask_uuid o.parse o.post Phase.post v
    have hu : (prePostProcessTask o.parse o.post Phase.post v).2.task.uuid
        = w.task.uuid := by
      rcases h with h | ⟨hp, _⟩
      · exact h.trans hvu
      · cases hp
    rcases hr : prePostProcessTask o.parse o.post Phase.post v with ⟨res, w2⟩
    rw [hr] at hu
    simp only at hu
    cases res with
    | panic => exact hu
    | error e =>
      simp only
      rw [worldRunScanners_uuid]
      show (w2.runScanners o.lib).task.uuid = _
      rw [worldRunScanners_uuid]
      exact hu
    | ok =>
      simp only
      rw [worldRunScanners_uuid]
      show (w2.runScanners o.lib).task.uuid = _
      rw [worldRunScanners_uuid]
      exact hu

/-- The id of the live task when the worker returns: the id of the dispatched task, or
the id the sidecar of the pre hook carries. -/
theorem processTask_uuid (o : Oracle) (task : Task) :
    (processTask o task).world.task.uuid = task.uuid ∨
    (processTask o task).world.task.uuid = o.pre.imported.uuid := by
  have h1 := prePostProcessTask_uuid o.parse o.pre Phase.pre (startWorld o task)
  have h1 : (prePostProcessTask o.parse o.pre Phase.pre (startWorld o task)).2.task.uuid
        = task.uuid ∨
      (prePostProcessTask o.parse o.pre Phase.pre (startWorld o task)).2.task.uuid
        = o.pre.imported.uuid := by
    rcases h1 with h | ⟨_, h⟩
    · exact Or.inl h
    · exact Or.inr h
  unfold processTask beforeExecute
  rcases hr : prePostProcessTask o.parse o.pre Phase.pre (startWorld o task) with ⟨res, w1⟩
  rw [hr] at h1
  simp only at h1
  cases res with
  | panic => exact h1
  | error e => exact h1
  | ok =>
    simp only
    cases o.mkdirErr with
    | some e => exact h1
    | none =>
      simp only
      rw [afterExecute_uuid]
      unfold callExecute Execute
      rw [executeFrom_uuid]
      exact h1

theorem mapGet_mapDelete (m : List (Str × Nat)) (k : Str) : mapGet (mapDelete m k) k = none := by
  unfold mapGet mapDelete
  have : (m.filter (fun e => e.1 != k)).find? (fun e => e.1 == k) = none := by
    rw [List.find?_eq_none]
    intro e he
    have := (List.mem_filter.mp he).2
    simpa using this
  rw [this]
  rfl

/-- C17, at the failing input: the dispatch loop inserts the task under its id `t1`; the
pre hook re-imports a sidecar that carries the id `t2`; the worker succeeds and its
`doneFunc` deletes the key `t2`.  The key `t1` stays in the map: with a cap of one, the
next tick dispatches nothing, and a cancel request for `t1` is still accepted. -/
theorem worker_exit_keeps_entry :
    (processTask renamingOracle importTask).world.task.status = Status.DONE_SUCCESSFUL ∧
    doneFunc renamingOracle importTask = SchedEvent.workerExit "t2".toList ∧
    mapGet (schedRun 1 [SchedEvent.tick (Except.ok (some importTask)),
        doneFunc renamingOracle importTask]).taskCtx "t1".toList = some 0 ∧
    schedRun 1 [SchedEvent.tick (Except.ok (some importTask)),
        doneFunc renamingOracle importTask,
        SchedEvent.tick (Except.ok (some otherTask))]
      = schedRun 1 [SchedEvent.tick (Except.ok (some importTask)),
        doneFunc renamingOracle importTask] := by
  refine ⟨by decide, ?_, ?_, ?_⟩
  · have : (processTask renamingOracle importTask).world.task.uuid = "t2".toList := by decide
    unfold doneFunc
    rw [this]
  · have : doneFunc renamingOracle importTask = SchedEvent.workerExit "t2".toList := by
      have : (processTask renamingOracle importTask).world.task.uuid = "t2".toList := by decide
      unfold doneFunc
      rw [this]
    rw [this]
    decide
  · have : doneFunc renamingOracle importTask = SchedEvent.workerExit "t2".toList := by
      have : (processTask renamingOracle importTask).world.task.uuid = "t2".toList := by decide
      unfold doneFunc
      rw [this]
    rw [this]
    decide

/-- X4: when the sidecar the pre hook may re-import carries the id of the dispatched task,
the `doneFunc` of its worker leaves the map without the key of the task, whatever the
state of the scheduler is when the worker returns. -/
theorem worker_exit_removes_entry (max : Nat) (s : SchedState) (o : Oracle) (task : Task)
    (h : o.pre.imported.uuid = task.uuid) :
    mapGet (schedStep max s (doneFunc o task)).taskCtx task.uuid = none := by
  have hu : (processTask o task).world.task.uuid = task.uuid := by
    rcases processTask_uuid o task with hu | hu
    · exact hu
    · exact hu.trans h
  unfold doneFunc
  rw [hu]
  exact mapGet_mapDelete _ _

theorem worker_exit_removes_entry_witness :
    mapGet (schedStep 1 (schedRun 1 [SchedEvent.tick (Except.ok (some sampleTask))])
      (doneFunc sampleOracle sampleTask)).taskCtx "t1".toList = none :=
  worker_exit_removes_entry 1 (schedRun 1 [SchedEvent.tick (Except.ok (some sampleTask))])
    sampleOracle sampleTask rfl

/-! ## The duration a progress frame is computed against (C18) -/

theorem lastDuration_nil (lib : ExecLib) (init : GoFloat) : lastDuration lib [] init = init :=
  rfl

theorem lastDuration_cons (lib : ExecLib) (line : Str) (ls : List Str) (init : GoFloat) :
    lastDuration lib (line :: ls) init
      = lastDuration lib ls
          (match lib.reDuration line with
            | some d => lib.parseDuration d
            | none => init) := by
  unfold lastDuration
  rw [List.reverse_cons, List.findSome?_append]
  cases h : ls.reverse.findSome? lib.reDuration with
  | some d => simp
  | none =>
    cases h2 : lib.reDuration line <;> simp [List.findSome?, h2]

/-- The `duration` a scanner goroutine carries on is the one parsed from the last
matching line it has handled. -/
theorem scanDuration_eq_lastDuration (lib : ExecLib) (ls : List Str) (init : GoFloat) :
    scanDuration lib ls init = lastDuration lib ls init := by
  induction ls generalizing init with
  | nil => rfl
  | cons line ls ih => rw [lastDuration_cons, ← ih]; rfl

theorem lastDuration_append (lib : ExecLib) (a b : List Str) (init : GoFloat) :
    lastDuration lib (a ++ b) init = lastDuration lib b (lastDuration lib a init) := by
  induction a generalizing init with
  | nil => rfl
  | cons line a ih => rw [List.cons_append, lastDuration_cons, ih, lastDuration_cons lib line a]

theorem scanLines_single (lib : ExecLib) (line : Str) (ls : List Str) (dur : GoFloat)
    (w : World) :
    scanLines lib (line :: ls) dur w
      = scanLines lib ls (lastDuration lib [line] dur)
          (frameStep lib line (lastDuration lib [line] dur) w) := by
  rw [lastDuration_cons, lastDuration_nil]
  rfl

theorem scanLines_append (lib : ExecLib) (a b : List Str) (dur : GoFloat) (w : World) :
    scanLines lib (a ++ b) dur w
      = scanLines lib b (lastDuration lib a dur) (scanLines lib a dur w) := by
  induction a generalizing dur w with
  | nil => rfl
  | cons line a ih =>
    rw [List.cons_append, scanLines_single, ih, lastDuration_cons lib line a,
      scanLines_single lib line a]
    simp only [lastDuration_cons, lastDuration_nil]

/-- C18, counterexample: the encoder prints a duration of one minute, then one of two
minutes, then a frame at 30 seconds.  `Execute` reports 25 percent, the frame computed
against the second duration; against the first it would be 50 percent. -/
theorem frame_uses_second_duration :
    (Execute durationLib sampleParse "/usr/bin/ffmpeg".toList false
        (fun _ => twoDurationsChild) "-i a.mp4 -i b.mp4 out.mkv".toList
        { task := sampleTask, events := [] }).2.task.progress = GoFloat.ofRat 25 ∧
    durationLib.frame "out_time=00:00:30.00".toList
        (durationLib.parseDuration "00:01:00.00".toList)
      = some (GoFloat.ofRat 50, GoFloat.ofRat 30) := by
  decide

/-- C18: within one sub-command, the scanner loop computes the progress frame of a line
against the duration parsed from the last matching line up to and including that line
(zero when none has matched yet), and carries that duration on to the lines after it:
every matching line replaces the duration. -/
theorem frame_uses_last_duration (lib : ExecLib) (before : List Str) (line : Str)
    (after : List Str) (w : World) :
    scanLines lib (before ++ line :: after) (GoFloat.ofRat 0) w
      = scanLines lib after (lastDuration lib (before ++ [line]) (GoFloat.ofRat 0))
          (frameStep lib line (lastDuration lib (before ++ [line]) (GoFloat.ofRat 0))
            (scanLines lib before (GoFloat.ofRat 0) w)) := by
  rw [scanLines_append, scanLines_single]
  rw [lastDuration_append]

/-! ## How the sub-commands of a command are launched (C19) -/

/-- C19, at the failing input: for the command `-i a.mp4 out.mkv && /bin/echo done` the
first sub-command is started with the encoder path and its tokens followed by
`-progress pipe:2`; the second one is created with the empty program path, so it cannot
be started: `/bin/echo` is never launched and `Execute` returns the start error. -/
theorem later_subcommand_not_launched :
    (Execute sampleLib sampleParse "/usr/bin/ffmpeg".toList false (fun _ => sampleChild)
        "-i a.mp4 out.mkv && /bin/echo done".toList { task := sampleTask, events := [] }).1
      = some "FFMPEG - failed to start ffmpeg: exec: no command".toList ∧
    (Execute sampleLib sampleParse "/usr/bin/ffmpeg".toList false (fun _ => sampleChild)
        "-i a.mp4 out.mkv && /bin/echo done".toList
        { task := sampleTask, events := [] }).2.events.filter
        (fun e => match e with
          | Event.spawn _ _ => true
          | _ => false)
      = [Event.spawn "/usr/bin/ffmpeg".toList
          ["-i".toList, "a.mp4".toList, "out.mkv".toList, "-progress".toList,
           "pipe:2".toList]] := by
  decide

theorem scanLines_events (lib : ExecLib) (ls : List Str) (dur : GoFloat) (w : World)
    (e : Event) (he : e ∈ (scanLines lib ls dur w).events) :
    e ∈ w.events ∨ ∃ t, e = Event.update t := by
  induction ls generalizing dur w with
  | nil => exact Or.inl he
  | cons line ls ih =>
    simp only [scanLines] at he
    rcases ih _ _ he with h | h
    · split at h
      · simp only [World.updateTask, List.mem_append, List.mem_singleton] at h
        rcases h with h | h
        · exact Or.inl h
        · exact Or.inr ⟨_, h⟩
      · exact Or.inl h
    · exact Or.inr h

/-- A sub-command after the first is created with the empty program path, so it is never
started: from such an index on `Execute` changes nothing, and returns an error if there
is a sub-command left. -/
theorem executeFrom_later (lib : ExecLib) (parse : Str → Except Str (List Str))
    (ffmpegPath : Str) (canceled : Bool) (child : Nat → ChildOracle)
    (index : Nat) (hi : 0 < index) (cmds : List Str) (w : World) :
    (executeFrom lib parse ffmpegPath canceled child index cmds w).2 = w ∧
    (cmds ≠ [] → (executeFrom lib parse ffmpegPath canceled child index cmds w).1 ≠ none) := by
  cases cmds with
  | nil => exact ⟨rfl, fun h => absurd rfl h⟩
  | cons c cs =>
    simp only [executeFrom]
    rcases parse (trimSpace c) with e | args0
    · exact ⟨rfl, fun _ => by simp⟩
    · simp only
      cases (child index).pipeErr with
      | some e => exact ⟨rfl, fun _ => by simp⟩
      | none =>
        simp only
        rw [if_pos hi]
        have : startError [] canceled (child index) = some "exec: no command".toList := by
          simp [startError]
        rw [this]
        exact ⟨rfl, fun _ => by simp⟩

/-- X5: for every command whose first sub-command parses into the tokens `args0`: every
child `Execute` starts is the encoder at the configured path with the arguments `args0`
followed by `-progress pipe:2`, and when the command has more than one sub-command
`Execute` returns an error. -/
theorem execute_launches_first_only (lib : ExecLib) (parse : Str → Except Str (List Str))
    (ffmpegPath : Str) (canceled : Bool) (child : Nat → ChildOracle) (command : Str)
    (w : World) (c0 : Str) (rest : List Str) (args0 : List Str)
    (hsplit : splitStr command "&&".toList = c0 :: rest)
    (hparse : parse (trimSpace c0) = Except.ok args0) :
    (∀ prog args,
      Event.spawn prog args ∈ (Execute lib parse ffmpegPath canceled child command w).2.events →
      Event.spawn prog args ∈ w.events ∨
        (prog = ffmpegPath ∧ args = args0 ++ ["-progress".toList, "pipe:2".toList])) ∧
    (rest ≠ [] → (Execute lib parse ffmpegPath canceled child command w).1 ≠ none) := by
  unfold Execute
  rw [hsplit]
  simp only [executeFrom, hparse]
  cases (child 0).pipeErr with
  | some e => exact ⟨fun _ _ h => Or.inl h, fun _ => by simp⟩
  | none =>
    simp only
    have h0 : (if 0 < 0 then ([] : Str) else ffmpegPath) = ffmpegPath := rfl
    rw [h0]
    cases startError ffmpegPath canceled (child 0) with
    | some e => exact ⟨fun _ _ h => Or.inl h, fun _ => by simp⟩
    | none =>
      simp only
      have key : ∀ prog args,
          Event.spawn prog args ∈ (runChild lib (child 0) ffmpegPath
            (args0 ++ ["-progress".toList, "pipe:2".toList]) w).events →
          Event.spawn prog args ∈ w.events ∨
            (prog = ffmpegPath ∧ args = args0 ++ ["-progress".toList, "pipe:2".toList]) := by
        intro prog args h
        have h' : Event.spawn prog args ∈ (scanLines lib (child 0).lines (GoFloat.ofRat 0)
            (w.emit (Event.spawn ffmpegPath
              (args0 ++ ["-progress".toList, "pipe:2".toList])))).events := h
        rcases scanLines_events _ _ _ _ _ h' with h | ⟨t, ht⟩
        · simp only [World.emit, List.mem_append, List.mem_singleton] at h
          rcases h with h | h
          · exact Or.inl h
          · injection h with h1 h2
            exact Or.inr ⟨h1, h2⟩
        · cases ht
      split
      · exact ⟨fun prog args h => key prog args h, fun _ => by simp⟩
      · obtain ⟨hw, herr⟩ := executeFrom_later lib parse ffmpegPath canceled child (0 + 1)
          (by decide) rest (runChild lib (child 0) ffmpegPath
            (args0 ++ ["-progress".toList, "pipe:2".toList]) w)
        rw [hw]
        exact ⟨fun prog args h => key prog args h, herr⟩

theorem execute_launches_first_only_witness :
    (Execute sampleLib sampleParse "/usr/bin/ffmpeg".toList false (fun _ => sampleChild)
      "-i a.mp4 out.mkv && /bin/echo done".toList { task := sampleTask, events := [] }).1
      ≠ none :=
  (execute_launches_first_only sampleLib sampleParse "/usr/bin/ffmpeg".toList false
    (fun _ => sampleChild) "-i a.mp4 out.mkv && /bin/echo done".toList
    { task := sampleTask, events := [] } "-i a.mp4 out.mkv ".toList [" /bin/echo done".toList]
    ["-i".toList, "a.mp4".toList, "out.mkv".toList] (by decide) rfl).2 (by decide)

end Ffmate
